import Mathlib

/-!
Shallow embedding of the cJSON library (src/cJSON-1.7.19/cJSON.c) and proofs
about the claims of the specification.

Modelling conventions, used throughout:
* C byte strings are `List Nat` of byte values (0..255) without the
  terminating nul; a `NULL` pointer to a string is `none`.
* The C `double` payload is modelled by `FDouble`: a finite value is the
  exact rational it denotes, and NaN / the infinities are separate
  constructors.  Decimal-to-binary rounding of the platform `strtod` is not
  modelled (the parsed value is kept as the exact rational); every theorem
  below is insensitive to that rounding.
* Allocation always succeeds (out-of-memory paths of the source are not
  modelled); the process-global allocator hooks and the global error slot
  are dropped.
* Loops and recursions of the source that are bounded by pointer progress
  are given an explicit fuel parameter or a structurally decreasing measure;
  entry points pass generous fuel.
-/

set_option maxHeartbeats 1000000

/-- Executable subtraction on ℚ (`Rat.sub` is `@[irreducible]`, which blocks
kernel evaluation; this normalizing form is definitionally computable and
equal to `a - b`). -/
def qsub (a b : ℚ) : ℚ := mkRat (a.num * b.den - b.num * a.den) (a.den * b.den)

/-- Executable multiplication on ℚ (see `qsub`). -/
def qmul (a b : ℚ) : ℚ := mkRat (a.num * b.num) (a.den * b.den)

/-- Model of the C `double` payload: a finite value is represented by the
exact rational it denotes; NaN and the two infinities are separate
constructors. -/
inductive FDouble where
  | finite (q : ℚ)
  | nan
  | inf
  | neginf
deriving DecidableEq, Repr

namespace FDouble

/-- C `isnan`. -/
def isnan : FDouble → Bool
  | .nan => true
  | _ => false

/-- C `isinf`. -/
def isinf : FDouble → Bool
  | .inf => true
  | .neginf => true
  | _ => false

/-- C `==` on doubles: NaN compares unequal to everything, including itself. -/
def beq : FDouble → FDouble → Bool
  | .finite a, .finite b => a == b
  | .inf, .inf => true
  | .neginf, .neginf => true
  | _, _ => false

/-- C `fabs`. -/
def fabs : FDouble → FDouble
  | .finite q => .finite |q|
  | .nan => .nan
  | .inf => .inf
  | .neginf => .inf

/-- C subtraction on doubles (IEEE special-value rules; finite arithmetic is
exact in the model). -/
def sub : FDouble → FDouble → FDouble
  | .finite a, .finite b => .finite (qsub a b)
  | .nan, _ => .nan
  | _, .nan => .nan
  | .inf, .inf => .nan
  | .inf, _ => .inf
  | .neginf, .neginf => .nan
  | .neginf, _ => .neginf
  | .finite _, .inf => .neginf
  | .finite _, .neginf => .inf

/-- C multiplication on doubles (IEEE special-value rules). -/
def mul : FDouble → FDouble → FDouble
  | .finite a, .finite b => .finite (qmul a b)
  | .nan, _ => .nan
  | _, .nan => .nan
  | .inf, .inf => .inf
  | .inf, .neginf => .neginf
  | .neginf, .inf => .neginf
  | .neginf, .neginf => .inf
  | .inf, .finite b => if 0 < b then .inf else if b < 0 then .neginf else .nan
  | .finite a, .inf => if 0 < a then .inf else if a < 0 then .neginf else .nan
  | .neginf, .finite b => if 0 < b then .neginf else if b < 0 then .inf else .nan
  | .finite a, .neginf => if 0 < a then .neginf else if a < 0 then .inf else .nan

/-- C `<=` on doubles: any comparison involving NaN is false. -/
def le : FDouble → FDouble → Bool
  | .finite a, .finite b => a ≤ b
  | .nan, _ => false
  | _, .nan => false
  | .neginf, _ => true
  | _, .inf => true
  | _, _ => false

/-- C `>` on doubles: any comparison involving NaN is false. -/
def gt : FDouble → FDouble → Bool
  | .finite a, .finite b => b < a
  | .nan, _ => false
  | _, .nan => false
  | .inf, .inf => false
  | .inf, _ => true
  | .neginf, .neginf => false
  | _, .neginf =>
    true
  | _, _ => false

/-- C `>=` on doubles: any comparison involving NaN is false. -/
def ge : FDouble → FDouble → Bool
  | .finite a, .finite b => b ≤ a
  | .nan, _ => false
  | _, .nan => false
  | .inf, _ => true
  | _, .neginf => true
  | _, _ => false

end FDouble

/-- Conversion of a C `int` to `double`; every 32-bit integer is exactly
representable in binary64, so the conversion is exact. -/
def intToDouble (i : Int) : FDouble := .finite (i : ℚ)

/-- DBL_EPSILON, the machine epsilon of binary64: 2^-52, exact. -/
def DBL_EPSILON : FDouble := .finite (mkRat 1 (2 ^ 52))

/-- INT_MAX of the 32-bit `int` used by the source. -/
def INT_MAX : Int := 2147483647

/-- INT_MIN of the 32-bit `int` used by the source. -/
def INT_MIN : Int := -2147483648

/-- Shallow embedding of `struct cJSON`.  The heap links are replaced by
values: the `child` pointer together with the `next`/`prev` sibling chain
collapses to the list `child` of children in sibling order (the pointer-level
sibling list itself is modelled separately for the mutation claims); absent
(`NULL`) string pointers are `none`. -/
inductive cJSON where
  | mk (type : Nat) (valuestring : Option (List Nat)) (valueint : Int)
      (valuedouble : FDouble) (string : Option (List Nat)) (child : List cJSON)

/-- Accessor for the `type` field. -/
def cJSON.type : cJSON → Nat
  | .mk t _ _ _ _ _ => t

/-- Accessor for the `valuestring` field. -/
def cJSON.valuestring : cJSON → Option (List Nat)
  | .mk _ v _ _ _ _ => v

/-- Accessor for the `valueint` field. -/
def cJSON.valueint : cJSON → Int
  | .mk _ _ v _ _ _ => v

/-- Accessor for the `valuedouble` field. -/
def cJSON.valuedouble : cJSON → FDouble
  | .mk _ _ _ v _ _ => v

/-- Accessor for the key (`string`) field. -/
def cJSON.string : cJSON → Option (List Nat)
  | .mk _ _ _ _ s _ => s

/-- Accessor for the children list (`child` plus the sibling chain). -/
def cJSON.child : cJSON → List cJSON
  | .mk _ _ _ _ _ c => c

/-- Node produced by `cJSON_New_Item`: all fields zeroed. -/
def newItem : cJSON := .mk 0 none 0 (.finite 0) none []

/-- Modelled from the spec: the node kind code `cJSON_Invalid` of `cJSON.h`
(the header is not under src/; the codes are the standard cJSON ones, and
only their distinctness and low-byte placement matter to the claims). -/
def cJSON_Invalid : Nat := 0

/-- Modelled from the spec: the node kind code `cJSON_False` of `cJSON.h`. -/
def cJSON_False : Nat := 1

/-- Modelled from the spec: the node kind code `cJSON_True` of `cJSON.h`. -/
def cJSON_True : Nat := 2

/-- Modelled from the spec: the node kind code `cJSON_NULL` of `cJSON.h`. -/
def cJSON_NULL : Nat := 4

/-- Modelled from the spec: the node kind code `cJSON_Number` of `cJSON.h`. -/
def cJSON_Number : Nat := 8

/-- Modelled from the spec: the node kind code `cJSON_String` of `cJSON.h`. -/
def cJSON_String : Nat := 16

/-- Modelled from the spec: the node kind code `cJSON_Array` of `cJSON.h`. -/
def cJSON_Array : Nat := 32

/-- Modelled from the spec: the node kind code `cJSON_Object` of `cJSON.h`. -/
def cJSON_Object : Nat := 64

/-- Modelled from the spec: the node kind code `cJSON_Raw` of `cJSON.h`. -/
def cJSON_Raw : Nat := 128

/-- Modelled from the spec: the flag bit `cJSON_IsReference` of `cJSON.h`. -/
def cJSON_IsReference : Nat := 256

/-- Modelled from the spec: the flag bit `cJSON_StringIsConst` of `cJSON.h`. -/
def cJSON_StringIsConst : Nat := 512

/-- Modelled from the spec: the compile-time nesting limit
`CJSON_NESTING_LIMIT` of `cJSON.h` (default value 1000). -/
def CJSON_NESTING_LIMIT : Nat := 1000

mutual

/-- Structural depth of a node (1 + depth of its deepest child); used as the
fuel bound for the printer's recursion. -/
def cdepthC : cJSON → Nat
  | .mk _ _ _ _ _ cs => cdepthList cs + 1

/-- Structural depth of a children list. -/
def cdepthList : List cJSON → Nat
  | [] => 0
  | c :: cs => max (cdepthC c) (cdepthList cs)

end

mutual

/-- Structural size of a node (1 + sizes of its children); entry wrappers use
it to bound the fuel of the printer's and the comparison's recursion. -/
def csizeC : cJSON → Nat
  | .mk _ _ _ _ _ cs => csizeList cs + 1

/-- Structural size of a children list. -/
def csizeList : List cJSON → Nat
  | [] => 0
  | c :: cs => csizeC c + csizeList cs

end

mutual

/-- Container nesting depth of a node: arrays and objects count one plus the
deepest container depth among their children, every other kind counts zero. -/
def containerDepth : cJSON → Nat
  | .mk t _ _ _ _ cs =>
    if t &&& 255 = cJSON_Array ∨ t &&& 255 = cJSON_Object then
      containerDepthList cs + 1
    else 0

/-- Container nesting depth of a children list (maximum over the list). -/
def containerDepthList : List cJSON → Nat
  | [] => 0
  | c :: cs => max (containerDepth c) (containerDepthList cs)

end

/-- Embedding of `parse_buffer` (the allocator hooks are dropped: allocation
always succeeds in the model). -/
structure parse_buffer where
  content : List Nat
  length : Nat
  offset : Nat
  depth : Nat

/-- Byte of the buffer memory at absolute index `i`.  Reads beyond the
modelled content, which the source only performs on memory it may access,
return 0. -/
def byteAt (b : parse_buffer) (i : Nat) : Nat := b.content.getD i 0

/-- Macro `can_access_at_index` (the NULL check is dropped). -/
def can_access_at_index (b : parse_buffer) (index : Nat) : Bool :=
  b.offset + index < b.length

/-- Macro `can_read` (the NULL check is dropped). -/
def can_read (b : parse_buffer) (size : Nat) : Bool :=
  b.offset + size ≤ b.length

/-- Byte `buffer_at_offset(buffer)[i]`. -/
def bufByte (b : parse_buffer) (i : Nat) : Nat := byteAt b (b.offset + i)

/-- Test `strncmp(buffer_at_offset(buffer), lit, lit.length) == 0`. -/
def litMatch (b : parse_buffer) (lit : List Nat) : Bool :=
  (List.range lit.length).all fun i => bufByte b i == lit.getD i 0

/-- Digit branches of one iteration of `parse_hex4`: the value of a hex digit
byte, or `none` in the invalid case. -/
def hexDigitVal (c : Nat) : Option Nat :=
  if 48 ≤ c ∧ c ≤ 57 then some (c - 48)
  else if 65 ≤ c ∧ c ≤ 70 then some (10 + c - 65)
  else if 97 ≤ c ∧ c ≤ 102 then some (10 + c - 97)
  else none

/-- Embedding of `parse_hex4` with its four-iteration loop unrolled.  Each
iteration adds the digit value of `input[i]` to `h` and shifts `h` left by a
nibble while `i < 3`; an invalid digit makes the whole call return 0. -/
def parse_hex4 (input : List Nat) : Nat :=
  match hexDigitVal (input.getD 0 0) with
  | none => 0
  | some d0 =>
    match hexDigitVal (input.getD 1 0) with
    | none => 0
    | some d1 =>
      match hexDigitVal (input.getD 2 0) with
      | none => 0
      | some d2 =>
        match hexDigitVal (input.getD 3 0) with
        | none => 0
        | some d3 => ((d0 * 16 + d1) * 16 + d2) * 16 + d3

/-- Continuation-byte loop of `utf16_literal_to_utf8`: emit `k` bytes of the
form `(codepoint | 0x80) & 0xBF`, filling the output from the back while
shifting the codepoint right by 6 bits; returns the bytes in output order
together with the remaining codepoint bits. -/
def utf8Tail (cp : Nat) : Nat → (List Nat × Nat)
  | 0 => ([], cp)
  | k + 1 =>
    let b := (cp ||| 128) &&& 191
    let (bs, cp') := utf8Tail (cp >>> 6) k
    (bs ++ [b], cp')

/-- UTF-8 encoding step of `utf16_literal_to_utf8`: the continuation bytes
plus the first byte (`(cp | first_byte_mark) & 0xFF` when more than one byte,
`cp & 0x7F` otherwise). -/
def utf8Bytes (cp : Nat) (utf8_length : Nat) (first_byte_mark : Nat) : List Nat :=
  let (tl, hi) := utf8Tail cp (utf8_length - 1)
  if 1 < utf8_length then ((hi ||| first_byte_mark) &&& 255) :: tl
  else [hi &&& 127]

/-- Embedding of `utf16_literal_to_utf8` reading the escape sequence that
starts at absolute index `p` and must end before `e`.  The C function returns
the consumed `sequence_length` (12 for a surrogate pair, else 6) and appends
the UTF-8 bytes to the output; here the Bool records whether a surrogate pair
was consumed, and failure (`return 0`) is `none`. -/
def utf16_literal_to_utf8 (content : List Nat) (p e : Nat) : Option (Bool × List Nat) :=
  if e - p < 6 then none
  else
    let first_code := parse_hex4 (content.drop (p + 2))
    if 0xDC00 ≤ first_code ∧ first_code ≤ 0xDFFF then none
    else
      let step :=
        if 0xD800 ≤ first_code ∧ first_code ≤ 0xDBFF then
          -- surrogate pair: the second sequence starts at p + 6
          if e - (p + 6) < 6 then none
          else if ¬ (content.getD (p + 6) 0 = 92 ∧ content.getD (p + 7) 0 = 117) then none
          else
            let second_code := parse_hex4 (content.drop (p + 8))
            if second_code < 0xDC00 ∨ 0xDFFF < second_code then none
            else some (true,
              0x10000 + (((first_code &&& 0x3FF) <<< 10) ||| (second_code &&& 0x3FF)))
        else some (false, first_code)
      match step with
      | none => none
      | some (pair, codepoint) =>
        if codepoint < 0x80 then some (pair, utf8Bytes codepoint 1 0)
        else if codepoint < 0x800 then some (pair, utf8Bytes codepoint 2 0xC0)
        else if codepoint < 0x10000 then some (pair, utf8Bytes codepoint 3 0xE0)
        else if codepoint ≤ 0x10FFFF then some (pair, utf8Bytes codepoint 4 0xF0)
        else none

/-- First pass of `parse_string`: starting at `input_end` = `e`, scan to the
closing unescaped quote, counting escape-introducer bytes in `skipped`;
`none` when the string ends unexpectedly. -/
def scanStringEnd (content : List Nat) (length : Nat) :
    Nat → Nat → Nat → Option (Nat × Nat)
  | 0, _, _ => none
  | fuel + 1, e, skipped =>
    if e < length ∧ content.getD e 0 ≠ 34 then
      if content.getD e 0 = 92 then
        if length ≤ e + 1 then none  -- last input character is a backslash
        else scanStringEnd content length fuel (e + 2) (skipped + 1)
      else scanStringEnd content length fuel (e + 1) skipped
    else
      if length ≤ e ∨ content.getD e 0 ≠ 34 then none
      else some (e, skipped)

/-- Second pass of `parse_string`: decode the bytes in `[p, e)`, mapping
escape sequences to their bytes and `\u` literals through
`utf16_literal_to_utf8`. -/
def decodeString (content : List Nat) : Nat → Nat → Nat → Option (List Nat)
  | 0, _, _ => none
  | fuel + 1, p, e =>
    if p < e then
      if content.getD p 0 ≠ 92 then
        (decodeString content fuel (p + 1) e).map (content.getD p 0 :: ·)
      else
        match content.getD (p + 1) 0 with
        | 98 => (decodeString content fuel (p + 2) e).map (8 :: ·)
        | 102 => (decodeString content fuel (p + 2) e).map (12 :: ·)
        | 110 => (decodeString content fuel (p + 2) e).map (10 :: ·)
        | 114 => (decodeString content fuel (p + 2) e).map (13 :: ·)
        | 116 => (decodeString content fuel (p + 2) e).map (9 :: ·)
        | 34 => (decodeString content fuel (p + 2) e).map (34 :: ·)
        | 92 => (decodeString content fuel (p + 2) e).map (92 :: ·)
        | 47 => (decodeString content fuel (p + 2) e).map (47 :: ·)
        | 117 =>
          match utf16_literal_to_utf8 content p e with
          | none => none
          | some (pair, bytes) =>
            (decodeString content fuel (p + (if pair then 12 else 6)) e).map
              (bytes ++ ·)
        | _ => none
    else some []

/-- Embedding of `parse_string`.  On failure the source rewinds the offset for
error reporting, which is dropped: failures discard the buffer.  The
allocation-size computation of the first pass has no semantic effect in the
model (allocation always succeeds) beyond the scan itself. -/
def parse_string (b : parse_buffer) : Option (cJSON × parse_buffer) :=
  if bufByte b 0 ≠ 34 then none
  else
    match scanStringEnd b.content b.length (b.length + 1) (b.offset + 1) 0 with
    | none => none
    | some (e, _skipped) =>
      match decodeString b.content (e + 1) (b.offset + 1) e with
      | none => none
      | some out =>
        some (.mk cJSON_String (some out) 0 (.finite 0) none [],
              { b with offset := e + 1 })

/-- Digit test of `strtod` / `parse_number`. -/
def isDigit (c : Nat) : Bool := 48 ≤ c ∧ c ≤ 57

/-- Value of a digit string. -/
def digitsVal (l : List Nat) : Nat := l.foldl (fun a c => a * 10 + (c - 48)) 0

/-- Truncating conversion `(int)number` of a finite double: rounds toward
zero (`Int.div` of the numerator by the denominator is exactly that). -/
def ratTrunc (q : ℚ) : Int := q.num.div (q.den : ℤ)

/-- Model of the platform `strtod` restricted to decimal inputs (the only
form `parse_number` can pass it): parses `[+-]? digits* [. digits*]
[(e|E) [+-]? digits+]`, requires at least one mantissa digit, and returns the
exact rational value together with the number of bytes consumed (the distance
`after_end - number_c_string`); `none` when no conversion is performed.  The
real `strtod` rounds the value to the nearest binary64; the claims proved in
this file do not depend on that rounding. -/
def strtodModel (s : List Nat) : Option (ℚ × Nat) :=
  let signStep : Bool × List Nat × Nat :=
    match s with
    | 45 :: r => (true, r, 1)
    | 43 :: r => (false, r, 1)
    | r => (false, r, 0)
  match signStep with
  | (neg, rest, consumed0) =>
    let intPart := rest.takeWhile isDigit
    let rest1 := rest.drop intPart.length
    let fracStep : List Nat × List Nat × Nat :=
      match rest1 with
      | 46 :: r => (r.takeWhile isDigit, r.drop (r.takeWhile isDigit).length,
                    (r.takeWhile isDigit).length + 1)
      | _ => ([], rest1, 0)
    match fracStep with
    | (fracPart, rest2, fracConsumed) =>
      if intPart.length = 0 ∧ fracPart.length = 0 then none
      else
        let mantissa : ℚ :=
          mkRat (digitsVal (intPart ++ fracPart) : ℤ) (10 ^ fracPart.length)
        let baseConsumed := consumed0 + intPart.length + fracConsumed
        let expStep : ℤ × Nat :=
          match rest2 with
          | 101 :: r =>
            match r with
            | 45 :: rr =>
              if (rr.takeWhile isDigit).length = 0 then (0, 0)
              else (-(digitsVal (rr.takeWhile isDigit) : ℤ), 2 + (rr.takeWhile isDigit).length)
            | 43 :: rr =>
              if (rr.takeWhile isDigit).length = 0 then (0, 0)
              else ((digitsVal (rr.takeWhile isDigit) : ℤ), 2 + (rr.takeWhile isDigit).length)
            | rr =>
              if (rr.takeWhile isDigit).length = 0 then (0, 0)
              else ((digitsVal (rr.takeWhile isDigit) : ℤ), 1 + (rr.takeWhile isDigit).length)
          | 69 :: r =>
            match r with
            | 45 :: rr =>
              if (rr.takeWhile isDigit).length = 0 then (0, 0)
              else (-(digitsVal (rr.takeWhile isDigit) : ℤ), 2 + (rr.takeWhile isDigit).length)
            | 43 :: rr =>
              if (rr.takeWhile isDigit).length = 0 then (0, 0)
              else ((digitsVal (rr.takeWhile isDigit) : ℤ), 2 + (rr.takeWhile isDigit).length)
            | rr =>
              if (rr.takeWhile isDigit).length = 0 then (0, 0)
              else ((digitsVal (rr.takeWhile isDigit) : ℤ), 1 + (rr.takeWhile isDigit).length)
          | _ => (0, 0)
        match expStep with
        | (expVal, expConsumed) =>
          let signed := if neg then mkRat (-mantissa.num) mantissa.den else mantissa
          let q := if 0 ≤ expVal then
              mkRat (signed.num * 10 ^ expVal.toNat) signed.den
            else mkRat signed.num (signed.den * 10 ^ (-expVal).toNat)
          some (q, baseConsumed + expConsumed)

/-- Character class of the scanning loop of `parse_number`. -/
def isNumElem (c : Nat) : Bool :=
  (48 ≤ c ∧ c ≤ 57) ∨ c = 43 ∨ c = 45 ∨ c = 101 ∨ c = 69 ∨ c = 46

/-- Embedding of `parse_number`.  The temporary buffer is the scanned prefix
of number characters; the locale decimal point is '.' (ENABLE_LOCALES is not
defined), so the '.'-replacement loop is the identity and is dropped.  The
saturation comparisons `number >= INT_MAX` and `number <= (double)INT_MIN`
compare against exact conversions (both bounds are exactly representable in
binary64), hence the direct rational comparisons. -/
def parse_number (b : parse_buffer) : Option (cJSON × parse_buffer) :=
  let number_c_string :=
    ((b.content.drop b.offset).take (b.length - b.offset)).takeWhile isNumElem
  match strtodModel number_c_string with
  | none => none
  | some (number, consumed) =>
    let valueint : Int :=
      if (INT_MAX : ℚ) ≤ number then INT_MAX
      else if number ≤ (INT_MIN : ℚ) then INT_MIN
      else ratTrunc number
    some (.mk cJSON_Number none valueint (.finite number) none [],
          { b with offset := b.offset + consumed })

/-- Whitespace loop of `buffer_skip_whitespace`: advance while the byte is
≤ 32. -/
def skipWsLoop (content : List Nat) (length : Nat) : Nat → Nat → Nat
  | 0, off => off
  | fuel + 1, off =>
    if off < length ∧ content.getD off 0 ≤ 32 then
      skipWsLoop content length fuel (off + 1)
    else off

/-- Embedding of `buffer_skip_whitespace` (NULL checks dropped). -/
def buffer_skip_whitespace (b : parse_buffer) : parse_buffer :=
  if ¬ can_access_at_index b 0 then b
  else
    let off := skipWsLoop b.content b.length (b.length + 1) b.offset
    if off = b.length then { b with offset := off - 1 }
    else { b with offset := off }

/-- Embedding of `skip_utf8_bom`.  The source returns NULL when
`offset != 0`; the entry point only calls it at offset 0, so that branch is
dropped.  Note that the access check demands five accessible bytes
(`can_access_at_index(buffer, 4)`) although only three bytes are compared. -/
def skip_utf8_bom (b : parse_buffer) : parse_buffer :=
  if can_access_at_index b 4 ∧ litMatch b [239, 187, 191] then
    { b with offset := b.offset + 3 }
  else b

mutual

/-- Embedding of `parse_value`.  The fuel argument models the recursion of
the source, which is bounded by the progress of the offset; the entry point
passes fuel exceeding any possible recursion for its buffer length. -/
def parse_value : Nat → parse_buffer → Option (cJSON × parse_buffer)
  | 0, _ => none
  | fuel + 1, b =>
    if can_read b 4 ∧ litMatch b [110, 117, 108, 108] then
      some (.mk cJSON_NULL none 0 (.finite 0) none [],
            { b with offset := b.offset + 4 })
    else if can_read b 5 ∧ litMatch b [102, 97, 108, 115, 101] then
      some (.mk cJSON_False none 0 (.finite 0) none [],
            { b with offset := b.offset + 5 })
    else if can_read b 4 ∧ litMatch b [116, 114, 117, 101] then
      some (.mk cJSON_True none 1 (.finite 0) none [],
            { b with offset := b.offset + 4 })
    else if can_access_at_index b 0 ∧ bufByte b 0 = 34 then
      parse_string b
    else if can_access_at_index b 0 ∧
        (bufByte b 0 = 45 ∨ (48 ≤ bufByte b 0 ∧ bufByte b 0 ≤ 57)) then
      parse_number b
    else if can_access_at_index b 0 ∧ bufByte b 0 = 91 then
      parse_array fuel b
    else if can_access_at_index b 0 ∧ bufByte b 0 = 123 then
      parse_object fuel b
    else none

/-- Embedding of `parse_array`.  The head-prev back link set at the success
label is part of the heap-level sibling representation; in the tree model the
children list carries the same information. -/
def parse_array : Nat → parse_buffer → Option (cJSON × parse_buffer)
  | 0, _ => none
  | fuel + 1, b0 =>
    if CJSON_NESTING_LIMIT ≤ b0.depth then none
    else
      let b := { b0 with depth := b0.depth + 1 }
      if bufByte b 0 ≠ 91 then none
      else
        let b1 := buffer_skip_whitespace { b with offset := b.offset + 1 }
        if can_access_at_index b1 0 ∧ bufByte b1 0 = 93 then
          some (.mk cJSON_Array none 0 (.finite 0) none [],
                { b1 with depth := b1.depth - 1, offset := b1.offset + 1 })
        else if ¬ can_access_at_index b1 0 then none
        else
          let b2 := { b1 with offset := b1.offset - 1 }
          match parse_array_loop fuel b2 [] with
          | none => none
          | some (children, b3) =>
            if ¬ can_access_at_index b3 0 ∨ bufByte b3 0 ≠ 93 then none
            else
              some (.mk cJSON_Array none 0 (.finite 0) none children,
                    { b3 with depth := b3.depth - 1, offset := b3.offset + 1 })

/-- Comma-separated element loop (the do-while) of `parse_array`. -/
def parse_array_loop : Nat → parse_buffer → List cJSON →
    Option (List cJSON × parse_buffer)
  | 0, _, _ => none
  | g + 1, b, acc =>
    let b1 := buffer_skip_whitespace { b with offset := b.offset + 1 }
    match parse_value g b1 with
    | none => none
    | some (item, b2) =>
      let b3 := buffer_skip_whitespace b2
      if can_access_at_index b3 0 ∧ bufByte b3 0 = 44 then
        parse_array_loop g b3 (acc ++ [item])
      else some (acc ++ [item], b3)

/-- Embedding of `parse_object`. -/
def parse_object : Nat → parse_buffer → Option (cJSON × parse_buffer)
  | 0, _ => none
  | fuel + 1, b0 =>
    if CJSON_NESTING_LIMIT ≤ b0.depth then none
    else
      let b := { b0 with depth := b0.depth + 1 }
      if ¬ can_access_at_index b 0 ∨ bufByte b 0 ≠ 123 then none
      else
        let b1 := buffer_skip_whitespace { b with offset := b.offset + 1 }
        if can_access_at_index b1 0 ∧ bufByte b1 0 = 125 then
          some (.mk cJSON_Object none 0 (.finite 0) none [],
                { b1 with depth := b1.depth - 1, offset := b1.offset + 1 })
        else if ¬ can_access_at_index b1 0 then none
        else
          let b2 := { b1 with offset := b1.offset - 1 }
          match parse_object_loop fuel b2 [] with
          | none => none
          | some (children, b3) =>
            if ¬ can_access_at_index b3 0 ∨ bufByte b3 0 ≠ 125 then none
            else
              some (.mk cJSON_Object none 0 (.finite 0) none children,
                    { b3 with depth := b3.depth - 1, offset := b3.offset + 1 })

/-- Key/value pair loop (the do-while) of `parse_object`.  After
`parse_string` the parsed string is moved into the key slot
(`string := valuestring`), and `parse_value` then fills the same fresh item,
never touching the key slot. -/
def parse_object_loop : Nat → parse_buffer → List cJSON →
    Option (List cJSON × parse_buffer)
  | 0, _, _ => none
  | g + 1, b, acc =>
    if ¬ can_access_at_index b 1 then none
    else
      let b1 := buffer_skip_whitespace { b with offset := b.offset + 1 }
      match parse_string b1 with
      | none => none
      | some (keyItem, b2) =>
        let b3 := buffer_skip_whitespace b2
        if ¬ can_access_at_index b3 0 ∨ bufByte b3 0 ≠ 58 then none
        else
          let b4 := buffer_skip_whitespace { b3 with offset := b3.offset + 1 }
          match parse_value g b4 with
          | none => none
          | some (valItem, b5) =>
            let item := cJSON.mk valItem.type valItem.valuestring valItem.valueint
              valItem.valuedouble keyItem.valuestring valItem.child
            let b6 := buffer_skip_whitespace b5
            if can_access_at_index b6 0 ∧ bufByte b6 0 = 44 then
              parse_object_loop g b6 (acc ++ [item])
            else some (acc ++ [item], b6)

end

/-- Embedding of `cJSON_ParseWithLengthOpts` (global error recording and the
`return_parse_end` output are dropped; any failure is `none`). -/
def cJSON_ParseWithLengthOpts (value : List Nat) (buffer_length : Nat)
    (require_null_terminated : Bool) : Option cJSON :=
  if buffer_length = 0 then none
  else
    let b : parse_buffer :=
      { content := value, length := buffer_length, offset := 0, depth := 0 }
    match parse_value (4 * buffer_length + 16)
        (buffer_skip_whitespace (skip_utf8_bom b)) with
    | none => none
    | some (item, b1) =>
      if require_null_terminated then
        let b2 := buffer_skip_whitespace b1
        if b2.length ≤ b2.offset ∨ bufByte b2 0 ≠ 0 then none else some item
      else some item

/-- Embedding of `cJSON_Parse` applied to a nul-free byte string: the caller's
memory holds the bytes followed by the terminating nul, and the buffer length
is `strlen(value) + 1`. -/
def cJSON_Parse (value : List Nat) : Option cJSON :=
  cJSON_ParseWithLengthOpts (value ++ [0]) (value.length + 1) false

/-- Canonical tree of nested singleton arrays: `nestTree k` is `k + 1`
arrays deep. -/
def nestTree : Nat → cJSON
  | 0 => .mk cJSON_Array none 0 (.finite 0) none []
  | k + 1 => .mk cJSON_Array none 0 (.finite 0) none [nestTree k]

/-- The buffer contents for the canonical input at exactly the nesting
limit: `CJSON_NESTING_LIMIT` opening brackets, the matching closing
brackets, and the terminating nul added by `cJSON_Parse`. -/
def nestContent : List Nat :=
  (List.replicate CJSON_NESTING_LIMIT 91 ++
    List.replicate CJSON_NESTING_LIMIT 93) ++ [0]

/-- Parse buffer over `nestContent` at a given offset and depth. -/
def nbuf (off d : Nat) : parse_buffer :=
  { content := nestContent,
    length := (List.replicate CJSON_NESTING_LIMIT 91 ++
      List.replicate CJSON_NESTING_LIMIT 93).length + 1,
    offset := off, depth := d }

mutual

/-- Specification-side parser for claim C6: identical to `parse_value` and
its mutual companions except that the `CJSON_NESTING_LIMIT` guards at the
top of `parse_array` and `parse_object` are removed.  It defines the
claim's notion of an "otherwise-valid input whose container nesting depth
is n": a buffer this guard-free parser accepts with a resulting tree of
container depth `n`. -/
def parse_value_nolimit : Nat → parse_buffer → Option (cJSON × parse_buffer)
  | 0, _ => none
  | fuel + 1, b =>
    if can_read b 4 ∧ litMatch b [110, 117, 108, 108] then
      some (.mk cJSON_NULL none 0 (.finite 0) none [],
            { b with offset := b.offset + 4 })
    else if can_read b 5 ∧ litMatch b [102, 97, 108, 115, 101] then
      some (.mk cJSON_False none 0 (.finite 0) none [],
            { b with offset := b.offset + 5 })
    else if can_read b 4 ∧ litMatch b [116, 114, 117, 101] then
      some (.mk cJSON_True none 1 (.finite 0) none [],
            { b with offset := b.offset + 4 })
    else if can_access_at_index b 0 ∧ bufByte b 0 = 34 then
      parse_string b
    else if can_access_at_index b 0 ∧
        (bufByte b 0 = 45 ∨ (48 ≤ bufByte b 0 ∧ bufByte b 0 ≤ 57)) then
      parse_number b
    else if can_access_at_index b 0 ∧ bufByte b 0 = 91 then
      parse_array_nolimit fuel b
    else if can_access_at_index b 0 ∧ bufByte b 0 = 123 then
      parse_object_nolimit fuel b
    else none

/-- `parse_array` without the nesting-limit guard. -/
def parse_array_nolimit : Nat → parse_buffer → Option (cJSON × parse_buffer)
  | 0, _ => none
  | fuel + 1, b0 =>
    let b := { b0 with depth := b0.depth + 1 }
    if bufByte b 0 ≠ 91 then none
    else
      let b1 := buffer_skip_whitespace { b with offset := b.offset + 1 }
      if can_access_at_index b1 0 ∧ bufByte b1 0 = 93 then
        some (.mk cJSON_Array none 0 (.finite 0) none [],
              { b1 with depth := b1.depth - 1, offset := b1.offset + 1 })
      else if ¬ can_access_at_index b1 0 then none
      else
        let b2 := { b1 with offset := b1.offset - 1 }
        match parse_array_loop_nolimit fuel b2 [] with
        | none => none
        | some (children, b3) =>
          if ¬ can_access_at_index b3 0 ∨ bufByte b3 0 ≠ 93 then none
          else
            some (.mk cJSON_Array none 0 (.finite 0) none children,
                  { b3 with depth := b3.depth - 1, offset := b3.offset + 1 })

/-- Element loop of `parse_array_nolimit`. -/
def parse_array_loop_nolimit : Nat → parse_buffer → List cJSON →
    Option (List cJSON × parse_buffer)
  | 0, _, _ => none
  | g + 1, b, acc =>
    let b1 := buffer_skip_whitespace { b with offset := b.offset + 1 }
    match parse_value_nolimit g b1 with
    | none => none
    | some (item, b2) =>
      let b3 := buffer_skip_whitespace b2
      if can_access_at_index b3 0 ∧ bufByte b3 0 = 44 then
        parse_array_loop_nolimit g b3 (acc ++ [item])
      else some (acc ++ [item], b3)

/-- `parse_object` without the nesting-limit guard. -/
def parse_object_nolimit : Nat → parse_buffer → Option (cJSON × parse_buffer)
  | 0, _ => none
  | fuel + 1, b0 =>
    let b := { b0 with depth := b0.depth + 1 }
    if ¬ can_access_at_index b 0 ∨ bufByte b 0 ≠ 123 then none
    else
      let b1 := buffer_skip_whitespace { b with offset := b.offset + 1 }
      if can_access_at_index b1 0 ∧ bufByte b1 0 = 125 then
        some (.mk cJSON_Object none 0 (.finite 0) none [],
              { b1 with depth := b1.depth - 1, offset := b1.offset + 1 })
      else if ¬ can_access_at_index b1 0 then none
      else
        let b2 := { b1 with offset := b1.offset - 1 }
        match parse_object_loop_nolimit fuel b2 [] with
        | none => none
        | some (children, b3) =>
          if ¬ can_access_at_index b3 0 ∨ bufByte b3 0 ≠ 125 then none
          else
            some (.mk cJSON_Object none 0 (.finite 0) none children,
                  { b3 with depth := b3.depth - 1, offset := b3.offset + 1 })

/-- Key/value pair loop of `parse_object_nolimit`. -/
def parse_object_loop_nolimit : Nat → parse_buffer → List cJSON →
    Option (List cJSON × parse_buffer)
  | 0, _, _ => none
  | g + 1, b, acc =>
    if ¬ can_access_at_index b 1 then none
    else
      let b1 := buffer_skip_whitespace { b with offset := b.offset + 1 }
      match parse_string b1 with
      | none => none
      | some (keyItem, b2) =>
        let b3 := buffer_skip_whitespace b2
        if ¬ can_access_at_index b3 0 ∨ bufByte b3 0 ≠ 58 then none
        else
          let b4 := buffer_skip_whitespace { b3 with offset := b3.offset + 1 }
          match parse_value_nolimit g b4 with
          | none => none
          | some (valItem, b5) =>
            let item := cJSON.mk valItem.type valItem.valuestring
              valItem.valueint valItem.valuedouble keyItem.valuestring
              valItem.child
            let b6 := buffer_skip_whitespace b5
            if can_access_at_index b6 0 ∧ bufByte b6 0 = 44 then
              parse_object_loop_nolimit g b6 (acc ++ [item])
            else some (acc ++ [item], b6)

end

/-- Entry point of the guard-free specification parser, mirroring
`cJSON_ParseWithLengthOpts`. -/
def cJSON_ParseWithLengthOpts_nolimit (value : List Nat) (buffer_length : Nat)
    (require_null_terminated : Bool) : Option cJSON :=
  if buffer_length = 0 then none
  else
    let b : parse_buffer :=
      { content := value, length := buffer_length, offset := 0, depth := 0 }
    match parse_value_nolimit (4 * buffer_length + 16)
        (buffer_skip_whitespace (skip_utf8_bom b)) with
    | none => none
    | some (item, b1) =>
      if require_null_terminated then
        let b2 := buffer_skip_whitespace b1
        if b2.length ≤ b2.offset ∨ bufByte b2 0 ≠ 0 then none else some item
      else some item

/-- Embedding of `printbuffer` (hooks dropped; `buffer` models the allocated
memory and always has `length` bytes). -/
structure printbuffer where
  buffer : List Nat
  length : Nat
  offset : Nat
  depth : Nat
  noalloc : Bool
  format : Bool

/-- The size ceiling `INT_MAX` of `ensure`, as a `size_t` value. -/
def INT_MAXn : Nat := 2147483647

/-- Embedding of `ensure`: guarantee `needed + 1` writable bytes past the
offset, growing the buffer when allowed.  Reallocation preserves the already
written bytes; fresh bytes are modelled as 0 (the source leaves them
unspecified and never reads them before writing). -/
def ensure (p : printbuffer) (needed : Nat) : Option printbuffer :=
  if 0 < p.length ∧ p.length ≤ p.offset then none
  else if INT_MAXn < needed then none
  else
    let needed2 := needed + p.offset + 1
    if needed2 ≤ p.length then some p
    else if p.noalloc then none
    else
      let newsizeOpt : Option Nat :=
        if INT_MAXn / 2 < needed2 then
          if needed2 ≤ INT_MAXn then some INT_MAXn else none
        else some (needed2 * 2)
      match newsizeOpt with
      | none => none
      | some newsize =>
        let newbuffer := p.buffer.take newsize ++
          List.replicate (newsize - p.buffer.length) 0
        some { p with length := newsize, buffer := newbuffer }

/-- Write `bs` into the buffer starting at the current offset (the offset
itself is not advanced; the source advances it separately or via
`update_offset`). -/
def writeBytes (p : printbuffer) (bs : List Nat) : printbuffer :=
  { p with buffer := p.buffer.take p.offset ++ bs ++
      p.buffer.drop (p.offset + bs.length) }

/-- Embedding of `update_offset`: advance the offset by the `strlen` of the
buffer contents from the current offset. -/
def update_offset (p : printbuffer) : printbuffer :=
  { p with offset := p.offset +
      ((p.buffer.drop p.offset).takeWhile (fun c => c ≠ 0)).length }

/-- Embedding of `compare_double`: relative-epsilon comparison
`fabs(a-b) <= max(fabs(a), fabs(b)) * DBL_EPSILON`. -/
def compare_double (a b : FDouble) : Bool :=
  let maxVal := if FDouble.gt (FDouble.fabs a) (FDouble.fabs b)
    then FDouble.fabs a else FDouble.fabs b
  FDouble.le (FDouble.fabs (FDouble.sub a b)) (FDouble.mul maxVal DBL_EPSILON)

/-- Digit-extraction loop for decimal printing (structural fuel; the fuel
passed always exceeds the number of digits). -/
def natDecimalAux : Nat → Nat → List Nat
  | 0, _ => []
  | fuel + 1, n =>
    if n = 0 then [] else natDecimalAux fuel (n / 10) ++ [48 + n % 10]

/-- Decimal digits of a natural number, as `%u` would print them. -/
def natDecimal (n : Nat) : List Nat :=
  if n = 0 then [48] else natDecimalAux n n

/-- Bytes `sprintf(buf, "%d", i)` produces. -/
def intDecimal (i : Int) : List Nat :=
  if i < 0 then 45 :: natDecimal i.natAbs else natDecimal i.toNat

/-- Lowercase hex digit byte. -/
def hexChar (d : Nat) : Nat := if d < 10 then 48 + d else 87 + d

/-- Decimal exponent of a positive rational: the integer `e` with
`10^e ≤ q < 10^(e+1)`; helper for the `%g` model. -/
def decExponent (q : ℚ) : ℤ :=
  if 1 ≤ q then (Nat.log 10 ⌊q⌋.toNat : ℤ)
  else
    -(((List.range (Nat.log 10 q.den + 2)).find?
        (fun k => 1 ≤ q * (10 : ℚ) ^ k)).getD 0 : ℤ)

/-- Strip trailing zero digits (for `%g`, which removes trailing zeros). -/
def stripTrailingZeros (l : List Nat) : List Nat :=
  (l.reverse.dropWhile (fun c => c = 48)).reverse

/-- Model of `sprintf("%1.<prec>g", q)` for a finite positive rational:
round to `prec` significant digits and format in fixed or exponential style
by the C `%g` rules.  The bit-level semantics of the C formatter on binary64
values is outside the embedding; no theorem in this file depends on this
branch of the number printer (their inputs take the `null` or `%d` paths). -/
def gFormatPos (prec : Nat) (q : ℚ) : List Nat :=
  let e : ℤ := decExponent q
  let scaled : ℚ := q * (10 : ℚ) ^ ((prec : ℤ) - 1 - e)
  let n : Nat := (⌊scaled + 1 / 2⌋).toNat
  let (n, e) := if n = 10 ^ prec then (10 ^ (prec - 1), e + 1) else (n, e)
  let ds := natDecimal n
  if -4 ≤ e ∧ e < (prec : ℤ) then
    -- fixed notation
    if 0 ≤ e then
      let ip := ds.take (e.toNat + 1)
      let fp := stripTrailingZeros (ds.drop (e.toNat + 1))
      ip ++ (if fp = [] then [] else 46 :: fp)
    else
      [48, 46] ++ List.replicate ((-e).toNat - 1) 48 ++ stripTrailingZeros ds
  else
    -- exponential notation d.ddde[+-]XX
    let frac := stripTrailingZeros (ds.drop 1)
    let expDigits := natDecimal e.natAbs
    let expDigits := if expDigits.length < 2 then 48 :: expDigits else expDigits
    ds.take 1 ++ (if frac = [] then [] else 46 :: frac) ++
      [101, if 0 ≤ e then 43 else 45] ++ expDigits

/-- Model of `sprintf("%1.<prec>g", d)` on a finite double (zero and sign
handled here). -/
def sprintfG (prec : Nat) (d : FDouble) : List Nat :=
  match d with
  | .finite q =>
    if q = 0 then [48]
    else if q < 0 then 45 :: gFormatPos prec (-q)
    else gFormatPos prec q
  | _ => []

/-- Embedding of `print_number`.  `sscanf("%lg")` on the just-printed decimal
is modelled by `strtodModel` (exact re-reading); the locale decimal point is
'.', so the point-replacement copy loop is the identity. -/
def print_number (item : cJSON) (p : printbuffer) : Option printbuffer :=
  let d := item.valuedouble
  let number_buffer : List Nat :=
    if d.isnan ∨ d.isinf then [110, 117, 108, 108]
    else if FDouble.beq d (intToDouble item.valueint) then intDecimal item.valueint
    else
      let b15 := sprintfG 15 d
      match strtodModel b15 with
      | some (test, _) =>
        if compare_double (.finite test) d then b15 else sprintfG 17 d
      | none => sprintfG 17 d
  if 25 < number_buffer.length then none
  else
    match ensure p (number_buffer.length + 1) with
    | none => none
    | some p1 =>
      let p2 := writeBytes p1 (number_buffer ++ [0])
      some { p2 with offset := p2.offset + number_buffer.length }

/-- Escape-cost of one byte in the counting pass of `print_string_ptr`. -/
def escCost (c : Nat) : Nat :=
  if c = 34 ∨ c = 92 ∨ c = 8 ∨ c = 12 ∨ c = 10 ∨ c = 13 ∨ c = 9 then 1
  else if c < 32 then 5 else 0

/-- Bytes the copying pass of `print_string_ptr` emits for one input byte. -/
def escapeChar (c : Nat) : List Nat :=
  if 31 < c ∧ c ≠ 34 ∧ c ≠ 92 then [c]
  else 92 ::
    (if c = 92 then [92]
     else if c = 34 then [34]
     else if c = 8 then [98]
     else if c = 12 then [102]
     else if c = 10 then [110]
     else if c = 13 then [114]
     else if c = 9 then [116]
     else [117, 48, 48, hexChar (c / 16), hexChar (c % 16)])

/-- Embedding of `print_string_ptr` (a NULL input prints an empty string
pair of quotes; the fast no-escape path and the slow path write the same
bytes, so they share the body construction). -/
def print_string_ptr (input : Option (List Nat)) (p : printbuffer) :
    Option printbuffer :=
  match input with
  | none =>
    match ensure p 3 with
    | none => none
    | some p1 => some (writeBytes p1 [34, 34, 0])
  | some s =>
    let escape_characters := s.foldl (fun acc c => acc + escCost c) 0
    let output_length := s.length + escape_characters
    match ensure p (output_length + 3) with
    | none => none
    | some p1 =>
      let body := if escape_characters = 0 then s
        else s.foldr (fun c acc => escapeChar c ++ acc) []
      some (writeBytes p1 ([34] ++ body ++ [34, 0]))

mutual

/-- Embedding of `print_value`: dispatch on the low byte of the kind.  The
fuel models the tree-depth-bounded recursion; entry points pass the
structural depth of the printed item. -/
def print_value : Nat → cJSON → printbuffer → Option printbuffer
  | 0, _, _ => none
  | fuel + 1, item, p =>
    let t := item.type &&& 255
    if t = cJSON_NULL then
      match ensure p 5 with
      | none => none
      | some p1 => some (writeBytes p1 [110, 117, 108, 108, 0])
    else if t = cJSON_False then
      match ensure p 6 with
      | none => none
      | some p1 => some (writeBytes p1 [102, 97, 108, 115, 101, 0])
    else if t = cJSON_True then
      match ensure p 5 with
      | none => none
      | some p1 => some (writeBytes p1 [116, 114, 117, 101, 0])
    else if t = cJSON_Number then print_number item p
    else if t = cJSON_Raw then
      match item.valuestring with
      | none => none
      | some s =>
        match ensure p (s.length + 1) with
        | none => none
        | some p1 => some (writeBytes p1 (s ++ [0]))
    else if t = cJSON_String then print_string_ptr item.valuestring p
    else if t = cJSON_Array then print_array fuel item p
    else if t = cJSON_Object then print_object fuel item p
    else none

/-- Embedding of `print_array`. -/
def print_array : Nat → cJSON → printbuffer → Option printbuffer
  | 0, _, _ => none
  | fuel + 1, item, p =>
    match ensure p 1 with
    | none => none
    | some p1 =>
      let p2 := { (writeBytes p1 [91]) with
                  offset := p1.offset + 1, depth := p1.depth + 1 }
      match print_array_items fuel item.child p2 with
      | none => none
      | some p3 =>
        match ensure p3 2 with
        | none => none
        | some p4 => some { (writeBytes p4 [93, 0]) with depth := p4.depth - 1 }

/-- Element loop of `print_array`: print each child, then `,` (plus a space
when formatting) between elements. -/
def print_array_items : Nat → List cJSON → printbuffer → Option printbuffer
  | _, [], p => some p
  | 0, _ :: _, _ => none
  | fuel + 1, current :: rest, p =>
    match print_value fuel current p with
    | none => none
    | some p1 =>
      let p2 := update_offset p1
      if rest.isEmpty then print_array_items fuel rest p2
      else
        let length := if p2.format then 2 else 1
        match ensure p2 (length + 1) with
        | none => none
        | some p3 =>
          let p4 := { (writeBytes p3 (if p3.format then [44, 32, 0] else [44, 0]))
                      with offset := p3.offset + length }
          print_array_items fuel rest p4

/-- Embedding of `print_object`. -/
def print_object : Nat → cJSON → printbuffer → Option printbuffer
  | 0, _, _ => none
  | fuel + 1, item, p =>
    let length := if p.format then 2 else 1
    match ensure p (length + 1) with
    | none => none
    | some p1 =>
      let p2 := { (writeBytes p1 (if p1.format then [123, 10] else [123])) with
                  offset := p1.offset + length, depth := p1.depth + 1 }
      match print_object_items fuel item.child p2 with
      | none => none
      | some p3 =>
        match ensure p3 (if p3.format then p3.depth + 1 else 2) with
        | none => none
        | some p4 =>
          some { (writeBytes p4
                   ((if p4.format then List.replicate (p4.depth - 1) 9 else [])
                     ++ [125, 0])) with depth := p4.depth - 1 }

/-- Key/value loop of `print_object`: indentation tabs when formatting, the
key through the string printer, `:` (plus a tab when formatting), the value,
then `,` and newline handling. -/
def print_object_items : Nat → List cJSON → printbuffer → Option printbuffer
  | _, [], p => some p
  | 0, _ :: _, _ => none
  | fuel + 1, current :: rest, p =>
    let step1 : Option printbuffer :=
      if p.format then
        match ensure p p.depth with
        | none => none
        | some pa => some { (writeBytes pa (List.replicate pa.depth 9)) with
                            offset := pa.offset + pa.depth }
      else some p
    match step1 with
    | none => none
    | some pb =>
      match print_string_ptr current.string pb with
      | none => none
      | some pc =>
        let pd := update_offset pc
        let length := if pd.format then 2 else 1
        match ensure pd length with
        | none => none
        | some pe =>
          let pf := { (writeBytes pe (if pe.format then [58, 9] else [58])) with
                      offset := pe.offset + length }
          match print_value fuel current pf with
          | none => none
          | some pg =>
            let ph := update_offset pg
            let length2 := (if ph.format then 1 else 0) + (if rest.isEmpty then 0 else 1)
            match ensure ph (length2 + 1) with
            | none => none
            | some pi =>
              let bytes := (if rest.isEmpty then [] else [44]) ++
                (if pi.format then [10] else []) ++ [0]
              let pj := { (writeBytes pi bytes) with offset := pi.offset + length2 }
              print_object_items fuel rest pj

end

/-- Embedding of the static `print` entry: a managed 256-byte initial buffer,
`print_value`, `update_offset`, and the final shrink (the returned C string
content is the `offset` bytes before the terminating nul). -/
def print (item : cJSON) (format : Bool) : Option (List Nat) :=
  let buffer : printbuffer :=
    { buffer := List.replicate 256 0, length := 256, offset := 0, depth := 0,
      noalloc := false, format := format }
  match print_value (2 * csizeC item + 2) item buffer with
  | none => none
  | some p1 =>
    let p2 := update_offset p1
    some (p2.buffer.take p2.offset)

/-- Embedding of `cJSON_Print`. -/
def cJSON_Print (item : cJSON) : Option (List Nat) := print item true

/-- Embedding of `cJSON_PrintUnformatted`. -/
def cJSON_PrintUnformatted (item : cJSON) : Option (List Nat) := print item false

/-- C `tolower` on an ASCII byte. -/
def tolowerB (c : Nat) : Nat := if 65 ≤ c ∧ c ≤ 90 then c + 32 else c

/-- Embedding of `case_insensitive_strcmp` as the equality test
`case_insensitive_strcmp(a, b) == 0`; a NULL argument compares unequal (the
source returns 1). -/
def case_insensitive_eq : Option (List Nat) → Option (List Nat) → Bool
  | some a, some b => a.map tolowerB == b.map tolowerB
  | _, _ => false

/-- Case-sensitive search loop of `get_object_item`: the walk stops at the
first element whose key is NULL (the final check then returns NULL) or whose
key equals `nm`. -/
def get_object_item_cs (nm : List Nat) : List cJSON → Option cJSON
  | [] => none
  | el :: rest =>
    match el.string with
    | none => none
    | some key => if nm = key then some el else get_object_item_cs nm rest

/-- Case-insensitive search loop of `get_object_item`: an element with a NULL
key compares unequal and the walk continues. -/
def get_object_item_ci (nm : List Nat) : List cJSON → Option cJSON
  | [] => none
  | el :: rest =>
    if case_insensitive_eq (some nm) el.string then some el
    else get_object_item_ci nm rest

/-- Embedding of `get_object_item`. -/
def get_object_item (object : cJSON) (name : Option (List Nat))
    (case_sensitive : Bool) : Option cJSON :=
  match name with
  | none => none
  | some nm =>
    if case_sensitive then get_object_item_cs nm object.child
    else get_object_item_ci nm object.child

/-- Valid-kind check of `cJSON_Compare` (its first switch). -/
def compareTypeValid (t : Nat) : Bool :=
  t = cJSON_False ∨ t = cJSON_True ∨ t = cJSON_NULL ∨ t = cJSON_Number ∨
  t = cJSON_String ∨ t = cJSON_Raw ∨ t = cJSON_Array ∨ t = cJSON_Object

mutual

/-- Embedding of `cJSON_Compare`.  The `a == b` pointer-identity shortcut of
the source never holds between the distinct allocations the claims compare
(a tree and its freshly parsed copy) and has no counterpart in the value
model, so it is omitted.  The fuel models the tree-bounded recursion. -/
def cJSON_Compare_fuel : Nat → cJSON → cJSON → Bool → Bool
  | 0, _, _, _ => false
  | fuel + 1, a, b, case_sensitive =>
    if (a.type &&& 255) ≠ (b.type &&& 255) then false
    else if ¬ compareTypeValid (a.type &&& 255) then false
    else
      let t := a.type &&& 255
      if t = cJSON_False ∨ t = cJSON_True ∨ t = cJSON_NULL then true
      else if t = cJSON_Number then
        compare_double a.valuedouble b.valuedouble
      else if t = cJSON_String ∨ t = cJSON_Raw then
        match a.valuestring, b.valuestring with
        | some sa, some sb => sa = sb
        | _, _ => false
      else if t = cJSON_Array then
        compare_array_elems fuel a.child b.child case_sensitive
      else if t = cJSON_Object then
        compare_object_walk fuel a.child b case_sensitive &&
          compare_object_walk fuel b.child a case_sensitive
      else false

/-- Pairwise array comparison loop of `cJSON_Compare`; differing lengths make
the final `a_element != b_element` check fail. -/
def compare_array_elems : Nat → List cJSON → List cJSON → Bool → Bool
  | _, [], [], _ => true
  | 0, _, _, _ => false
  | fuel + 1, ae :: arest, be :: brest, case_sensitive =>
    cJSON_Compare_fuel fuel ae be case_sensitive &&
      compare_array_elems fuel arest brest case_sensitive
  | _ + 1, _, _, _ => false

/-- One direction of the object comparison of `cJSON_Compare`: every element
of `xs` must be matched by lookup of its key in `other` and compare equal
(the second direction swaps the roles, giving the argument order
`Compare(b_element, a_element)` of the source). -/
def compare_object_walk : Nat → List cJSON → cJSON → Bool → Bool
  | _, [], _, _ => true
  | 0, _ :: _, _, _ => false
  | fuel + 1, el :: rest, other, case_sensitive =>
    match get_object_item other el.string case_sensitive with
    | none => false
    | some oel =>
      cJSON_Compare_fuel fuel el oel case_sensitive &&
        compare_object_walk fuel rest other case_sensitive

end

/-- Entry wrapper of `cJSON_Compare` supplying fuel that exceeds the
recursion depth of the source on any pair of (finite, acyclic) trees. -/
def cJSON_Compare (a b : cJSON) (case_sensitive : Bool) : Bool :=
  cJSON_Compare_fuel (2 * (csizeC a + csizeC b) + 2) a b case_sensitive

/-- Embedding of `cJSON_IsNumber` (a NULL item is not a number). -/
def cJSON_IsNumber : Option cJSON → Bool
  | none => false
  | some item => (item.type &&& 255) = cJSON_Number

/-- Embedding of `cJSON_GetNumberValue`. -/
def cJSON_GetNumberValue (item : Option cJSON) : FDouble :=
  if cJSON_IsNumber item = false then .nan
  else (item.getD newItem).valuedouble

/-- Truncating conversion `(int)num` of a double.  For NaN the C conversion
is undefined behaviour; it is modelled as 0, and no claim depends on it. -/
def fdTrunc : FDouble → Int
  | .finite q => ratTrunc q
  | _ => 0

/-- Embedding of `cJSON_CreateNumber` (allocation always succeeds; the fresh
node is zeroed before the fields are set). -/
def cJSON_CreateNumber (num : FDouble) : cJSON :=
  let valueint : Int :=
    if FDouble.ge num (intToDouble INT_MAX) then INT_MAX
    else if FDouble.le num (intToDouble INT_MIN) then INT_MIN
    else fdTrunc num
  .mk cJSON_Number none valueint num none []

/-- Embedding of `cJSON_SetNumberHelper`: updates the integer mirror by
saturation and stores the double. -/
def cJSON_SetNumberHelper (object : cJSON) (number : FDouble) : cJSON :=
  let valueint : Int :=
    if FDouble.ge number (intToDouble INT_MAX) then INT_MAX
    else if FDouble.le number (intToDouble INT_MIN) then INT_MIN
    else fdTrunc number
  .mk object.type object.valuestring valueint number object.string object.child

/-- Embedding of `skip_oneline_comment` (input already past the leading
`//`): skip to just past the next newline, or to the end of the input. -/
def skip_oneline_comment (l : List Nat) : List Nat :=
  (l.dropWhile (fun c => c ≠ 10)).tail

/-- Embedding of `skip_multiline_comment` (input already past the leading
`/\*`): skip to just past the next `*/`, or to the end of the input. -/
def skip_multiline_comment : List Nat → List Nat
  | [] => []
  | 42 :: 47 :: r => r
  | _ :: r => skip_multiline_comment r

/-- Length bound of `List.dropWhile`, used for the termination of
`cJSON_Minify`. -/
theorem length_dropWhile_le_self (p : Nat → Bool) (l : List Nat) :
    (l.dropWhile p).length ≤ l.length := by
  induction l with
  | nil => simp [List.dropWhile]
  | cons a t ih => rw [List.dropWhile_cons]; split <;> simp <;> omega

/-- Length bound used for the termination of `cJSON_Minify`. -/
theorem skip_multiline_comment_length_le (l : List Nat) :
    (skip_multiline_comment l).length ≤ l.length := by
  induction l using skip_multiline_comment.induct <;>
    simp [skip_multiline_comment, *] <;> omega

/-- Copy loop of `minify_string` after the opening quote: copy bytes
verbatim, treat a `\"` pair as a two-byte unit, and stop just past an
unescaped closing quote (or at the end of the input for an unterminated
string); returns the copied segment and the remaining input. -/
def minify_string_go : List Nat → List Nat × List Nat
  | [] => ([], [])
  | c :: rest =>
    if c = 34 then ([34], rest)
    else if c = 92 ∧ rest.headD 0 = 34 then
      let (seg, rem) := minify_string_go rest.tail
      (92 :: 34 :: seg, rem)
    else
      let (seg, rem) := minify_string_go rest
      (c :: seg, rem)
termination_by l => l.length
decreasing_by
  · simp [List.length_tail]; omega
  · simp

/-- Embedding of `minify_string`, called with the opening quote at the head
of the input. -/
def minify_string (l : List Nat) : List Nat × List Nat :=
  match l with
  | [] => ([], [])
  | c :: rest =>
    let (seg, rem) := minify_string_go rest
    (c :: seg, rem)

/-- Length bound used for the termination of `cJSON_Minify`. -/
theorem minify_string_go_rem_length_le (l : List Nat) :
    (minify_string_go l).2.length ≤ l.length := by
  induction l using minify_string_go.induct with
  | case1 => simp [minify_string_go]
  | case2 rest =>
    simp [minify_string_go]
  | case3 c rest hq hbq seg rem heq ih =>
    rw [minify_string_go, if_neg hq, if_pos hbq, heq]
    rw [heq] at ih
    have h2 : rest.tail.length ≤ rest.length := by
      cases rest <;> simp
    simp only [List.length_cons] at ih ⊢
    omega
  | case4 c rest hq hbq seg rem heq ih =>
    rw [minify_string_go, if_neg hq, if_neg hbq, heq]
    rw [heq] at ih
    simp only [List.length_cons] at ih ⊢
    omega

/-- Embedding of `cJSON_Minify`, as a function from the bytes before the
terminating nul to the rewritten bytes.  Outside strings: whitespace
(space/tab/CR/LF) is dropped, `//` and `/*` comments are skipped, and a `/`
that starts no comment is skipped without being copied (the source advances
only the read pointer in its `else` branch); a `"` enters the verbatim
string copy; anything else is copied. -/
def cJSON_Minify (json : List Nat) : List Nat :=
  match json with
  | [] => []
  | c :: rest =>
    if c = 32 ∨ c = 9 ∨ c = 13 ∨ c = 10 then cJSON_Minify rest
    else if c = 47 then
      if rest.headD 0 = 47 then cJSON_Minify (skip_oneline_comment rest.tail)
      else if rest.headD 0 = 42 then
        cJSON_Minify (skip_multiline_comment rest.tail)
      else cJSON_Minify rest
    else if c = 34 then
      match h : minify_string (c :: rest) with
      | (seg, rem) => seg ++ cJSON_Minify rem
    else c :: cJSON_Minify rest
termination_by json.length
decreasing_by
  · simp
  · have h1 := length_dropWhile_le_self (fun c => c ≠ 10) rest.tail
    simp [skip_oneline_comment, List.length_tail] at h1 ⊢
    omega
  · have h1 := skip_multiline_comment_length_le rest.tail
    simp [List.length_tail] at h1 ⊢
    omega
  · simp
  · have h1 := minify_string_go_rem_length_le rest
    simp [minify_string] at h
    have : rem = (minify_string_go rest).2 := by
      rw [← h.2]
    simp [this]
    omega
  · simp

/-- Pointer-level model of one parent's sibling list, for the mutation
claims: nodes are heap addresses (`Nat`), `child` is the parent's first-child
pointer, and `prev`/`next` give each node's sibling links (`none` = NULL).
Only the links are modelled; the mutation functions of the source touch
nothing else. -/
structure SList where
  child : Option Nat
  prev : Nat → Option Nat
  next : Nat → Option Nat

/-- Pointwise update of a link map. -/
def updLink (f : Nat → Option Nat) (k : Nat) (v : Option Nat) :
    Nat → Option Nat :=
  fun n => if n = k then v else f n

/-- Embedding of `add_item_to_array` (the NULL and self-insertion checks
compare pointers that the value model keeps distinct by construction; the
Bool result is the source's return value).  In the non-empty case
`suffix_object(child->prev, item)` sets `child->prev->next` and `item->prev`,
then `array->child->prev = item`; the item's own `next` is left untouched.
When `child->prev` is NULL (corrupted list) nothing happens and the call
still returns true. -/
def add_item_to_array (s : SList) (item : Nat) : Bool × SList :=
  match s.child with
  | none =>
    (true, { child := some item,
             prev := updLink s.prev item (some item),
             next := updLink s.next item none })
  | some child =>
    match s.prev child with
    | some last =>
      let next1 := updLink s.next last (some item)
      let prev1 := updLink s.prev item (some last)
      let prev2 := updLink prev1 child (some item)
      (true, { child := some child, prev := prev2, next := next1 })
    | none => (true, s)

/-- Embedding of `cJSON_DetachItemViaPointer`: `none` models the NULL return
for an item that is neither the first child nor has a `prev` link; otherwise
the repaired list is returned and the detached item's links are cleared. -/
def cJSON_DetachItemViaPointer (s : SList) (item : Nat) : Option SList :=
  if s.child ≠ some item ∧ s.prev item = none then none
  else
    let next1 :=
      if s.child ≠ some item then
        match s.prev item with
        | some p => updLink s.next p (s.next item)
        | none => s.next
      else s.next
    let prev1 :=
      match s.next item with
      | some nx => updLink s.prev nx (s.prev item)
      | none => s.prev
    let (child2, prev2) :=
      if s.child = some item then (s.next item, prev1)
      else if s.next item = none then
        match s.child with
        | some head => (s.child, updLink prev1 head (s.prev item))
        | none => (s.child, prev1)
      else (s.child, prev1)
    some { child := child2,
           prev := updLink prev2 item none,
           next := updLink next1 item none }

/-- Embedding of `cJSON_ReplaceItemViaPointer` (the deletion of the old item
frees heap memory, which the link model does not track; the old item's links
are cleared before the delete as in the source). -/
def cJSON_ReplaceItemViaPointer (s : SList) (item replacement : Nat) :
    Bool × SList :=
  if s.child = none then (false, s)
  else if replacement = item then (true, s)
  else
    let next1 := updLink s.next replacement (s.next item)
    let prev1 := updLink s.prev replacement (s.prev item)
    let prev2 :=
      match next1 replacement with
      | some nx => updLink prev1 nx (some replacement)
      | none => prev1
    if s.child = some item then
      let prev3 :=
        if prev2 item = some item then updLink prev2 replacement (some replacement)
        else prev2
      (true, { child := some replacement,
               prev := updLink prev3 item none,
               next := updLink next1 item none })
    else
      let next2 :=
        match prev2 replacement with
        | some pv => updLink next1 pv (some replacement)
        | none => next1
      let prev3 :=
        match next1 replacement with
        | none =>
          match s.child with
          | some head => updLink prev2 head (some replacement)
          | none => prev2
        | some _ => prev2
      (true, { child := s.child,
               prev := updLink prev3 item none,
               next := updLink next2 item none })

/-- Walk of `get_array_item`: follow `next` links while the index is
positive. -/
def get_array_item_walk (s : SList) : Option Nat → Nat → Option Nat
  | cur, 0 => cur
  | none, _ + 1 => none
  | some c, index + 1 => get_array_item_walk s (s.next c) index

/-- Embedding of `get_array_item` on the link model. -/
def get_array_item (s : SList) (index : Nat) : Option Nat :=
  get_array_item_walk s s.child index

/-- Embedding of `cJSON_InsertItemInArray` for a non-negative index (a
negative `which` returns false before touching the list). -/
def cJSON_InsertItemInArray (s : SList) (which : Nat) (newitem : Nat) :
    Bool × SList :=
  match get_array_item s which with
  | none => add_item_to_array s newitem
  | some after_inserted =>
    if s.child ≠ some after_inserted ∧ s.prev after_inserted = none then
      (false, s)
    else
      let next1 := updLink s.next newitem (some after_inserted)
      let prev1 := updLink s.prev newitem (s.prev after_inserted)
      let prev2 := updLink prev1 after_inserted (some newitem)
      if s.child = some after_inserted then
        (true, { child := some newitem, prev := prev2, next := next1 })
      else
        match prev2 newitem with
        | some pv => (true, { child := s.child, prev := prev2,
                              next := updLink next1 pv (some newitem) })
        | none => (true, { child := s.child, prev := prev2, next := next1 })

/-- Next-link chain check of a represented sibling list: consecutive
elements are linked by `next`, and the last element's `next` is NULL. -/
def nextLinksB (s : SList) : List Nat → Bool
  | [] => true
  | [a] => s.next a == none
  | a :: b :: t => s.next a == some b && nextLinksB s (b :: t)

/-- Previous-link chain check of a represented sibling list: every non-head
element's `prev` points to its predecessor. -/
def prevLinksB (s : SList) : List Nat → Bool
  | [] => true
  | [_] => true
  | a :: b :: t => s.prev b == some a && prevLinksB s (b :: t)

/-- The sibling-list invariant of the data model, decided on the link
structure `s` for the children sequence `xs`: the parent's `child` points to
the head, the head's `prev` points to the tail, the tail's `next` is NULL,
and the `next`/`prev` links of consecutive elements agree with the sequence
(which makes `N->prev->next == N` and `N->next->prev == N` hold for every
interior node `N`). -/
def representsB (s : SList) (xs : List Nat) : Bool :=
  match xs with
  | [] => s.child == none
  | h :: t =>
    s.child == some h && s.prev h == some ((h :: t).getLast (by simp)) &&
      nextLinksB s (h :: t) && prevLinksB s (h :: t)

/-- The object `{"a":1,"a":2}` with a duplicated key, as the parser builds
it: two Number children both keyed `"a"` (byte 97). -/
def dupKeyTree : cJSON := .mk cJSON_Object none 0 (.finite 0) none
  [.mk cJSON_Number none 1 (.finite 1) (some [97]) [],
   .mk cJSON_Number none 2 (.finite 2) (some [97]) []]

/-- The bytes of the text `{"a":1,"a":2}`. -/
def dupKeyBytes : List Nat := [123, 34, 97, 34, 58, 49, 44, 34, 97, 34, 58, 50, 125]

/-- Definition following the spec text of claim C7: each byte of the
four-byte input is interpreted as one hex nibble, a byte that is not a hex
digit contributing zero for its own nibble while the other nibbles keep
their values. -/
def spec_parse_hex4 (input : List Nat) : Nat :=
  4096 * ((hexDigitVal (input.getD 0 0)).getD 0) +
    256 * ((hexDigitVal (input.getD 1 0)).getD 0) +
    16 * ((hexDigitVal (input.getD 2 0)).getD 0) +
    ((hexDigitVal (input.getD 3 0)).getD 0)

/-- Claim C1 (code-bug evidence).  The claim says that for a tree `T` without
Raw nodes and within the depth limit, parsing the printed text yields a tree
structurally equal to `T` under `cJSON_Compare`, with duplicate object keys
preserved.  The print/parse round trip does reproduce the duplicate-keyed
object `{"a":1,"a":2}` exactly — unformatted printing gives exactly these
bytes and parsing them gives back exactly `dupKeyTree` — but `cJSON_Compare`
rejects the result: its object case looks every key up by first match, so the
second `"a"` pair of one tree is compared against the first `"a"` pair of the
other and the numbers 1 and 2 differ.  The comparison is evaluated on two
structurally identical trees, which is what comparing the round-tripped copy
against the original amounts to (the source's pointer-identity shortcut
cannot fire between distinct allocations); it returns false under both
case-sensitivity modes. -/
theorem c1_roundtrip_duplicate_keys_code_bug :
    print dupKeyTree false = some dupKeyBytes ∧
    cJSON_Parse dupKeyBytes = some dupKeyTree ∧
    cJSON_Compare dupKeyTree dupKeyTree true = false ∧
    cJSON_Compare dupKeyTree dupKeyTree false = false :=
  ⟨rfl, rfl, rfl, rfl⟩

/-- Claim C8 (code-bug evidence).  `skip_utf8_bom` demands five accessible
bytes (`can_access_at_index(buffer, 4)`) although the BOM is three bytes
long, so for the four-byte range `EF BB BF '5'` the BOM is not consumed and
the parse fails, while the same value without the BOM parses, and the same
bytes with one more accessible byte (the terminating nul that
`cJSON_Parse`-style callers include) also parse. -/
theorem c8_bom_short_range_code_bug :
    cJSON_ParseWithLengthOpts [239, 187, 191, 53] 4 false = none ∧
    cJSON_ParseWithLengthOpts [53] 1 false =
      some (.mk cJSON_Number none 5 (.finite 5) none []) ∧
    cJSON_ParseWithLengthOpts [239, 187, 191, 53, 0] 5 false =
      some (.mk cJSON_Number none 5 (.finite 5) none []) ∧
    (skip_utf8_bom
        { content := [239, 187, 191, 53], length := 4, offset := 0,
          depth := 0 }).offset = 0 :=
  ⟨rfl, rfl, rfl, rfl⟩

/-- Claim C7 (counterexample).  On the input `"123G"` (bytes 49 50 51 71)
the claim's reading — non-hex low nibble contributes zero, the first three
nibbles keep their values — predicts 0x1230 = 4656, but `parse_hex4`
returns 0 for the entire call as soon as it meets the non-hex byte. -/
theorem c7_parse_hex4_counterexample :
    parse_hex4 [49, 50, 51, 71] = 0 ∧
    spec_parse_hex4 [49, 50, 51, 71] = 4656 ∧
    parse_hex4 [49, 50, 51, 71] ≠ spec_parse_hex4 [49, 50, 51, 71] := by
  refine ⟨rfl, rfl, ?_⟩
  decide

/-- Claim C7 (amended).  For every four-byte input: when all four bytes are
hex digits, `parse_hex4` returns the 16-bit value whose nibbles are the four
digit values (most significant first); when any byte is not a hex digit the
whole call returns 0, not a value with only that nibble zeroed. -/
theorem c7_parse_hex4_amended (b0 b1 b2 b3 : Nat) :
    (((hexDigitVal b0).isSome ∧ (hexDigitVal b1).isSome ∧
        (hexDigitVal b2).isSome ∧ (hexDigitVal b3).isSome) →
      parse_hex4 [b0, b1, b2, b3] = spec_parse_hex4 [b0, b1, b2, b3]) ∧
    (¬ ((hexDigitVal b0).isSome ∧ (hexDigitVal b1).isSome ∧
        (hexDigitVal b2).isSome ∧ (hexDigitVal b3).isSome) →
      parse_hex4 [b0, b1, b2, b3] = 0) := by
  constructor
  · rintro ⟨h0, h1, h2, h3⟩
    obtain ⟨d0, e0⟩ := Option.isSome_iff_exists.mp h0
    obtain ⟨d1, e1⟩ := Option.isSome_iff_exists.mp h1
    obtain ⟨d2, e2⟩ := Option.isSome_iff_exists.mp h2
    obtain ⟨d3, e3⟩ := Option.isSome_iff_exists.mp h3
    simp [parse_hex4, spec_parse_hex4, e0, e1, e2, e3]
    ring
  · intro h
    cases e0 : hexDigitVal b0 with
    | none => simp [parse_hex4, e0]
    | some d0 =>
      cases e1 : hexDigitVal b1 with
      | none => simp [parse_hex4, e0, e1]
      | some d1 =>
        cases e2 : hexDigitVal b2 with
        | none => simp [parse_hex4, e0, e1, e2]
        | some d2 =>
          cases e3 : hexDigitVal b3 with
          | none => simp [parse_hex4, e0, e1, e2, e3]
          | some d3 =>
            exact absurd ⟨by simp [e0], by simp [e1], by simp [e2], by simp [e3]⟩ h

/-- Witness for the amended claim C7: both branches at concrete inputs
(`"12aB"` is all-hex; `"1G34"` has a non-hex byte). -/
theorem c7_parse_hex4_amended_witness :
    parse_hex4 [49, 50, 97, 66] = spec_parse_hex4 [49, 50, 97, 66] ∧
    parse_hex4 [49, 71, 51, 52] = 0 :=
  ⟨(c7_parse_hex4_amended 49 50 97 66).1 (by decide),
   (c7_parse_hex4_amended 49 71 51 52).2 (by decide)⟩

/-- Claim C10.  `cJSON_GetNumberValue` returns the node's `valuedouble`
exactly when the item is non-NULL and the low byte of its kind is Number,
and returns NaN in every other case, including a NULL item.  The function
takes the item as `const` and performs no writes, so the node and tree are
untouched (the embedding is a pure function of the item). -/
theorem c10_getNumberValue (item : cJSON) :
    ((item.type &&& 255) = cJSON_Number →
      cJSON_GetNumberValue (some item) = item.valuedouble) ∧
    ((item.type &&& 255) ≠ cJSON_Number →
      cJSON_GetNumberValue (some item) = FDouble.nan) ∧
    cJSON_GetNumberValue none = FDouble.nan := by
  refine ⟨fun h => ?_, fun h => ?_, rfl⟩
  · simp [cJSON_GetNumberValue, cJSON_IsNumber, h]
  · simp [cJSON_GetNumberValue, cJSON_IsNumber, h]

/-- Witness for claim C10: a Number node returns its double, a non-Number
node returns NaN. -/
theorem c10_getNumberValue_witness :
    cJSON_GetNumberValue (some (.mk 8 none 3 (.finite 3) none [])) =
      FDouble.finite 3 ∧
    cJSON_GetNumberValue (some (.mk 4 none 3 (.finite 3) none [])) =
      FDouble.nan :=
  ⟨(c10_getNumberValue (.mk 8 none 3 (.finite 3) none [])).1 (by decide),
   (c10_getNumberValue (.mk 4 none 3 (.finite 3) none [])).2.1 (by decide)⟩

/-- Claim C3.  Every writer of a Number payload — `parse_number`,
`cJSON_CreateNumber` and `cJSON_SetNumberHelper` — keeps the integer mirror
saturated against the stored double: `valueint` is INT_MAX when the double
is `>= INT_MAX`, INT_MIN when it is `<= INT_MIN`, and the truncation toward
zero of the double otherwise.  (For `cJSON_CreateNumber` and
`cJSON_SetNumberHelper` a NaN argument is excluded: the C conversion
`(int)NaN` of the final branch is undefined behaviour.  `parse_number` only
produces finite doubles.)  `cJSON_SetNumberHelper` and `cJSON_CreateNumber`
also store the double itself, keeping the two payloads in sync. -/
theorem c3_number_writers_saturate :
    (∀ b item b', parse_number b = some (item, b') →
      (FDouble.ge item.valuedouble (intToDouble INT_MAX) = true →
        item.valueint = INT_MAX) ∧
      (FDouble.le item.valuedouble (intToDouble INT_MIN) = true →
        item.valueint = INT_MIN) ∧
      (FDouble.ge item.valuedouble (intToDouble INT_MAX) = false →
        FDouble.le item.valuedouble (intToDouble INT_MIN) = false →
        item.valueint = fdTrunc item.valuedouble)) ∧
    (∀ num : FDouble, num ≠ .nan →
      (cJSON_CreateNumber num).valuedouble = num ∧
      (FDouble.ge num (intToDouble INT_MAX) = true →
        (cJSON_CreateNumber num).valueint = INT_MAX) ∧
      (FDouble.le num (intToDouble INT_MIN) = true →
        (cJSON_CreateNumber num).valueint = INT_MIN) ∧
      (FDouble.ge num (intToDouble INT_MAX) = false →
        FDouble.le num (intToDouble INT_MIN) = false →
        (cJSON_CreateNumber num).valueint = fdTrunc num)) ∧
    (∀ obj : cJSON, ∀ num : FDouble, num ≠ .nan →
      (cJSON_SetNumberHelper obj num).valuedouble = num ∧
      (FDouble.ge num (intToDouble INT_MAX) = true →
        (cJSON_SetNumberHelper obj num).valueint = INT_MAX) ∧
      (FDouble.le num (intToDouble INT_MIN) = true →
        (cJSON_SetNumberHelper obj num).valueint = INT_MIN) ∧
      (FDouble.ge num (intToDouble INT_MAX) = false →
        FDouble.le num (intToDouble INT_MIN) = false →
        (cJSON_SetNumberHelper obj num).valueint = fdTrunc num)) := by
  refine ⟨?_, ?_, ?_⟩
  · intro b item b' h
    simp only [parse_number] at h
    split at h
    · exact absurd h (by simp)
    · rename_i number consumed heq
      simp only [Option.some.injEq, Prod.mk.injEq] at h
      obtain ⟨hitem, _⟩ := h
      subst hitem
      simp only [cJSON.valueint, cJSON.valuedouble, FDouble.ge, FDouble.le,
        intToDouble, fdTrunc]
      refine ⟨fun h1 => ?_, fun h2 => ?_, fun h1 h2 => ?_⟩
      · rw [if_pos (by exact_mod_cast of_decide_eq_true h1)]
      · have h2q : number ≤ ((INT_MIN : ℤ) : ℚ) := of_decide_eq_true h2
        have hlt : ((INT_MIN : ℤ) : ℚ) < ((INT_MAX : ℤ) : ℚ) := by
          simp [INT_MIN, INT_MAX]
          norm_num
        rw [if_neg (by intro hge; linarith), if_pos h2q]
      · have h1q : ¬ ((INT_MAX : ℤ) : ℚ) ≤ number := by
          intro hc
          simp [of_decide_eq_false, hc] at h1
        have h2q : ¬ number ≤ ((INT_MIN : ℤ) : ℚ) := by
          intro hc
          simp [of_decide_eq_false, hc] at h2
        rw [if_neg h1q, if_neg h2q]
  · intro num hnan
    refine ⟨rfl, fun h1 => ?_, fun h2 => ?_, fun h1 h2 => ?_⟩
    · simp only [cJSON_CreateNumber, cJSON.valueint, h1, if_pos]
    · simp only [cJSON_CreateNumber, cJSON.valueint]
      rw [if_neg ?_, if_pos h2]
      intro hc
      cases num <;> simp_all [FDouble.ge, FDouble.le, intToDouble] <;>
        (try exact hnan rfl) <;>
        · have : ((INT_MIN : ℤ) : ℚ) < ((INT_MAX : ℤ) : ℚ) := by
            simp [INT_MIN, INT_MAX]; norm_num
          linarith
    · simp only [cJSON_CreateNumber, cJSON.valueint, h1, h2]
      rw [if_neg (by simp [h1]), if_neg (by simp [h2])]
  · intro obj num hnan
    refine ⟨rfl, fun h1 => ?_, fun h2 => ?_, fun h1 h2 => ?_⟩
    · simp only [cJSON_SetNumberHelper, cJSON.valueint, h1, if_pos]
    · simp only [cJSON_SetNumberHelper, cJSON.valueint]
      rw [if_neg ?_, if_pos h2]
      intro hc
      cases num <;> simp_all [FDouble.ge, FDouble.le, intToDouble] <;>
        (try exact hnan rfl) <;>
        · have : ((INT_MIN : ℤ) : ℚ) < ((INT_MAX : ℤ) : ℚ) := by
            simp [INT_MIN, INT_MAX]; norm_num
          linarith
    · simp only [cJSON_SetNumberHelper, cJSON.valueint, h1, h2]
      rw [if_neg (by simp [h1]), if_neg (by simp [h2])]

/-- Witness for claim C3: the three writers at concrete inputs, exercising
the high clamp (parse of `"3000000000"`, creation from 3000000000.0), the
low clamp (negative infinity), and the truncation branch (-7.5). -/
theorem c3_number_writers_saturate_witness :
    ((cJSON.mk cJSON_Number none INT_MAX (.finite 3000000000) none
        []).valueint = INT_MAX) ∧
    (cJSON_CreateNumber (.finite 3000000000)).valueint = INT_MAX ∧
    (cJSON_CreateNumber .neginf).valueint = INT_MIN ∧
    (cJSON_SetNumberHelper newItem (.finite (mkRat (-15) 2))).valueint =
      fdTrunc (.finite (mkRat (-15) 2)) :=
  ⟨((c3_number_writers_saturate.1
      { content := [51, 48, 48, 48, 48, 48, 48, 48, 48, 48], length := 10,
        offset := 0, depth := 0 }
      (.mk cJSON_Number none INT_MAX (.finite 3000000000) none [])
      { content := [51, 48, 48, 48, 48, 48, 48, 48, 48, 48], length := 10,
        offset := 10, depth := 0 } rfl).1 (by decide)),
   ((c3_number_writers_saturate.2.1 (.finite 3000000000)
      (by decide)).2.1 (by decide)),
   ((c3_number_writers_saturate.2.1 .neginf (by decide)).2.2.1 (by decide)),
   ((c3_number_writers_saturate.2.2 newItem (.finite (mkRat (-15) 2))
      (by decide)).2.2.2 (by decide) (by decide))⟩

/-- Claim C5.  For every Number node (low byte of the kind is Number) whose
double is NaN or an infinity, the managed print emits exactly the literal
`null` and succeeds, in both formatted and unformatted mode, regardless of
the integer mirror and of every other field of the node. -/
theorem c5_print_nan_inf_null (t : Nat) (vs : Option (List Nat)) (vi : Int)
    (d : FDouble) (key : Option (List Nat)) (cs : List cJSON) (format : Bool)
    (ht : (t &&& 255) = cJSON_Number)
    (hd : (d.isnan || d.isinf) = true) :
    print (.mk t vs vi d key cs) format = some [110, 117, 108, 108] := by
  have hfuel : 2 * csizeC (.mk t vs vi d key cs) + 2 =
      (2 * csizeC (.mk t vs vi d key cs) + 1) + 1 := rfl
  simp only [print, hfuel, print_value, cJSON.type, ht, cJSON_NULL, cJSON_False,
    cJSON_True, cJSON_Number, cJSON_Raw, cJSON_String, cJSON_Array,
    cJSON_Object]
  norm_num
  cases d with
  | finite q => simp [FDouble.isnan, FDouble.isinf] at hd
  | nan =>
    simp only [print_number, cJSON.valuedouble, FDouble.isnan, FDouble.isinf,
      Bool.true_or, if_pos]
    rfl
  | inf =>
    simp only [print_number, cJSON.valuedouble, FDouble.isnan, FDouble.isinf,
      Bool.or_true, if_pos]
    rfl
  | neginf =>
    simp only [print_number, cJSON.valuedouble, FDouble.isnan, FDouble.isinf,
      Bool.or_true, if_pos]
    rfl

/-- Witness for claim C5: a NaN-valued Number node with a nonzero integer
mirror prints as `null` in both modes; an infinite one does too. -/
theorem c5_print_nan_inf_null_witness :
    print (.mk 8 none 77 FDouble.nan none []) false = some [110, 117, 108, 108] ∧
    print (.mk 8 none (-3) FDouble.inf none []) true = some [110, 117, 108, 108] :=
  ⟨c5_print_nan_inf_null 8 none 77 FDouble.nan none [] false (by decide) (by decide),
   c5_print_nan_inf_null 8 none (-3) FDouble.inf none [] true (by decide) (by decide)⟩

/-- The string-copy loop copies its consumed input verbatim: the input is the
copied segment followed by the remaining input. -/
theorem minify_string_go_append (l : List Nat) :
    l = (minify_string_go l).1 ++ (minify_string_go l).2 := by
  induction l using minify_string_go.induct with
  | case1 => simp [minify_string_go]
  | case2 rest => simp [minify_string_go]
  | case3 c rest hq hbq seg rem heq ih =>
    rw [minify_string_go, if_neg hq, if_pos hbq, heq]
    rw [heq] at ih
    simp only at ih ⊢
    have hrest : rest = 34 :: rest.tail := by
      cases rest with
      | nil => simp at hbq
      | cons a r =>
        simp only [List.headD] at hbq
        simp [hbq.2]
    rw [hbq.1, hrest, ih]
    simp
  | case4 c rest hq hbq seg rem heq ih =>
    rw [minify_string_go, if_neg hq, if_neg hbq, heq]
    rw [heq] at ih
    simp only at ih ⊢
    simp [ih]

/-- Re-extraction of a copied string segment: either the copy consumed the
whole input without finding the closing quote (the segment is the input and
nothing remains), or the segment is closed and re-scanning it in front of any
continuation extracts exactly the segment again. -/
theorem minify_string_go_closed (l : List Nat) :
    ((minify_string_go l).1 = l ∧ (minify_string_go l).2 = []) ∨
    (∀ t, minify_string_go ((minify_string_go l).1 ++ t) =
      ((minify_string_go l).1, t)) := by
  induction l using minify_string_go.induct with
  | case1 => left; simp [minify_string_go]
  | case2 rest =>
    right
    intro t
    simp [minify_string_go]
  | case3 c rest hq hbq seg rem heq ih =>
    rw [minify_string_go, if_neg hq, if_pos hbq, heq]
    rw [heq] at ih
    simp only at ih ⊢
    have hrest : rest = 34 :: rest.tail := by
      cases rest with
      | nil => simp at hbq
      | cons a r =>
        simp only [List.headD] at hbq
        simp [hbq.2]
    rcases ih with ⟨hseg, hrem⟩ | hclosed
    · left
      constructor
      · rw [hbq.1, hseg, ← hrest]
      · exact hrem
    · right
      intro t
      have : (92 :: 34 :: seg) ++ t = 92 :: (34 :: (seg ++ t)) := by simp
      rw [this, minify_string_go]
      rw [if_neg (by omega), if_pos (by simp)]
      simp only [List.tail_cons]
      rw [hclosed t]
  | case4 c rest hq hbq seg rem heq ih =>
    rw [minify_string_go, if_neg hq, if_neg hbq, heq]
    rw [heq] at ih
    simp only at ih ⊢
    rcases ih with ⟨hseg, hrem⟩ | hclosed
    · left
      simp [hseg, hrem]
    · right
      intro t
      have hgoal : (c :: seg) ++ t = c :: (seg ++ t) := by simp
      rw [hgoal, minify_string_go, if_neg hq]
      rw [if_neg ?_]
      · rw [hclosed t]
      · rintro ⟨hc92, hhead⟩
        apply hbq
        refine ⟨hc92, ?_⟩
        cases hseg0 : seg with
        | nil =>
          exfalso
          have h34 := hclosed [34]
          rw [hseg0] at h34
          simp [minify_string_go] at h34
        | cons s0 seg' =>
          have happ := minify_string_go_append rest
          rw [heq] at happ
          simp only at happ
          rw [happ, hseg0]
          rw [hseg0] at hhead
          simpa using hhead

/-- Claim C9.  In-place minification is idempotent: a second pass over the
output of `cJSON_Minify` changes nothing.  The theorem holds for every input
byte string (the minifier's output never contains whitespace, comment
starters or stray `/` outside string literals, and string segments re-scan to
themselves), so in particular for every valid JSON text containing no
comments, which is the set of inputs the claim quantifies over. -/
theorem c9_minify_idempotent (json : List Nat) :
    cJSON_Minify (cJSON_Minify json) = cJSON_Minify json := by
  induction json using cJSON_Minify.induct with
  | case1 => simp [cJSON_Minify]
  | case2 c rest hws ih =>
    rw [cJSON_Minify, if_pos hws]
    exact ih
  | case3 rest h47 hws ih =>
    rw [cJSON_Minify, if_neg hws, if_pos rfl, if_pos h47]
    exact ih
  | case4 rest h47 h42 hws ih =>
    rw [cJSON_Minify, if_neg hws, if_pos rfl, if_neg h47, if_pos h42]
    exact ih
  | case5 rest h47 h42 hws ih =>
    rw [cJSON_Minify, if_neg hws, if_pos rfl, if_neg h47, if_neg h42]
    exact ih
  | case6 rest seg rem hws h47 heq ih =>
    obtain ⟨seg0, rem0, hgo⟩ : ∃ a b, minify_string_go rest = (a, b) :=
      ⟨_, _, rfl⟩
    have hms : minify_string (34 :: rest) = (34 :: seg0, rem0) := by
      rw [minify_string]
      simp only [hgo]
    injection hms.symm.trans heq with hseg hrem
    have hMj : cJSON_Minify (34 :: rest) = seg ++ cJSON_Minify rem := by
      rw [cJSON_Minify, if_neg hws, if_neg h47, if_pos rfl, heq]
    rw [hMj]
    rcases minify_string_go_closed rest with hleft | hclosed
    · rw [hgo] at hleft
      simp only at hleft
      have hrem2 : rem = [] := by rw [← hrem, hleft.2]
      have hseg2 : seg = 34 :: rest := by rw [← hseg, hleft.1]
      rw [hrem2]
      have hnil : cJSON_Minify ([] : List Nat) = [] := by rw [cJSON_Minify]
      rw [hnil, List.append_nil, hseg2]
      calc cJSON_Minify (34 :: rest) = seg ++ cJSON_Minify rem := hMj
        _ = 34 :: rest := by rw [hrem2, hnil, List.append_nil, hseg2]
    · rw [hgo] at hclosed
      simp only at hclosed
      rw [← hseg]
      have hcons : (34 :: seg0) ++ cJSON_Minify rem =
          34 :: (seg0 ++ cJSON_Minify rem) := by simp
      rw [hcons, cJSON_Minify, if_neg (by omega), if_neg (by omega),
        if_pos rfl]
      have hms2 : minify_string (34 :: (seg0 ++ cJSON_Minify rem)) =
          (34 :: seg0, cJSON_Minify rem) := by
        rw [minify_string]
        simp only [hclosed (cJSON_Minify rem)]
      rw [hms2]
      simp only
      rw [ih]
      exact hcons
  | case7 c rest hws h47 h34 ih =>
    rw [cJSON_Minify, if_neg hws, if_neg h47, if_neg h34]
    rw [cJSON_Minify, if_neg hws, if_neg h47, if_neg h34]
    rw [ih]

/-- Whitespace skipping preserves everything except the offset. -/
theorem buffer_skip_whitespace_shape (b : parse_buffer) :
    (buffer_skip_whitespace b).depth = b.depth ∧
    (buffer_skip_whitespace b).content = b.content ∧
    (buffer_skip_whitespace b).length = b.length := by
  rw [buffer_skip_whitespace]
  split
  · exact ⟨rfl, rfl, rfl⟩
  · dsimp only
    split <;> exact ⟨rfl, rfl, rfl⟩

/-- A successful `parse_string` yields a leaf (container depth 0) and
preserves the depth counter. -/
theorem parse_string_shape (b : parse_buffer) (item : cJSON)
    (b' : parse_buffer) (h : parse_string b = some (item, b')) :
    containerDepth item = 0 ∧ b'.depth = b.depth := by
  rw [parse_string] at h
  split at h
  · exact absurd h (by simp)
  · split at h
    · exact absurd h (by simp)
    · split at h
      · exact absurd h (by simp)
      · rename_i e _ _ out _
        simp only [Option.some.injEq, Prod.mk.injEq] at h
        obtain ⟨hitem, hbuf⟩ := h
        subst hitem
        subst hbuf
        constructor
        · rw [containerDepth]
          norm_num [cJSON_String, cJSON_Array, cJSON_Object]
          decide
        · rfl

/-- A successful `parse_number` yields a leaf (container depth 0) and
preserves the depth counter. -/
theorem parse_number_shape (b : parse_buffer) (item : cJSON)
    (b' : parse_buffer) (h : parse_number b = some (item, b')) :
    containerDepth item = 0 ∧ b'.depth = b.depth := by
  rw [parse_number] at h
  split at h
  · exact absurd h (by simp)
  · simp only [Option.some.injEq, Prod.mk.injEq] at h
    obtain ⟨hitem, hbuf⟩ := h
    subst hitem
    subst hbuf
    constructor
    · rw [containerDepth]
      norm_num [cJSON_Number, cJSON_Array, cJSON_Object]
      decide
    · rfl

/-- Bound on the container depth of a list from a bound on its members. -/
theorem containerDepthList_le (xs : List cJSON) (K : Nat)
    (h : ∀ c ∈ xs, containerDepth c ≤ K) : containerDepthList xs ≤ K := by
  induction xs with
  | nil => simp [containerDepthList]
  | cons c cs ih =>
    rw [containerDepthList]
    exact max_le (h c (by simp)) (ih (fun d hd => h d (by simp [hd])))

/-- Unfolding equation of `containerDepth` on a constructed node. -/
theorem containerDepth_mk (t : Nat) (vs : Option (List Nat)) (vi : Int)
    (vd : FDouble) (key : Option (List Nat)) (cs : List cJSON) :
    containerDepth (.mk t vs vi vd key cs) =
      if t &&& 255 = cJSON_Array ∨ t &&& 255 = cJSON_Object then
        containerDepthList cs + 1
      else 0 := by
  rw [containerDepth]


/-- Whitespace skipping preserves the depth counter (projection form). -/
theorem buffer_skip_whitespace_depth (b : parse_buffer) :
    (buffer_skip_whitespace b).depth = b.depth :=
  (buffer_skip_whitespace_shape b).1

/-- Depth invariant of the recursive parser: a successfully parsed value has
container depth at most `CJSON_NESTING_LIMIT` minus the depth counter at
which parsing started, and the depth counter is restored on return.  Stated
simultaneously for the five mutually recursive parsing functions. -/
theorem parse_depth_invariant (fuel : Nat) :
    (∀ b item b', parse_value fuel b = some (item, b') →
      containerDepth item ≤ CJSON_NESTING_LIMIT - b.depth ∧
        b'.depth = b.depth) ∧
    (∀ b item b', parse_array fuel b = some (item, b') →
      containerDepth item ≤ CJSON_NESTING_LIMIT - b.depth ∧
        b'.depth = b.depth) ∧
    (∀ b acc out b', parse_array_loop fuel b acc = some (out, b') →
      (∀ c ∈ acc, containerDepth c ≤ CJSON_NESTING_LIMIT - b.depth) →
      (∀ c ∈ out, containerDepth c ≤ CJSON_NESTING_LIMIT - b.depth) ∧
        b'.depth = b.depth) ∧
    (∀ b item b', parse_object fuel b = some (item, b') →
      containerDepth item ≤ CJSON_NESTING_LIMIT - b.depth ∧
        b'.depth = b.depth) ∧
    (∀ b acc out b', parse_object_loop fuel b acc = some (out, b') →
      (∀ c ∈ acc, containerDepth c ≤ CJSON_NESTING_LIMIT - b.depth) →
      (∀ c ∈ out, containerDepth c ≤ CJSON_NESTING_LIMIT - b.depth) ∧
        b'.depth = b.depth) := by
  induction fuel with
  | zero =>
    refine ⟨?_, ?_, ?_, ?_, ?_⟩
    · intro b item b' h
      exact absurd h (by rw [parse_value]; simp)
    · intro b item b' h
      exact absurd h (by rw [parse_array]; simp)
    · intro b acc out b' h
      exact absurd h (by rw [parse_array_loop]; simp)
    · intro b item b' h
      exact absurd h (by rw [parse_object]; simp)
    · intro b acc out b' h
      exact absurd h (by rw [parse_object_loop]; simp)
  | succ fuel ih =>
    obtain ⟨ihv, iha, ihal, iho, ihol⟩ := ih
    refine ⟨?_, ?_, ?_, ?_, ?_⟩
    · -- parse_value
      intro b item b' h
      simp only [parse_value] at h
      split_ifs at h with h1 h2 h3 h4 h5 h6 h7
      · simp only [Option.some.injEq, Prod.mk.injEq] at h
        obtain ⟨hi, hb⟩ := h
        subst hi; subst hb
        exact ⟨by rw [containerDepth_mk, if_neg (by decide)]; exact Nat.zero_le _,
          rfl⟩
      · simp only [Option.some.injEq, Prod.mk.injEq] at h
        obtain ⟨hi, hb⟩ := h
        subst hi; subst hb
        exact ⟨by rw [containerDepth_mk, if_neg (by decide)]; exact Nat.zero_le _,
          rfl⟩
      · simp only [Option.some.injEq, Prod.mk.injEq] at h
        obtain ⟨hi, hb⟩ := h
        subst hi; subst hb
        exact ⟨by rw [containerDepth_mk, if_neg (by decide)]; exact Nat.zero_le _,
          rfl⟩
      · obtain ⟨hcd, hdep⟩ := parse_string_shape b item b' h
        exact ⟨by omega, hdep⟩
      · obtain ⟨hcd, hdep⟩ := parse_number_shape b item b' h
        exact ⟨by omega, hdep⟩
      · exact iha b item b' h
      · exact iho b item b' h
    · -- parse_array
      intro b0 item b' h
      simp only [parse_array] at h
      split_ifs at h with hlim hbr hempty hnoacc
      · -- empty array
        simp only [Option.some.injEq, Prod.mk.injEq] at h
        obtain ⟨hi, hb⟩ := h
        subst hi; subst hb
        constructor
        · rw [containerDepth_mk, if_pos (by decide)]
          have h0 : containerDepthList [] = 0 := by rw [containerDepthList]
          omega
        · simp only [buffer_skip_whitespace_depth]
          omega
      · -- element loop
        split at h
        · exact absurd h (by simp)
        · rename_i children b3 hloop
          split_ifs at h with hclose
          simp only [Option.some.injEq, Prod.mk.injEq] at h
          obtain ⟨hi, hb⟩ := h
          subst hi; subst hb
          obtain ⟨hkids, hd3⟩ := ihal _ [] children b3 hloop (by simp)
          simp only [buffer_skip_whitespace_depth] at hkids hd3
          constructor
          · rw [containerDepth_mk, if_pos (by decide)]
            have hlist := containerDepthList_le children _ hkids
            omega
          · simp only [buffer_skip_whitespace_depth]
            omega
    · -- parse_array_loop
      intro b acc out b' h hacc
      simp only [parse_array_loop] at h
      split at h
      · exact absurd h (by simp)
      · rename_i item b2 hpv
        obtain ⟨hcd, hd2⟩ := ihv _ _ _ hpv
        simp only [buffer_skip_whitespace_depth] at hcd hd2
        split_ifs at h with hcomma
        · obtain ⟨hout, hd'⟩ := ihal _ _ _ _ h (by
            intro c hc
            simp only [buffer_skip_whitespace_depth, hd2]
            rcases List.mem_append.1 hc with hc | hc
            · exact hacc c hc
            · rw [List.mem_singleton] at hc
              subst hc
              exact hcd)
          simp only [buffer_skip_whitespace_depth, hd2] at hout hd'
          exact ⟨hout, hd'⟩
        · simp only [Option.some.injEq, Prod.mk.injEq] at h
          obtain ⟨ho, hb⟩ := h
          subst ho; subst hb
          constructor
          · intro c hc
            rcases List.mem_append.1 hc with hc | hc
            · exact hacc c hc
            · rw [List.mem_singleton] at hc
              subst hc
              exact hcd
          · simp only [buffer_skip_whitespace_depth, hd2]
    · -- parse_object
      intro b0 item b' h
      simp only [parse_object] at h
      split_ifs at h with hlim hbr hempty hnoacc
      · -- empty object
        simp only [Option.some.injEq, Prod.mk.injEq] at h
        obtain ⟨hi, hb⟩ := h
        subst hi; subst hb
        constructor
        · rw [containerDepth_mk, if_pos (by decide)]
          have h0 : containerDepthList [] = 0 := by rw [containerDepthList]
          omega
        · simp only [buffer_skip_whitespace_depth]
          omega
      · -- member loop
        split at h
        · exact absurd h (by simp)
        · rename_i children b3 hloop
          split_ifs at h with hclose
          simp only [Option.some.injEq, Prod.mk.injEq] at h
          obtain ⟨hi, hb⟩ := h
          subst hi; subst hb
          obtain ⟨hkids, hd3⟩ := ihol _ [] children b3 hloop (by simp)
          simp only [buffer_skip_whitespace_depth] at hkids hd3
          constructor
          · rw [containerDepth_mk, if_pos (by decide)]
            have hlist := containerDepthList_le children _ hkids
            omega
          · simp only [buffer_skip_whitespace_depth]
            omega
    · -- parse_object_loop
      intro b acc out b' h hacc
      simp only [parse_object_loop] at h
      split_ifs at h with hacc1
      split at h
      · exact absurd h (by simp)
      · rename_i keyItem b2 hps
        obtain ⟨_, hd2⟩ := parse_string_shape _ _ _ hps
        simp only [buffer_skip_whitespace_depth] at hd2
        split_ifs at h with hcolon
        split at h
        · exact absurd h (by simp)
        · rename_i valItem b5 hpv
          obtain ⟨hcd, hd5⟩ := ihv _ _ _ hpv
          simp only [buffer_skip_whitespace_depth] at hcd hd5
          have hitemcd : containerDepth
              (cJSON.mk valItem.type valItem.valuestring valItem.valueint
                valItem.valuedouble keyItem.valuestring valItem.child) =
              containerDepth valItem := by
            obtain ⟨t, vs, vi, vd, key, cs⟩ := valItem
            simp [containerDepth_mk, cJSON.type, cJSON.child]
          split_ifs at h with hcomma
          · obtain ⟨hout, hd'⟩ := ihol _ _ _ _ h (by
              intro c hc
              simp only [buffer_skip_whitespace_depth, hd5, hd2]
              rcases List.mem_append.1 hc with hc | hc
              · exact hacc c hc
              · rw [List.mem_singleton] at hc
                subst hc
                rw [hitemcd]
                omega)
            simp only [buffer_skip_whitespace_depth, hd5, hd2] at hout hd'
            exact ⟨hout, hd'⟩
          · simp only [Option.some.injEq, Prod.mk.injEq] at h
            obtain ⟨ho, hb⟩ := h
            subst ho; subst hb
            constructor
            · intro c hc
              rcases List.mem_append.1 hc with hc | hc
              · exact hacc c hc
              · rw [List.mem_singleton] at hc
                subst hc
                rw [hitemcd]
                omega
            · simp only [buffer_skip_whitespace_depth, hd5, hd2]

/-- A successful literal match pins down the first byte. -/
theorem litMatch_head (b : parse_buffer) (x : Nat) (xs : List Nat)
    (h : litMatch b (x :: xs) = true) : bufByte b 0 = x := by
  rw [litMatch] at h
  rw [List.all_eq_true] at h
  have h0 := h 0 (by simp)
  simpa using h0

/-- Skipping whitespace from an accessible non-whitespace byte is the
identity. -/
theorem bsw_id (b : parse_buffer) (hacc : can_access_at_index b 0 = true)
    (hgt : 32 < bufByte b 0) : buffer_skip_whitespace b = b := by
  rw [buffer_skip_whitespace]
  rw [if_neg (show ¬¬(can_access_at_index b 0 = true) from fun hn => hn hacc)]
  simp only []
  have hloop : skipWsLoop b.content b.length (b.length + 1) b.offset =
      b.offset := by
    rw [skipWsLoop]
    rw [if_neg (show ¬(b.offset < b.length ∧ b.content.getD b.offset 0 ≤ 32)
      from fun hc => absurd (show 32 < b.content.getD b.offset 0 from hgt)
        (by omega))]
  rw [hloop]
  rw [if_neg (show ¬(b.offset = b.length) from by
    simp only [can_access_at_index, decide_eq_true_eq] at hacc
    omega)]

/-- Reading inside the replicated prefix of a byte string. -/
theorem getD_replicate_append (n : Nat) (a : Nat) (rest : List Nat) :
    ∀ i < n, (List.replicate n a ++ rest).getD i 0 = a := by
  induction n with
  | zero => omega
  | succ n ih =>
    intro i hi
    cases i with
    | zero => rw [List.replicate_succ]; rfl
    | succ i =>
      rw [List.replicate_succ, List.cons_append, List.getD_cons_succ]
      exact ih i (by omega)

/-- Every parse of a run of `k` opening brackets at depth `d` with
`CJSON_NESTING_LIMIT < d + k` fails: each bracket increments the depth and
`parse_array` rejects once the counter reaches the limit.  Stated
simultaneously for `parse_value`, `parse_array` and the element loop. -/
theorem deep_brackets_fail (fuel : Nat) :
    (∀ b k, 1 ≤ k →
      (∀ i < k, can_access_at_index b i = true ∧ bufByte b i = 91) →
      CJSON_NESTING_LIMIT + 1 ≤ b.depth + k →
      parse_value fuel b = none) ∧
    (∀ b k, 1 ≤ k →
      (∀ i < k, can_access_at_index b i = true ∧ bufByte b i = 91) →
      CJSON_NESTING_LIMIT + 1 ≤ b.depth + k →
      parse_array fuel b = none) ∧
    (∀ b k acc, 1 ≤ k →
      (∀ i < k, can_access_at_index b (i + 1) = true ∧ bufByte b (i + 1) = 91) →
      CJSON_NESTING_LIMIT + 1 ≤ b.depth + k →
      parse_array_loop fuel b acc = none) := by
  induction fuel with
  | zero =>
    exact ⟨fun b k _ _ _ => rfl, fun b k _ _ _ => rfl, fun b k acc _ _ _ => rfl⟩
  | succ fuel ih =>
    obtain ⟨ihv, iha, ihal⟩ := ih
    refine ⟨?_, ?_, ?_⟩
    · -- parse_value
      intro b k hk hbr hd
      have hacc0 := (hbr 0 hk).1
      have hb0 := (hbr 0 hk).2
      simp only [parse_value]
      split_ifs with h1 h2 h3 h4 h5 h6 h7
      · exact absurd (litMatch_head _ _ _ h1.2) (by omega)
      · exact absurd (litMatch_head _ _ _ h2.2) (by omega)
      · exact absurd (litMatch_head _ _ _ h3.2) (by omega)
      · exact absurd h4.2 (by omega)
      · exact absurd h5.2 (by omega)
      · exact iha b k hk hbr hd
      · exact absurd ⟨hacc0, hb0⟩ h6
      · exact absurd ⟨hacc0, hb0⟩ h6
    · -- parse_array
      intro b k hk hbr hd
      have hb0 := (hbr 0 hk).2
      simp only [parse_array]
      by_cases hlim : CJSON_NESTING_LIMIT ≤ b.depth
      · rw [if_pos hlim]
      · rw [if_neg hlim]
        have hk2 : 2 ≤ k := by omega
        have hacc1 := (hbr 1 hk2).1
        have hb1 := (hbr 1 hk2).2
        have haccB : can_access_at_index
            { content := b.content, length := b.length,
              offset := b.offset + 1, depth := b.depth + 1 } 0 = true := by
          simp only [can_access_at_index, decide_eq_true_eq] at hacc1 ⊢
          omega
        have hbB : 32 < bufByte
            { content := b.content, length := b.length,
              offset := b.offset + 1, depth := b.depth + 1 } 0 := by
          simp only [bufByte, byteAt] at hb1 ⊢
          simp only [Nat.add_zero]
          omega
        have hbsw := bsw_id _ haccB hbB
        rw [hbsw]
        split_ifs with hbr91 hclose
        · rfl
        · exact absurd hclose.2 (by
            simp only [bufByte, byteAt] at hb1 ⊢
            simp only [Nat.add_zero]
            omega)
        · simp only [Nat.add_sub_cancel]
          have hl := ihal
            { content := b.content, length := b.length,
              offset := b.offset, depth := b.depth + 1 } (k - 1) []
            (by omega)
            (fun i hi => hbr (i + 1) (by omega))
            (by show CJSON_NESTING_LIMIT + 1 ≤ b.depth + 1 + (k - 1); omega)
          rw [hl]
    · -- parse_array_loop
      intro b k acc hk hbr hd
      have hacc1 := (hbr 0 hk).1
      have hb1 := (hbr 0 hk).2
      simp only [parse_array_loop]
      have haccB : can_access_at_index
          { content := b.content, length := b.length,
            offset := b.offset + 1, depth := b.depth } 0 = true := by
        simp only [can_access_at_index, decide_eq_true_eq] at hacc1 ⊢
        omega
      have hbB : 32 < bufByte
          { content := b.content, length := b.length,
            offset := b.offset + 1, depth := b.depth } 0 := by
        simp only [bufByte, byteAt, Nat.add_zero, Nat.zero_add] at hb1 ⊢
        omega
      have hbsw := bsw_id _ haccB hbB
      rw [hbsw]
      have hv := ihv
        { content := b.content, length := b.length,
          offset := b.offset + 1, depth := b.depth } k hk
        (by
          refine fun i hi => ⟨?_, ?_⟩
          · have h := (hbr i hi).1
            simp only [can_access_at_index, decide_eq_true_eq] at h ⊢
            omega
          · have h := (hbr i hi).2
            simp only [bufByte, byteAt] at h ⊢
            have e : b.offset + 1 + i = b.offset + (i + 1) := by omega
            rw [e]
            exact h)
        (by show CJSON_NESTING_LIMIT + 1 ≤ b.depth + k; omega)
      rw [hv]

/-- A successful top-level parse yields a tree within the nesting limit. -/
theorem cJSON_ParseWithLengthOpts_depth_le (value : List Nat) (len : Nat)
    (req : Bool) (item : cJSON)
    (h : cJSON_ParseWithLengthOpts value len req = some item) :
    containerDepth item ≤ CJSON_NESTING_LIMIT := by
  rw [cJSON_ParseWithLengthOpts] at h
  by_cases hlen : len = 0
  · rw [if_pos hlen] at h
    exact absurd h (by simp)
  · rw [if_neg hlen] at h
    simp only [] at h
    split at h
    · exact absurd h (by simp)
    · rename_i item1 b1 hpv
      have hv := ((parse_depth_invariant (4 * len + 16)).1 _ _ _ hpv).1
      have hdep : (buffer_skip_whitespace (skip_utf8_bom
          { content := value, length := len, offset := 0, depth := 0 })).depth
          = 0 := by
        rw [buffer_skip_whitespace_depth]
        rw [skip_utf8_bom]
        split <;> rfl
      rw [hdep] at hv
      split_ifs at h with hreq hterm
      · simp only [Option.some.injEq] at h
        subst h
        omega
      · simp only [Option.some.injEq] at h
        subst h
        omega

/-- Entry-level failure for a buffer beginning with more opening brackets
than the nesting limit. -/
theorem entry_fail (value : List Nat) (len : Nat) (req : Bool) (k : Nat)
    (hk : 1 ≤ k) (hlen0 : ¬len = 0)
    (hbyte : ∀ i < k, i < len ∧ value.getD i 0 = 91)
    (hd : CJSON_NESTING_LIMIT + 1 ≤ k) :
    cJSON_ParseWithLengthOpts value len req = none := by
  rw [cJSON_ParseWithLengthOpts]
  rw [if_neg hlen0]
  simp only []
  have hbr : ∀ i < k, can_access_at_index
      { content := value, length := len, offset := 0, depth := 0 } i = true ∧
      bufByte
      { content := value, length := len, offset := 0, depth := 0 } i = 91 := by
    intro i hi
    obtain ⟨h1, h2⟩ := hbyte i hi
    constructor
    · simp only [can_access_at_index, decide_eq_true_eq]
      omega
    · simp only [bufByte, byteAt, Nat.zero_add]
      exact h2
  have hb0 := (hbr 0 hk).2
  have hnotbom : ¬(can_access_at_index
      { content := value, length := len, offset := 0, depth := 0 } 4 = true ∧
      litMatch
      { content := value, length := len, offset := 0, depth := 0 }
      [239, 187, 191] = true) :=
    fun hc => absurd (litMatch_head _ _ _ hc.2) (by omega)
  rw [skip_utf8_bom, if_neg hnotbom]
  have hbsw := bsw_id _ (hbr 0 hk).1 (by omega)
  rw [hbsw]
  have hv := (deep_brackets_fail (4 * len + 16)).1 _ k hk hbr (by
    show CJSON_NESTING_LIMIT + 1 ≤ 0 + k
    omega)
  rw [hv]

/-- `cJSON_Parse` fails on any text beginning with `CJSON_NESTING_LIMIT + 1`
opening brackets. -/
theorem deep_input_parse_none (tail : List Nat) :
    cJSON_Parse (List.replicate (CJSON_NESTING_LIMIT + 1) 91 ++ tail) =
      none := by
  rw [cJSON_Parse]
  apply entry_fail _ _ _ (CJSON_NESTING_LIMIT + 1) (by omega) (by simp)
  · intro i hi
    constructor
    · simp only [List.length_append, List.length_replicate]
      omega
    · rw [List.append_assoc]
      exact getD_replicate_append _ _ _ i hi
  · omega

/-- Reading past a prefix of an appended byte string. -/
theorem getD_append_right' (l r : List Nat) (j d : Nat) :
    (l ++ r).getD (l.length + j) d = r.getD j d := by
  induction l with
  | nil => simp
  | cons x xs ih =>
    rw [List.cons_append, List.length_cons]
    have e : xs.length + 1 + j = (xs.length + j) + 1 := by omega
    rw [e, List.getD_cons_succ]
    exact ih

/-- The first `CJSON_NESTING_LIMIT` bytes of the canonical input are opening brackets. -/
theorem nestContent_open (j : Nat) (h : j < CJSON_NESTING_LIMIT) :
    nestContent.getD j 0 = 91 := by
  rw [nestContent, List.append_assoc]
  exact getD_replicate_append _ _ _ j h

/-- The next `CJSON_NESTING_LIMIT` bytes of the canonical input are closing brackets. -/
theorem nestContent_close (j : Nat) (h1 : CJSON_NESTING_LIMIT ≤ j)
    (h2 : j < CJSON_NESTING_LIMIT + CJSON_NESTING_LIMIT) :
    nestContent.getD j 0 = 93 := by
  rw [nestContent, List.append_assoc]
  have e : j = (List.replicate CJSON_NESTING_LIMIT 91).length +
      (j - CJSON_NESTING_LIMIT) := by
    rw [List.length_replicate]
    omega
  rw [e, getD_append_right']
  rw [show List.replicate CJSON_NESTING_LIMIT 93 ++ [0] =
    List.replicate CJSON_NESTING_LIMIT 93 ++ [0] from rfl]
  exact getD_replicate_append _ _ _ _ (by
    rw [List.length_replicate] at e
    omega)

/-- Length of the canonical at-limit input including the terminating nul. -/
theorem nest_len : (List.replicate CJSON_NESTING_LIMIT 91 ++
    List.replicate CJSON_NESTING_LIMIT 93).length + 1 =
    CJSON_NESTING_LIMIT + CJSON_NESTING_LIMIT + 1 := by
  simp

/-- Parsing the canonical input from `m` levels above the innermost array succeeds, consuming the matching brackets and restoring the depth counter. -/
theorem nest_parse : ∀ m, 1 ≤ m → m ≤ CJSON_NESTING_LIMIT →
    ∀ f, 3 * m ≤ f →
    parse_value f (nbuf (CJSON_NESTING_LIMIT - m) (CJSON_NESTING_LIMIT - m)) =
      some (nestTree (m - 1),
        nbuf (CJSON_NESTING_LIMIT + m) (CJSON_NESTING_LIMIT - m)) := by
  intro m
  induction m with
  | zero => omega
  | succ m ih =>
    intro h1 hle f hf
    obtain ⟨f1, rfl⟩ : ∃ f1, f = f1 + 1 := ⟨f - 1, by omega⟩
    have hb0 : bufByte (nbuf (CJSON_NESTING_LIMIT - (m + 1))
        (CJSON_NESTING_LIMIT - (m + 1))) 0 = 91 := by
      simp only [bufByte, byteAt, nbuf, Nat.add_zero]
      exact nestContent_open _ (by omega)
    have hacc0 : can_access_at_index (nbuf (CJSON_NESTING_LIMIT - (m + 1))
        (CJSON_NESTING_LIMIT - (m + 1))) 0 = true := by
      simp only [can_access_at_index, nbuf, decide_eq_true_eq, nest_len]
      omega
    simp only [parse_value]
    split_ifs with hc1 hc2 hc3 hc4 hc5 hc6 hc7
    · exact absurd (litMatch_head _ _ _ hc1.2) (by omega)
    · exact absurd (litMatch_head _ _ _ hc2.2) (by omega)
    · exact absurd (litMatch_head _ _ _ hc3.2) (by omega)
    · exact absurd hc4.2 (by omega)
    · exact absurd hc5.2 (by omega)
    · -- array case
      obtain ⟨f2, rfl⟩ : ∃ f2, f1 = f2 + 1 := ⟨f1 - 1, by omega⟩
      simp only [parse_array, nbuf, nest_len]
      rw [if_neg (show ¬(CJSON_NESTING_LIMIT ≤ CJSON_NESTING_LIMIT - (m + 1))
        from by omega)]
      rcases m with _ | m0
      · -- innermost array: the next byte is the first closing bracket
        have hidx : CJSON_NESTING_LIMIT - (0 + 1) + 1 = CJSON_NESTING_LIMIT :=
          by omega
        rw [hidx]
        have haccR : can_access_at_index
            { content := nestContent,
              length := CJSON_NESTING_LIMIT + CJSON_NESTING_LIMIT + 1,
              offset := CJSON_NESTING_LIMIT,
              depth := CJSON_NESTING_LIMIT } 0 = true := by
          simp only [can_access_at_index, decide_eq_true_eq]
          omega
        have hb93 : bufByte
            { content := nestContent,
              length := CJSON_NESTING_LIMIT + CJSON_NESTING_LIMIT + 1,
              offset := CJSON_NESTING_LIMIT,
              depth := CJSON_NESTING_LIMIT } 0 = 93 := by
          simp only [bufByte, byteAt, Nat.add_zero]
          exact nestContent_close _ (le_refl _) (by omega)
        have hbswR := bsw_id _ haccR (by omega)
        rw [hbswR]
        split_ifs with hbr91 hempty hnoacc
        · refine absurd ?_ hbr91
          simp only [bufByte, byteAt, Nat.add_zero]
          exact nestContent_open _ (by omega)
        · simp only [Option.some.injEq, Prod.mk.injEq, parse_buffer.mk.injEq]
          exact ⟨by rw [show (0 + 1 - 1 : Nat) = 0 from rfl, nestTree], trivial⟩
        · exact absurd ⟨haccR, hb93⟩ hempty
      · -- outer array: recurse through the element loop
        have hidx : CJSON_NESTING_LIMIT - (m0 + 1 + 1) + 1 =
            CJSON_NESTING_LIMIT - (m0 + 1) := by omega
        rw [hidx]
        have haccR : can_access_at_index
            { content := nestContent,
              length := CJSON_NESTING_LIMIT + CJSON_NESTING_LIMIT + 1,
              offset := CJSON_NESTING_LIMIT - (m0 + 1),
              depth := CJSON_NESTING_LIMIT - (m0 + 1) } 0 = true := by
          simp only [can_access_at_index, decide_eq_true_eq]
          omega
        have hb91R : bufByte
            { content := nestContent,
              length := CJSON_NESTING_LIMIT + CJSON_NESTING_LIMIT + 1,
              offset := CJSON_NESTING_LIMIT - (m0 + 1),
              depth := CJSON_NESTING_LIMIT - (m0 + 1) } 0 = 91 := by
          simp only [bufByte, byteAt, Nat.add_zero]
          exact nestContent_open _ (by omega)
        have hbswR := bsw_id _ haccR (by omega)
        rw [hbswR]
        split_ifs with hbr91 hempty hnoacc
        · refine absurd ?_ hbr91
          simp only [bufByte, byteAt, Nat.add_zero]
          exact nestContent_open _ (by omega)
        · exact absurd hempty.2 (by omega)
        · simp only []
          obtain ⟨f3, rfl⟩ : ∃ f3, f2 = f3 + 1 := ⟨f2 - 1, by omega⟩
          simp only [parse_array_loop]
          rw [show CJSON_NESTING_LIMIT - (m0 + 1) - 1 + 1 =
            CJSON_NESTING_LIMIT - (m0 + 1) from by omega]
          rw [hbswR]
          have hv := ih (by omega) (by omega) f3 (by omega)
          simp only [nbuf, nest_len, Nat.add_sub_cancel] at hv
          rw [hv]
          simp only []
          have haccR4 : can_access_at_index
              { content := nestContent,
                length := CJSON_NESTING_LIMIT + CJSON_NESTING_LIMIT + 1,
                offset := CJSON_NESTING_LIMIT + (m0 + 1),
                depth := CJSON_NESTING_LIMIT - (m0 + 1) } 0 = true := by
            simp only [can_access_at_index, decide_eq_true_eq]
            omega
          have hb93R : bufByte
              { content := nestContent,
                length := CJSON_NESTING_LIMIT + CJSON_NESTING_LIMIT + 1,
                offset := CJSON_NESTING_LIMIT + (m0 + 1),
                depth := CJSON_NESTING_LIMIT - (m0 + 1) } 0 = 93 := by
            simp only [bufByte, byteAt, Nat.add_zero]
            exact nestContent_close _ (by omega) (by omega)
          have hbswR4 := bsw_id _ haccR4 (by omega)
          rw [hbswR4]
          split_ifs with hcomma
          · exact absurd hcomma.2 (by omega)
          · simp only []
            split_ifs with hclose
            · rcases hclose with hc | hc
              · exact absurd haccR4 hc
              · exact absurd hb93R hc
            · simp only [Option.some.injEq, Prod.mk.injEq, parse_buffer.mk.injEq,
                List.nil_append]
              refine ⟨?_, trivial, trivial, by omega, by omega⟩
              rw [show m0 + 1 + 1 - 1 = m0 + 1 from by omega, nestTree]
    · exact absurd ⟨hacc0, hb0⟩ hc6
    · exact absurd ⟨hacc0, hb0⟩ hc6

/-- The canonical input with exactly `CJSON_NESTING_LIMIT` nested arrays parses successfully to `nestTree (CJSON_NESTING_LIMIT - 1)`. -/
theorem at_limit_parse :
    cJSON_Parse (List.replicate CJSON_NESTING_LIMIT 91 ++
        List.replicate CJSON_NESTING_LIMIT 93) =
      some (nestTree (CJSON_NESTING_LIMIT - 1)) := by
  rw [cJSON_Parse, cJSON_ParseWithLengthOpts]
  rw [if_neg (by simp)]
  simp only []
  have hrec : (
      { content := (List.replicate CJSON_NESTING_LIMIT 91 ++
          List.replicate CJSON_NESTING_LIMIT 93) ++ [0],
        length := (List.replicate CJSON_NESTING_LIMIT 91 ++
          List.replicate CJSON_NESTING_LIMIT 93).length + 1,
        offset := 0, depth := 0 } : parse_buffer) = nbuf 0 0 := rfl
  rw [hrec]
  have hb0 : bufByte (nbuf 0 0) 0 = 91 := by
    simp only [bufByte, byteAt, nbuf, Nat.add_zero]
    exact nestContent_open 0 (by decide)
  have hbom : skip_utf8_bom (nbuf 0 0) = nbuf 0 0 := by
    rw [skip_utf8_bom]
    rw [if_neg (show ¬(can_access_at_index (nbuf 0 0) 4 = true ∧
      litMatch (nbuf 0 0) [239, 187, 191] = true) from
      fun hc => absurd (litMatch_head _ _ _ hc.2) (by omega))]
  rw [hbom]
  have hacc : can_access_at_index (nbuf 0 0) 0 = true := by
    simp only [can_access_at_index, nbuf, nest_len, decide_eq_true_eq]
    omega
  rw [bsw_id (nbuf 0 0) hacc (by omega)]
  have hv := nest_parse CJSON_NESTING_LIMIT (by decide) (le_refl _)
    (4 * ((List.replicate CJSON_NESTING_LIMIT 91 ++
      List.replicate CJSON_NESTING_LIMIT 93).length + 1) + 16)
    (by rw [nest_len]; omega)
  rw [Nat.sub_self] at hv
  rw [hv]
  rfl

/-- Container depth of the canonical nested-array tree. -/
theorem containerDepth_nestTree : ∀ k, containerDepth (nestTree k) = k + 1 := by
  intro k
  induction k with
  | zero => decide
  | succ k ih =>
    rw [nestTree, containerDepth_mk, if_pos (by decide)]
    rw [containerDepthList, containerDepthList, ih]
    omega

/-- Each element of a list is bounded by the list container depth. -/
theorem containerDepthList_mem (xs : List cJSON) (c : cJSON) (hc : c ∈ xs) :
    containerDepth c ≤ containerDepthList xs := by
  induction xs with
  | nil => cases hc
  | cons a t ih =>
    rw [containerDepthList]
    rcases List.mem_cons.1 hc with rfl | hc
    · exact le_max_left _ _
    · exact le_trans (ih hc) (le_max_right _ _)

/-- The guard-free loops only ever append to their accumulator. -/
theorem nolimit_loop_extends (fuel : Nat) :
    (∀ b acc out b', parse_array_loop_nolimit fuel b acc = some (out, b') →
      ∃ rest, out = acc ++ rest) ∧
    (∀ b acc out b', parse_object_loop_nolimit fuel b acc = some (out, b') →
      ∃ rest, out = acc ++ rest) := by
  induction fuel with
  | zero =>
    constructor
    · intro b acc out b' h
      exact absurd h (by rw [parse_array_loop_nolimit]; simp)
    · intro b acc out b' h
      exact absurd h (by rw [parse_object_loop_nolimit]; simp)
  | succ fuel ih =>
    obtain ⟨iha, iho⟩ := ih
    constructor
    · intro b acc out b' h
      simp only [parse_array_loop_nolimit] at h
      split at h
      · exact absurd h (by simp)
      · rename_i item b2 hpv
        split_ifs at h with hcomma
        · obtain ⟨rest, hrest⟩ := iha _ _ _ _ h
          exact ⟨item :: rest, by rw [hrest]; simp⟩
        · simp only [Option.some.injEq, Prod.mk.injEq] at h
          exact ⟨[item], h.1.symm⟩
    · intro b acc out b' h
      simp only [parse_object_loop_nolimit] at h
      split_ifs at h with hacc1
      split at h
      · exact absurd h (by simp)
      · rename_i keyItem b2 hps
        split_ifs at h with hcolon
        split at h
        · exact absurd h (by simp)
        · rename_i valItem b5 hpv
          split_ifs at h with hcomma
          · obtain ⟨rest, hrest⟩ := iho _ _ _ _ h
            refine ⟨cJSON.mk valItem.type valItem.valuestring valItem.valueint
              valItem.valuedouble keyItem.valuestring valItem.child :: rest,
              ?_⟩
            rw [hrest]
            simp
          · simp only [Option.some.injEq, Prod.mk.injEq] at h
            exact ⟨[cJSON.mk valItem.type valItem.valuestring valItem.valueint
              valItem.valuedouble keyItem.valuestring valItem.child],
              h.1.symm⟩

/-- Forward simulation: every success of the limited parser is a success of
the guard-free specification parser, with the same result. -/
theorem parse_nolimit_forward (fuel : Nat) :
    (∀ b r, parse_value fuel b = some r →
      parse_value_nolimit fuel b = some r) ∧
    (∀ b r, parse_array fuel b = some r →
      parse_array_nolimit fuel b = some r) ∧
    (∀ b acc r, parse_array_loop fuel b acc = some r →
      parse_array_loop_nolimit fuel b acc = some r) ∧
    (∀ b r, parse_object fuel b = some r →
      parse_object_nolimit fuel b = some r) ∧
    (∀ b acc r, parse_object_loop fuel b acc = some r →
      parse_object_loop_nolimit fuel b acc = some r) := by
  induction fuel with
  | zero =>
    refine ⟨?_, ?_, ?_, ?_, ?_⟩
    · intro b r h
      exact absurd h (by rw [parse_value]; simp)
    · intro b r h
      exact absurd h (by rw [parse_array]; simp)
    · intro b acc r h
      exact absurd h (by rw [parse_array_loop]; simp)
    · intro b r h
      exact absurd h (by rw [parse_object]; simp)
    · intro b acc r h
      exact absurd h (by rw [parse_object_loop]; simp)
  | succ fuel ih =>
    obtain ⟨ihv, iha, ihal, iho, ihol⟩ := ih
    refine ⟨?_, ?_, ?_, ?_, ?_⟩
    · intro b r h
      rw [parse_value] at h
      rw [parse_value_nolimit]
      split_ifs at h ⊢ with h1 h2 h3 h4 h5 h6 h7
      · exact h
      · exact h
      · exact h
      · exact h
      · exact h
      · exact iha b r h
      · exact iho b r h
    · intro b0 r h
      simp only [parse_array] at h
      simp only [parse_array_nolimit]
      split_ifs at h with hlim hbr hempty hnoacc
      · rw [if_neg hbr, if_pos hempty]
        exact h
      · rw [if_neg hbr, if_neg hempty, if_neg (not_not_intro hnoacc)]
        split at h
        · exact absurd h (by simp)
        · rename_i children b3 hloop
          rw [ihal _ _ _ hloop]
          simp only []
          exact h
    · intro b acc r h
      simp only [parse_array_loop] at h
      simp only [parse_array_loop_nolimit]
      split at h
      · exact absurd h (by simp)
      · rename_i item b2 hpv
        rw [ihv _ _ hpv]
        simp only []
        split_ifs at h ⊢ with hcomma
        · exact ihal _ _ _ h
        · exact h
    · intro b0 r h
      simp only [parse_object] at h
      simp only [parse_object_nolimit]
      split_ifs at h with hlim hbr hempty hnoacc
      · rw [if_neg hbr, if_pos hempty]
        exact h
      · rw [if_neg hbr, if_neg hempty, if_neg (not_not_intro hnoacc)]
        split at h
        · exact absurd h (by simp)
        · rename_i children b3 hloop
          rw [ihol _ _ _ hloop]
          simp only []
          exact h
    · intro b acc r h
      simp only [parse_object_loop] at h
      simp only [parse_object_loop_nolimit]
      split_ifs at h with hacc1
      rw [if_neg (not_not_intro hacc1)]
      split at h
      · exact absurd h (by simp)
      · rename_i keyItem b2 hps
        split_ifs at h ⊢ with hcolon
        split at h
        · exact absurd h (by simp)
        · rename_i valItem b5 hpv
          rw [ihv _ _ hpv]
          simp only []
          split_ifs at h ⊢ with hcomma
          · exact ihol _ _ _ h
          · exact h

/-- Backward simulation: a success of the guard-free specification parser
whose result fits in the remaining depth budget is also a success of the
limited parser, with the same result. -/
theorem parse_nolimit_backward (fuel : Nat) :
    (∀ b item b', parse_value_nolimit fuel b = some (item, b') →
      containerDepth item ≤ CJSON_NESTING_LIMIT - b.depth →
      parse_value fuel b = some (item, b')) ∧
    (∀ b item b', parse_array_nolimit fuel b = some (item, b') →
      containerDepth item ≤ CJSON_NESTING_LIMIT - b.depth →
      parse_array fuel b = some (item, b')) ∧
    (∀ b acc out b', parse_array_loop_nolimit fuel b acc = some (out, b') →
      (∀ c ∈ out, containerDepth c ≤ CJSON_NESTING_LIMIT - b.depth) →
      parse_array_loop fuel b acc = some (out, b')) ∧
    (∀ b item b', parse_object_nolimit fuel b = some (item, b') →
      containerDepth item ≤ CJSON_NESTING_LIMIT - b.depth →
      parse_object fuel b = some (item, b')) ∧
    (∀ b acc out b', parse_object_loop_nolimit fuel b acc = some (out, b') →
      (∀ c ∈ out, containerDepth c ≤ CJSON_NESTING_LIMIT - b.depth) →
      parse_object_loop fuel b acc = some (out, b')) := by
  induction fuel with
  | zero =>
    refine ⟨?_, ?_, ?_, ?_, ?_⟩
    · intro b item b' h
      exact absurd h (by rw [parse_value_nolimit]; simp)
    · intro b item b' h
      exact absurd h (by rw [parse_array_nolimit]; simp)
    · intro b acc out b' h
      exact absurd h (by rw [parse_array_loop_nolimit]; simp)
    · intro b item b' h
      exact absurd h (by rw [parse_object_nolimit]; simp)
    · intro b acc out b' h
      exact absurd h (by rw [parse_object_loop_nolimit]; simp)
  | succ fuel ih =>
    obtain ⟨ihv, iha, ihal, iho, ihol⟩ := ih
    refine ⟨?_, ?_, ?_, ?_, ?_⟩
    · -- parse_value
      intro b item b' h hbud
      rw [parse_value_nolimit] at h
      rw [parse_value]
      split_ifs at h ⊢ with h1 h2 h3 h4 h5 h6 h7
      · exact h
      · exact h
      · exact h
      · exact h
      · exact h
      · exact iha _ _ _ h hbud
      · exact iho _ _ _ h hbud
    · -- parse_array
      intro b0 item b' h hbud
      simp only [parse_array_nolimit] at h
      simp only [parse_array]
      split_ifs at h with hbr hempty hnoacc
      · -- empty array
        have hcd : containerDepth item = 1 := by
          simp only [Option.some.injEq, Prod.mk.injEq] at h
          rw [← h.1]
          decide
        rw [if_neg (show ¬(CJSON_NESTING_LIMIT ≤ b0.depth) from by omega)]
        rw [if_neg hbr, if_pos hempty]
        exact h
      · -- element loop
        split at h
        · exact absurd h (by simp)
        · rename_i children b3 hloop
          split_ifs at h with hclose
          have hinj := h
          simp only [Option.some.injEq, Prod.mk.injEq] at hinj
          have hcd : containerDepth item = containerDepthList children + 1 := by
            rw [← hinj.1, containerDepth_mk, if_pos (by decide)]
          have hlimloop := ihal _ _ _ _ hloop (by
            intro c hc
            have hmc := containerDepthList_mem children c hc
            simp only [buffer_skip_whitespace_depth]
            omega)
          rw [if_neg (show ¬(CJSON_NESTING_LIMIT ≤ b0.depth) from by omega)]
          rw [if_neg hbr, if_neg hempty, if_neg (not_not_intro hnoacc)]
          rw [hlimloop]
          simp only []
          rw [if_neg hclose]
          exact h
    · -- parse_array_loop
      intro b acc out b' h hbud
      simp only [parse_array_loop_nolimit] at h
      simp only [parse_array_loop]
      split at h
      · exact absurd h (by simp)
      · rename_i itemv b2 hpv
        split_ifs at h with hcomma
        · obtain ⟨rest, hrest⟩ := (nolimit_loop_extends fuel).1 _ _ _ _ h
          have hmem : itemv ∈ out := by
            rw [hrest]
            simp
          have hbv : containerDepth itemv ≤
              CJSON_NESTING_LIMIT - b.depth := hbud _ hmem
          have hlv := ihv _ _ _ hpv (by
            rw [buffer_skip_whitespace_depth]
            exact hbv)
          have hd2 := ((parse_depth_invariant fuel).1 _ _ _ hlv).2
          rw [hlv]
          simp only []
          rw [if_pos hcomma]
          refine ihal _ _ _ _ h ?_
          intro c hc
          have hcc := hbud c hc
          simp only [buffer_skip_whitespace_depth, hd2]
          exact hcc
        · have hmem : itemv ∈ out := by
            simp only [Option.some.injEq, Prod.mk.injEq] at h
            rw [← h.1]
            simp
          have hbv : containerDepth itemv ≤
              CJSON_NESTING_LIMIT - b.depth := hbud _ hmem
          rw [ihv _ _ _ hpv (by
            rw [buffer_skip_whitespace_depth]
            exact hbv)]
          simp only []
          rw [if_neg hcomma]
          exact h
    · -- parse_object
      intro b0 item b' h hbud
      simp only [parse_object_nolimit] at h
      simp only [parse_object]
      split_ifs at h with hbr hempty hnoacc
      · have hcd : containerDepth item = 1 := by
          simp only [Option.some.injEq, Prod.mk.injEq] at h
          rw [← h.1]
          decide
        rw [if_neg (show ¬(CJSON_NESTING_LIMIT ≤ b0.depth) from by omega)]
        rw [if_neg hbr, if_pos hempty]
        exact h
      · split at h
        · exact absurd h (by simp)
        · rename_i children b3 hloop
          split_ifs at h with hclose
          have hinj := h
          simp only [Option.some.injEq, Prod.mk.injEq] at hinj
          have hcd : containerDepth item = containerDepthList children + 1 := by
            rw [← hinj.1, containerDepth_mk, if_pos (by decide)]
          have hlimloop := ihol _ _ _ _ hloop (by
            intro c hc
            have hmc := containerDepthList_mem children c hc
            simp only [buffer_skip_whitespace_depth]
            omega)
          rw [if_neg (show ¬(CJSON_NESTING_LIMIT ≤ b0.depth) from by omega)]
          rw [if_neg hbr, if_neg hempty, if_neg (not_not_intro hnoacc)]
          rw [hlimloop]
          simp only []
          rw [if_neg hclose]
          exact h
    · -- parse_object_loop
      intro b acc out b' h hbud
      simp only [parse_object_loop_nolimit] at h
      simp only [parse_object_loop]
      split_ifs at h with hacc1
      rw [if_neg (not_not_intro hacc1)]
      split at h
      · exact absurd h (by simp)
      · rename_i keyItem b2 hps
        have hd2 := (parse_string_shape _ _ _ hps).2
        split_ifs at h ⊢ with hcolon
        split at h
        · exact absurd h (by simp)
        · rename_i valItem b5 hpv
          have hitemcd : containerDepth
              (cJSON.mk valItem.type valItem.valuestring valItem.valueint
                valItem.valuedouble keyItem.valuestring valItem.child) =
              containerDepth valItem := by
            obtain ⟨t, vs, vi, vd, key, cs⟩ := valItem
            simp [containerDepth_mk, cJSON.type, cJSON.child]
          split_ifs at h with hcomma
          · obtain ⟨rest, hrest⟩ := (nolimit_loop_extends fuel).2 _ _ _ _ h
            have hmem : cJSON.mk valItem.type valItem.valuestring
                valItem.valueint valItem.valuedouble keyItem.valuestring
                valItem.child ∈ out := by
              rw [hrest]
              simp
            have hbv : containerDepth valItem ≤
                CJSON_NESTING_LIMIT - b.depth := by
              rw [← hitemcd]
              exact hbud _ hmem
            have hlv := ihv _ _ _ hpv (by
              simp only [buffer_skip_whitespace_depth, hd2]
              exact hbv)
            have hd5 := ((parse_depth_invariant fuel).1 _ _ _ hlv).2
            rw [hlv]
            simp only []
            rw [if_pos hcomma]
            refine ihol _ _ _ _ h ?_
            intro c hc
            have hcc := hbud c hc
            simp only [buffer_skip_whitespace_depth, hd5, hd2]
            exact hcc
          · have hmem : cJSON.mk valItem.type valItem.valuestring
                valItem.valueint valItem.valuedouble keyItem.valuestring
                valItem.child ∈ out := by
              simp only [Option.some.injEq, Prod.mk.injEq] at h
              rw [← h.1]
              simp
            have hbv : containerDepth valItem ≤
                CJSON_NESTING_LIMIT - b.depth := by
              rw [← hitemcd]
              exact hbud _ hmem
            rw [ihv _ _ _ hpv (by
              simp only [buffer_skip_whitespace_depth, hd2]
              exact hbv)]
            simp only []
            rw [if_neg hcomma]
            exact h

/-- Entry-level characterization: the real parser succeeds with `item`
exactly when the guard-free specification parser succeeds with `item` and
the container depth of `item` is within `CJSON_NESTING_LIMIT`. -/
theorem parse_entry_nolimit_iff (value : List Nat) (len : Nat) (req : Bool)
    (item : cJSON) :
    cJSON_ParseWithLengthOpts value len req = some item ↔
      (cJSON_ParseWithLengthOpts_nolimit value len req = some item ∧
        containerDepth item ≤ CJSON_NESTING_LIMIT) := by
  constructor
  · intro h
    refine ⟨?_, cJSON_ParseWithLengthOpts_depth_le value len req item h⟩
    rw [cJSON_ParseWithLengthOpts] at h
    simp only [cJSON_ParseWithLengthOpts_nolimit]
    by_cases hlen : len = 0
    · rw [if_pos hlen] at h
      exact absurd h (by simp)
    · rw [if_neg hlen] at h
      rw [if_neg hlen]
      simp only [] at h
      split at h
      · exact absurd h (by simp)
      · rename_i item1 b1 hpv
        rw [(parse_nolimit_forward (4 * len + 16)).1 _ _ hpv]
        simp only []
        exact h
  · rintro ⟨h, hcd⟩
    rw [cJSON_ParseWithLengthOpts_nolimit] at h
    simp only [cJSON_ParseWithLengthOpts]
    by_cases hlen : len = 0
    · rw [if_pos hlen] at h
      exact absurd h (by simp)
    · rw [if_neg hlen] at h
      rw [if_neg hlen]
      simp only [] at h
      split at h
      · exact absurd h (by simp)
      · rename_i item1 b1 hpv
        have hdep : (buffer_skip_whitespace (skip_utf8_bom
            { content := value, length := len, offset := 0, depth := 0 })).depth
            = 0 := by
          rw [buffer_skip_whitespace_depth]
          rw [skip_utf8_bom]
          split <;> rfl
        split_ifs at h with hreq hterm
        · have hitem : item1 = item := Option.some.inj h
          have hlim := (parse_nolimit_backward (4 * len + 16)).1 _ _ _ hpv (by
            rw [hdep, hitem]
            omega)
          rw [hlim]
          simp only []
          rw [if_pos hreq, if_neg hterm]
          exact h
        · have hitem : item1 = item := Option.some.inj h
          have hlim := (parse_nolimit_backward (4 * len + 16)).1 _ _ _ hpv (by
            rw [hdep, hitem]
            omega)
          rw [hlim]
          simp only []
          rw [if_neg hreq]
          exact h

/-- C6: parsing enforces the compile-time nesting limit. The real parser
succeeds with `item` exactly when the guard-free specification parser
(identical code with the two depth guards removed, defining "otherwise
valid") succeeds with `item` and the container nesting depth of `item` is
at most `CJSON_NESTING_LIMIT`: so every successful parse stays within the
limit, every otherwise-valid input whose depth exceeds the limit is
rejected (in particular every input beginning with
`CJSON_NESTING_LIMIT + 1` opening brackets), and every otherwise-valid
input whose depth is within the limit — including the canonical input at
exactly the limit — parses successfully. -/
theorem c6_nesting_depth_limit :
    (∀ value len req item,
        cJSON_ParseWithLengthOpts value len req = some item →
        containerDepth item ≤ CJSON_NESTING_LIMIT) ∧
    (∀ value len req item,
        cJSON_ParseWithLengthOpts value len req = some item ↔
          (cJSON_ParseWithLengthOpts_nolimit value len req = some item ∧
            containerDepth item ≤ CJSON_NESTING_LIMIT)) ∧
    (∀ value len req item,
        cJSON_ParseWithLengthOpts_nolimit value len req = some item →
        CJSON_NESTING_LIMIT < containerDepth item →
        cJSON_ParseWithLengthOpts value len req = none) ∧
    (∀ tail, cJSON_Parse
        (List.replicate (CJSON_NESTING_LIMIT + 1) 91 ++ tail) = none) ∧
    (cJSON_Parse (List.replicate CJSON_NESTING_LIMIT 91 ++
        List.replicate CJSON_NESTING_LIMIT 93) =
      some (nestTree (CJSON_NESTING_LIMIT - 1)) ∧
      containerDepth (nestTree (CJSON_NESTING_LIMIT - 1)) =
        CJSON_NESTING_LIMIT) := by
  refine ⟨cJSON_ParseWithLengthOpts_depth_le, parse_entry_nolimit_iff, ?_,
    deep_input_parse_none, at_limit_parse, ?_⟩
  · intro value len req item h hcd
    cases hl : cJSON_ParseWithLengthOpts value len req with
    | none => rfl
    | some item2 =>
      have h2 := (parse_entry_nolimit_iff value len req item2).mp hl
      rw [h] at h2
      have he := Option.some.inj h2.1
      have hle := h2.2
      rw [← he] at hle
      omega
  · rw [containerDepth_nestTree]
    decide

/-- Witness for C6: the two-byte array `[]` (with its nul) is accepted by
the guard-free parser with depth within the limit, so by the equivalence
the real parser accepts it too. -/
theorem c6_nesting_depth_limit_witness :
    cJSON_ParseWithLengthOpts [91, 93, 0] 3 false =
      some (cJSON.mk cJSON_Array none 0 (FDouble.finite 0) none []) :=
  (c6_nesting_depth_limit.2.1 [91, 93, 0] 3 false
      (cJSON.mk cJSON_Array none 0 (FDouble.finite 0) none [])).mpr
    ⟨rfl, by decide⟩

/-- The next-link check is the adjacent-pair chain plus a NULL tail link. -/
theorem nextLinksB_iff (s : SList) : ∀ xs, nextLinksB s xs = true ↔
    (List.Chain' (fun a b => s.next a = some b) xs ∧
     ∀ a, xs.getLast? = some a → s.next a = none) := by
  intro xs
  induction xs with
  | nil => simp [nextLinksB]
  | cons a t ih =>
    cases t with
    | nil => simp [nextLinksB]
    | cons b t2 =>
      rw [nextLinksB]
      simp only [Bool.and_eq_true, beq_iff_eq, ih, List.chain'_cons,
        List.getLast?_cons_cons]
      tauto

/-- The prev-link check is the adjacent-pair back chain. -/
theorem prevLinksB_iff (s : SList) : ∀ xs, prevLinksB s xs = true ↔
    List.Chain' (fun a b => s.prev b = some a) xs := by
  intro xs
  induction xs with
  | nil => simp [prevLinksB]
  | cons a t ih =>
    cases t with
    | nil => simp [prevLinksB]
    | cons b t2 =>
      rw [prevLinksB]
      simp only [Bool.and_eq_true, beq_iff_eq, ih, List.chain'_cons]

/-- The invariant for an empty children list. -/
theorem representsB_nil_iff (s : SList) :
    representsB s [] = true ↔ s.child = none := by
  simp [representsB]

/-- The invariant for a non-empty children list, in chain form. -/
theorem representsB_cons_iff (s : SList) (h : Nat) (t : List Nat) :
    representsB s (h :: t) = true ↔
      s.child = some h ∧
      (∀ a, (h :: t).getLast? = some a → s.prev h = some a) ∧
      List.Chain' (fun a b => s.next a = some b) (h :: t) ∧
      (∀ a, (h :: t).getLast? = some a → s.next a = none) ∧
      List.Chain' (fun a b => s.prev b = some a) (h :: t) := by
  have hgl := List.getLast?_eq_getLast (h :: t) (by simp)
  rw [representsB]
  simp only [Bool.and_eq_true, beq_iff_eq, nextLinksB_iff, prevLinksB_iff]
  constructor
  · rintro ⟨⟨⟨hc, hp⟩, hnx, hlast⟩, hpv⟩
    refine ⟨hc, ?_, hnx, hlast, hpv⟩
    intro a ha
    rw [hgl] at ha
    injection ha with ha2
    rw [← ha2]
    exact hp
  · rintro ⟨hc, hp, hnx, hlast, hpv⟩
    exact ⟨⟨⟨hc, hp _ hgl⟩, hnx, hlast⟩, hpv⟩

/-- Updating the next link of a node whose next is NULL cannot break a forward chain. -/
theorem chain'_next_updLink (f : Nat → Option Nat) (k : Nat) (v : Option Nat)
    (xs : List Nat) (hk : f k = none)
    (h : List.Chain' (fun a b => f a = some b) xs) :
    List.Chain' (fun a b => updLink f k v a = some b) xs := by
  refine List.Chain'.imp ?_ h
  intro a b hab
  unfold updLink
  by_cases hak : a = k
  · subst hak
    rw [hab] at hk
    cases hk
  · rw [if_neg hak]
    exact hab

/-- A forward chain only reads the next links of the non-last elements. -/
theorem chain'_next_congr (f g : Nat → Option Nat) : ∀ xs,
    (∀ x ∈ xs.dropLast, g x = f x) →
    List.Chain' (fun a b => f a = some b) xs →
    List.Chain' (fun a b => g a = some b) xs := by
  intro xs
  induction xs with
  | nil => intro _ _; exact List.chain'_nil
  | cons a t ih =>
    cases t with
    | nil => intro _ _; simp
    | cons b t2 =>
      intro hmem hch
      rw [List.chain'_cons] at hch ⊢
      refine ⟨?_, ih ?_ hch.2⟩
      · rw [hmem a (by simp [List.dropLast])]
        exact hch.1
      · intro x hx
        exact hmem x (by simp [List.dropLast, hx])

/-- A back chain only reads the prev links of the non-head elements. -/
theorem chain'_prev_congr (f g : Nat → Option Nat) : ∀ xs,
    (∀ x ∈ xs.tail, g x = f x) →
    List.Chain' (fun a b => f b = some a) xs →
    List.Chain' (fun a b => g b = some a) xs := by
  intro xs
  induction xs with
  | nil => intro _ _; exact List.chain'_nil
  | cons a t ih =>
    cases t with
    | nil => intro _ _; simp
    | cons b t2 =>
      intro hmem hch
      rw [List.chain'_cons] at hch ⊢
      refine ⟨?_, ih ?_ hch.2⟩
      · rw [hmem b (by simp)]
        exact hch.1
      · intro x hx
        refine hmem x ?_
        simp only [List.tail] at hx ⊢
        exact List.mem_cons_of_mem _ hx

/-- `add_item_to_array` returns true and appends the item to the represented sequence, provided the fresh item's next link is NULL as for a newly created node. -/
theorem add_item_preserves (s : SList) (xs : List Nat) (item : Nat)
    (hrep : representsB s xs = true) (hnd : xs.Nodup) (hni : item ∉ xs)
    (hn : s.next item = none) :
    (add_item_to_array s item).1 = true ∧
      representsB (add_item_to_array s item).2 (xs ++ [item]) = true := by
  cases xs with
  | nil =>
    rw [representsB_nil_iff] at hrep
    rw [add_item_to_array, hrep]
    refine ⟨rfl, ?_⟩
    rw [List.nil_append, representsB_cons_iff]
    refine ⟨rfl, ?_, List.chain'_singleton _, ?_, List.chain'_singleton _⟩
    · intro a ha
      simp only [List.getLast?_singleton, Option.some.injEq] at ha
      subst ha
      simp [updLink]
    · intro a ha
      simp only [List.getLast?_singleton, Option.some.injEq] at ha
      subst ha
      simp [updLink]
  | cons h t =>
    rw [representsB_cons_iff] at hrep
    obtain ⟨hch, hph, hcn, hln, hcp⟩ := hrep
    have hgl := List.getLast?_eq_getLast (h :: t) (by simp)
    have hlastmem : (h :: t).getLast (by simp) ∈ h :: t :=
      List.getLast_mem _
    have hnlast : s.next ((h :: t).getLast (by simp)) = none := hln _ hgl
    rw [add_item_to_array, hch]
    simp only []
    rw [hph _ hgl]
    simp only []
    refine ⟨trivial, ?_⟩
    rw [List.cons_append, representsB_cons_iff]
    have hitem_ne_last : item ≠ (h :: t).getLast (by simp) := by
      intro he
      exact hni (he ▸ hlastmem)
    have hitem_ne_h : item ≠ h := by
      intro he
      exact hni (he ▸ List.mem_cons_self h t)
    refine ⟨rfl, ?_, ?_, ?_, ?_⟩
    · -- head's prev points to the new tail
      intro a ha
      rw [show h :: (t ++ [item]) = (h :: t) ++ [item] from rfl,
        List.getLast?_concat] at ha
      injection ha with ha2
      subst ha2
      simp [updLink]
    · -- next chain over the extended list
      rw [show h :: (t ++ [item]) = (h :: t) ++ [item] from rfl]
      rw [List.chain'_append]
      refine ⟨?_, List.chain'_singleton _, ?_⟩
      · exact chain'_next_updLink _ _ _ _ hnlast hcn
      · intro x hx y hy
        simp only [Option.mem_def, List.head?_cons, Option.some.injEq] at hx hy
        rw [hgl] at hx
        injection hx with hx2
        subst hx2
        subst hy
        simp [updLink]
    · -- new tail's next is NULL
      intro a ha
      rw [show h :: (t ++ [item]) = (h :: t) ++ [item] from rfl,
        List.getLast?_concat] at ha
      injection ha with ha2
      subst ha2
      simp only [updLink]
      rw [if_neg hitem_ne_last]
      exact hn
    · -- prev chain over the extended list
      rw [show h :: (t ++ [item]) = (h :: t) ++ [item] from rfl]
      rw [List.chain'_append]
      refine ⟨?_, List.chain'_singleton _, ?_⟩
      · refine chain'_prev_congr _ _ _ ?_ hcp
        intro x hx
        simp only [List.tail] at hx
        have hxh : x ≠ h := fun he => (List.nodup_cons.1 hnd).1 (he ▸ hx)
        have hxi : x ≠ item := fun he =>
          hni (he ▸ List.mem_cons_of_mem _ hx)
        simp only [updLink]
        rw [if_neg hxh, if_neg hxi]
      · intro x hx y hy
        simp only [Option.mem_def, List.head?_cons, Option.some.injEq] at hx hy
        rw [hgl] at hx
        injection hx with hx2
        subst hx2
        subst hy
        simp [updLink, hitem_ne_h]

/-- In a duplicate-free list the last element does not occur earlier. -/
theorem getLast_not_mem_dropLast (l : List Nat) (h : l ≠ [])
    (hnd : l.Nodup) : l.getLast h ∉ l.dropLast := by
  intro hmem
  have he := List.dropLast_concat_getLast h
  rw [← he] at hnd
  rw [List.nodup_append] at hnd
  exact hnd.2.2 hmem (by simp)

/-- `cJSON_DetachItemViaPointer` succeeds on any member of a represented sibling list and the remaining links represent the sequence with the item removed. -/
theorem detach_preserves (s : SList) (l1 l2 : List Nat) (item : Nat)
    (hrep : representsB s (l1 ++ item :: l2) = true)
    (hnd : (l1 ++ item :: l2).Nodup) :
    ∃ s', cJSON_DetachItemViaPointer s item = some s' ∧
      representsB s' (l1 ++ l2) = true := by
  have hnd' := hnd
  rw [List.nodup_append] at hnd'
  obtain ⟨hnd1, hndc, hdisj⟩ := hnd'
  rw [List.nodup_cons] at hndc
  obtain ⟨hil2, hnd2⟩ := hndc
  have hil1 : item ∉ l1 := fun hm => hdisj hm (List.mem_cons_self _ _)
  cases l1 with
  | nil =>
    rw [List.nil_append] at hrep
    rw [representsB_cons_iff] at hrep
    obtain ⟨hch, hph, hcn, hln, hcp⟩ := hrep
    cases l2 with
    | nil =>
      have hnx : s.next item = none := hln _ (by simp)
      have hdet : cJSON_DetachItemViaPointer s item = some
          { child := none, prev := updLink s.prev item none,
            next := updLink s.next item none } := by
        rw [cJSON_DetachItemViaPointer]
        rw [if_neg (show ¬(s.child ≠ some item ∧ s.prev item = none) from
          by simp [hch])]
        simp only []
        rw [if_neg (show ¬(s.child ≠ some item) from by simp [hch]), hnx]
        rw [if_pos hch]
      refine ⟨_, hdet, ?_⟩
      simp [representsB_nil_iff]
    | cons h2 t2 =>
      have hnx : s.next item = some h2 := (List.chain'_cons.1 hcn).1
      have hpi : s.prev item = some ((item :: h2 :: t2).getLast (by simp)) :=
        hph _ (List.getLast?_eq_getLast _ (by simp))
      have hh2i : h2 ≠ item := fun he => hil2 (he ▸ List.mem_cons_self _ _)
      have hdet : cJSON_DetachItemViaPointer s item = some
          { child := some h2,
            prev := updLink (updLink s.prev h2 (s.prev item)) item none,
            next := updLink s.next item none } := by
        rw [cJSON_DetachItemViaPointer]
        rw [if_neg (show ¬(s.child ≠ some item ∧ s.prev item = none) from
          by simp [hch])]
        simp only []
        rw [if_neg (show ¬(s.child ≠ some item) from by simp [hch]), hnx]
        rw [if_pos hch]
      refine ⟨_, hdet, ?_⟩
      simp only [List.nil_append]
      rw [representsB_cons_iff]
      refine ⟨rfl, ?_, ?_, ?_, ?_⟩
      · intro a ha
        have ha' : (item :: h2 :: t2).getLast? = some a := by
          rw [List.getLast?_cons_cons]
          exact ha
        simp only [updLink]
        rw [if_neg hh2i, if_pos trivial]
        rw [hpi]
        have hq := List.getLast?_eq_getLast (item :: h2 :: t2) (by simp)
        rw [hq] at ha'
        injection ha' with ha2
      · refine chain'_next_congr s.next _ _ ?_ (List.chain'_cons.1 hcn).2
        intro x hx
        have hxi : x ≠ item := fun he => by
          subst he
          exact hil2 (List.dropLast_subset _ hx)
        simp only [updLink]
        rw [if_neg hxi]
      · intro a ha
        have hai : a ≠ item := by
          intro he
          subst he
          exact hil2 (List.mem_of_mem_getLast? ha)
        simp only [updLink]
        rw [if_neg hai]
        exact hln a (by rw [List.getLast?_cons_cons]; exact ha)
      · refine chain'_prev_congr s.prev _ _ ?_ (List.chain'_cons.1 hcp).2
        intro x hx
        simp only [List.tail] at hx
        have hxi : x ≠ item := fun he => by
          subst he
          exact hil2 (List.mem_cons_of_mem _ hx)
        have hxh2 : x ≠ h2 := fun he => by
          subst he
          exact (List.nodup_cons.1 hnd2).1 hx
        simp only [updLink]
        rw [if_neg hxi, if_neg hxh2]
  | cons h1 t1 =>
    rw [List.cons_append] at hrep
    rw [representsB_cons_iff] at hrep
    obtain ⟨hch, hph, hcn, hln, hcp⟩ := hrep
    have hcn' : List.Chain' (fun a b => s.next a = some b)
        ((h1 :: t1) ++ (item :: l2)) := hcn
    have hcp' : List.Chain' (fun a b => s.prev b = some a)
        ((h1 :: t1) ++ (item :: l2)) := hcp
    rw [List.chain'_append] at hcn' hcp'
    obtain ⟨hcnl1, hcnl2, hcnlink⟩ := hcn'
    obtain ⟨hcpl1, hcpl2, hcplink⟩ := hcp'
    have hgl1 := List.getLast?_eq_getLast (h1 :: t1) (by simp)
    have hp : s.prev item = some ((h1 :: t1).getLast (by simp)) := by
      refine hcplink _ ?_ item ?_
      · simp only [Option.mem_def]
        exact hgl1
      · simp only [List.head?_cons, Option.mem_def]
    have hh1i : h1 ≠ item := fun he => hil1 (he ▸ List.mem_cons_self _ _)
    have hpmem : (h1 :: t1).getLast (by simp) ∈ h1 :: t1 := List.getLast_mem _
    have hpni : (h1 :: t1).getLast (by simp) ≠ item := fun he =>
      hil1 (he ▸ hpmem)
    have hpnd : (h1 :: t1).getLast (by simp) ∉ (h1 :: t1).dropLast :=
      getLast_not_mem_dropLast _ (by simp) hnd1
    have hguard : ¬(s.child ≠ some item ∧ s.prev item = none) := by
      intro hc
      rw [hp] at hc
      exact absurd hc.2 (by simp)
    have hchne : s.child ≠ some item := by
      rw [hch]
      simp [hh1i]
    cases l2 with
    | nil =>
      have hnxi : s.next item = none := by
        refine hln _ ?_
        rw [show h1 :: (t1 ++ [item]) = (h1 :: t1) ++ [item] from rfl]
        exact List.getLast?_concat _
      have hdet : cJSON_DetachItemViaPointer s item = some
          { child := some h1,
            prev := updLink (updLink s.prev h1
              (some ((h1 :: t1).getLast (by simp)))) item none,
            next := updLink (updLink s.next
              ((h1 :: t1).getLast (by simp)) none) item none } := by
        rw [cJSON_DetachItemViaPointer]
        rw [if_neg hguard]
        simp only []
        rw [if_pos hchne, hp]
        simp only []
        rw [hnxi]
        simp only []
        rw [if_neg (show ¬(s.child = some item) from hchne)]
        rw [hch]
        simp
      refine ⟨_, hdet, ?_⟩
      rw [List.append_nil, representsB_cons_iff]
      refine ⟨rfl, ?_, ?_, ?_, ?_⟩
      · intro a ha
        simp only [updLink]
        rw [if_neg hh1i, if_pos trivial]
        rw [hgl1] at ha
        injection ha with ha2
        rw [ha2]
      · refine chain'_next_congr s.next _ _ ?_ hcnl1
        intro x hx
        have hxi : x ≠ item := fun he =>
          hil1 (he ▸ List.dropLast_subset _ hx)
        have hxp : x ≠ (h1 :: t1).getLast (by simp) := fun he =>
          hpnd (he ▸ hx)
        simp only [updLink]
        rw [if_neg hxi, if_neg hxp]
      · intro a ha
        rw [hgl1] at ha
        injection ha with ha2
        subst ha2
        simp only [updLink]
        rw [if_neg hpni, if_pos trivial]
      · refine chain'_prev_congr s.prev _ _ ?_ hcpl1
        intro x hx
        simp only [List.tail] at hx
        have hxi : x ≠ item := fun he =>
          hil1 (he ▸ List.mem_cons_of_mem _ hx)
        have hxh1 : x ≠ h1 := fun he =>
          (List.nodup_cons.1 hnd1).1 (he ▸ hx)
        simp only [updLink]
        rw [if_neg hxi, if_neg hxh1]
    | cons h2 t2 =>
      have hnxi : s.next item = some h2 := (List.chain'_cons.1 hcnl2).1
      have hh2il1 : h2 ∉ h1 :: t1 := fun hm =>
        hdisj hm (List.mem_cons_of_mem _ (List.mem_cons_self _ _))
      have hh2i : h2 ≠ item := fun he => hil2 (he ▸ List.mem_cons_self _ _)
      have hdet : cJSON_DetachItemViaPointer s item = some
          { child := some h1,
            prev := updLink (updLink s.prev h2
              (some ((h1 :: t1).getLast (by simp)))) item none,
            next := updLink (updLink s.next
              ((h1 :: t1).getLast (by simp)) (some h2)) item none } := by
        rw [cJSON_DetachItemViaPointer]
        rw [if_neg hguard]
        simp only []
        rw [if_pos hchne, hp]
        simp only []
        rw [hnxi]
        simp only []
        rw [if_neg (show ¬(s.child = some item) from hchne)]
        rw [if_neg (show ¬((some h2 : Option Nat) = none) from by simp)]
        rw [hch]
      refine ⟨_, hdet, ?_⟩
      rw [List.cons_append, representsB_cons_iff]
      have hglnew : ∀ a, (h1 :: (t1 ++ h2 :: t2)).getLast? = some a →
          (h1 :: (t1 ++ item :: h2 :: t2)).getLast? = some a := by
        intro a ha
        rw [show h1 :: (t1 ++ h2 :: t2) = (h1 :: t1) ++ (h2 :: t2) from rfl,
          List.getLast?_append_of_ne_nil _ (by simp)] at ha
        rw [show h1 :: (t1 ++ item :: h2 :: t2) =
          (h1 :: t1) ++ (item :: h2 :: t2) from rfl,
          List.getLast?_append_of_ne_nil _ (by simp),
          List.getLast?_cons_cons]
        exact ha
      refine ⟨rfl, ?_, ?_, ?_, ?_⟩
      · intro a ha
        have hprev := hph a (hglnew a ha)
        have hane : a ∈ h2 :: t2 := by
          rw [show h1 :: (t1 ++ h2 :: t2) = (h1 :: t1) ++ (h2 :: t2) from rfl,
            List.getLast?_append_of_ne_nil _ (by simp)] at ha
          exact List.mem_of_mem_getLast? ha
        simp only [updLink]
        rw [if_neg hh1i, if_neg (show h1 ≠ h2 from fun he =>
          hh2il1 (he ▸ List.mem_cons_self _ _))]
        exact hprev
      · rw [show h1 :: (t1 ++ h2 :: t2) = (h1 :: t1) ++ (h2 :: t2) from rfl,
          List.chain'_append]
        refine ⟨?_, ?_, ?_⟩
        · refine chain'_next_congr s.next _ _ ?_ hcnl1
          intro x hx
          have hxi : x ≠ item := fun he =>
            hil1 (he ▸ List.dropLast_subset _ hx)
          have hxp : x ≠ (h1 :: t1).getLast (by simp) := fun he =>
            hpnd (he ▸ hx)
          simp only [updLink]
          rw [if_neg hxi, if_neg hxp]
        · refine chain'_next_congr s.next _ _ ?_ (List.chain'_cons.1 hcnl2).2
          intro x hx
          have hxl2 : x ∈ h2 :: t2 := List.dropLast_subset _ hx
          have hxi : x ≠ item := fun he => hil2 (he ▸ hxl2)
          have hxp : x ≠ (h1 :: t1).getLast (by simp) := fun he =>
            hdisj (he ▸ hpmem) (List.mem_cons_of_mem _ hxl2)
          simp only [updLink]
          rw [if_neg hxi, if_neg hxp]
        · intro x hx y hy
          simp only [Option.mem_def, List.head?_cons, Option.some.injEq]
            at hx hy
          rw [hgl1] at hx
          injection hx with hx2
          subst hx2
          subst hy
          simp only [updLink]
          rw [if_neg hpni, if_pos trivial]
      · intro a ha
        have hane : a ∈ h2 :: t2 := by
          rw [show h1 :: (t1 ++ h2 :: t2) = (h1 :: t1) ++ (h2 :: t2) from rfl,
            List.getLast?_append_of_ne_nil _ (by simp)] at ha
          exact List.mem_of_mem_getLast? ha
        have hai : a ≠ item := fun he => hil2 (he ▸ hane)
        have hap : a ≠ (h1 :: t1).getLast (by simp) := fun he =>
          hdisj (he ▸ hpmem) (List.mem_cons_of_mem _ hane)
        simp only [updLink]
        rw [if_neg hai, if_neg hap]
        exact hln a (hglnew a ha)
      · rw [show h1 :: (t1 ++ h2 :: t2) = (h1 :: t1) ++ (h2 :: t2) from rfl,
          List.chain'_append]
        refine ⟨?_, ?_, ?_⟩
        · refine chain'_prev_congr s.prev _ _ ?_ hcpl1
          intro x hx
          simp only [List.tail] at hx
          have hxi : x ≠ item := fun he =>
            hil1 (he ▸ List.mem_cons_of_mem _ hx)
          have hxh2 : x ≠ h2 := fun he =>
            hh2il1 (he ▸ List.mem_cons_of_mem _ hx)
          simp only [updLink]
          rw [if_neg hxi, if_neg hxh2]
        · refine chain'_prev_congr s.prev _ _ ?_ (List.chain'_cons.1 hcpl2).2
          intro x hx
          simp only [List.tail] at hx
          have hxi : x ≠ item := fun he =>
            hil2 (he ▸ List.mem_cons_of_mem _ hx)
          have hxh2 : x ≠ h2 := fun he =>
            (List.nodup_cons.1 hnd2).1 (he ▸ hx)
          simp only [updLink]
          rw [if_neg hxi, if_neg hxh2]
        · intro x hx y hy
          simp only [Option.mem_def, List.head?_cons, Option.some.injEq]
            at hx hy
          rw [hgl1] at hx
          injection hx with hx2
          subst hx2
          subst hy
          simp only [updLink]
          rw [if_neg hh2i, if_pos trivial]

/-- `cJSON_ReplaceItemViaPointer` returns true and the links represent the sequence with the item replaced, for a replacement not already in the list. -/
theorem replace_preserves (s : SList) (l1 l2 : List Nat) (item repl : Nat)
    (hrep : representsB s (l1 ++ item :: l2) = true)
    (hnd : (l1 ++ item :: l2).Nodup) (hrn : repl ∉ l1 ++ item :: l2) :
    (cJSON_ReplaceItemViaPointer s item repl).1 = true ∧
      representsB (cJSON_ReplaceItemViaPointer s item repl).2
        (l1 ++ repl :: l2) = true := by
  have hnd' := hnd
  rw [List.nodup_append] at hnd'
  obtain ⟨hnd1, hndc, hdisj⟩ := hnd'
  rw [List.nodup_cons] at hndc
  obtain ⟨hil2, hnd2⟩ := hndc
  have hil1 : item ∉ l1 := fun hm => hdisj hm (List.mem_cons_self _ _)
  have hri : repl ≠ item := fun he =>
    hrn (he ▸ List.mem_append_right _ (List.mem_cons_self _ _))
  have hrl1 : repl ∉ l1 := fun hm => hrn (List.mem_append_left _ hm)
  have hrl2 : repl ∉ l2 := fun hm =>
    hrn (List.mem_append_right _ (List.mem_cons_of_mem _ hm))
  cases l1 with
  | nil =>
    rw [List.nil_append] at hrep
    rw [representsB_cons_iff] at hrep
    obtain ⟨hch, hph, hcn, hln, hcp⟩ := hrep
    cases l2 with
    | nil =>
      have hnxi : s.next item = none := hln _ (by simp)
      have hpi : s.prev item = some item := by
        have := hph item (by simp)
        exact this
      have heq : cJSON_ReplaceItemViaPointer s item repl = (true,
          { child := some repl,
            prev := updLink (updLink (updLink s.prev repl (some item))
              repl (some repl)) item none,
            next := updLink (updLink s.next repl none) item none }) := by
        rw [cJSON_ReplaceItemViaPointer]
        rw [if_neg (show ¬(s.child = none) from by rw [hch]; simp)]
        rw [if_neg hri]
        simp only []
        rw [show updLink s.next repl (s.next item) repl = s.next item from
          by simp [updLink]]
        rw [hnxi]
        simp only []
        rw [if_pos hch]
        rw [show updLink s.prev repl (s.prev item) item =
          s.prev item from by simp [updLink, hri]]
        rw [hpi]
        rw [if_pos (show (some item : Option Nat) = some item from rfl)]
      rw [heq]
      refine ⟨rfl, ?_⟩
      simp only [List.nil_append]
      rw [representsB_cons_iff]
      refine ⟨rfl, ?_, List.chain'_singleton _, ?_, List.chain'_singleton _⟩
      · intro a ha
        simp only [List.getLast?_singleton, Option.some.injEq] at ha
        subst ha
        simp [updLink, hri]
      · intro a ha
        simp only [List.getLast?_singleton, Option.some.injEq] at ha
        subst ha
        simp [updLink, hri]
    | cons h2 t2 =>
      have hnxi : s.next item = some h2 := (List.chain'_cons.1 hcn).1
      have hgl := List.getLast?_eq_getLast (item :: h2 :: t2) (by simp)
      have hpi : s.prev item =
          some ((item :: h2 :: t2).getLast (by simp)) := hph _ hgl
      have hLmem : (item :: h2 :: t2).getLast (by simp) ∈ item :: h2 :: t2 :=
        List.getLast_mem _
      have hLne : (item :: h2 :: t2).getLast (by simp) ≠ item := by
        intro he
        have hg2 : (item :: h2 :: t2).getLast (by simp) ∈ h2 :: t2 := by
          have := List.getLast?_cons_cons (l := t2) (a := item) (b := h2)
          rw [this] at hgl
          exact List.mem_of_mem_getLast? hgl
        exact hil2 (he ▸ hg2)
      have hh2r : h2 ≠ repl := fun he =>
        hrl2 (he ▸ List.mem_cons_self _ _)
      have hh2i : h2 ≠ item := fun he => hil2 (he ▸ List.mem_cons_self _ _)
      have heq : cJSON_ReplaceItemViaPointer s item repl = (true,
          { child := some repl,
            prev := updLink (updLink (updLink s.prev repl
              (some ((item :: h2 :: t2).getLast (by simp))))
              h2 (some repl)) item none,
            next := updLink (updLink s.next repl (some h2)) item none }) := by
        rw [cJSON_ReplaceItemViaPointer]
        rw [if_neg (show ¬(s.child = none) from by rw [hch]; simp)]
        rw [if_neg hri]
        simp only []
        rw [show updLink s.next repl (s.next item) repl = s.next item from
          by simp [updLink]]
        rw [hnxi]
        simp only []
        rw [if_pos hch]
        rw [show updLink (updLink s.prev repl (s.prev item)) h2 (some repl)
            item = s.prev item from by simp [updLink, hri, hh2i.symm]]
        rw [hpi]
        rw [if_neg (show ¬((some ((item :: h2 :: t2).getLast (by simp)) :
          Option Nat) = some item) from by
          simp only [Option.some.injEq]
          exact hLne)]
      rw [heq]
      refine ⟨rfl, ?_⟩
      simp only [List.nil_append]
      rw [representsB_cons_iff]
      have hlast_eq : ∀ a, (repl :: h2 :: t2).getLast? = some a →
          (item :: h2 :: t2).getLast? = some a := by
        intro a ha
        rw [List.getLast?_cons_cons] at ha ⊢
        exact ha
      refine ⟨rfl, ?_, ?_, ?_, ?_⟩
      · intro a ha
        simp only [updLink]
        rw [if_neg hri, if_neg (Ne.symm hh2r), if_pos trivial]
        have ha' := hlast_eq a ha
        rw [hgl] at ha'
        injection ha' with ha2
      · rw [show repl :: h2 :: t2 = [repl] ++ (h2 :: t2) from rfl,
          List.chain'_append]
        refine ⟨List.chain'_singleton _, ?_, ?_⟩
        · refine chain'_next_congr s.next _ _ ?_ (List.chain'_cons.1 hcn).2
          intro x hx
          have hxl2 : x ∈ h2 :: t2 := List.dropLast_subset _ hx
          have hxi : x ≠ item := fun he => hil2 (he ▸ hxl2)
          have hxr : x ≠ repl := fun he => hrl2 (he ▸ hxl2)
          simp only [updLink]
          rw [if_neg hxi, if_neg hxr]
        · intro x hx y hy
          simp only [Option.mem_def, List.getLast?_singleton,
            List.head?_cons, Option.some.injEq] at hx hy
          subst hx
          subst hy
          simp only [updLink]
          rw [if_neg hri, if_pos trivial]
      · intro a ha
        rw [List.getLast?_cons_cons] at ha
        have hal2 : a ∈ h2 :: t2 := List.mem_of_mem_getLast? ha
        have hai : a ≠ item := fun he => hil2 (he ▸ hal2)
        have har : a ≠ repl := fun he => hrl2 (he ▸ hal2)
        simp only [updLink]
        rw [if_neg hai, if_neg har]
        exact hln a (by rw [List.getLast?_cons_cons]; exact ha)
      · rw [show repl :: h2 :: t2 = [repl] ++ (h2 :: t2) from rfl,
          List.chain'_append]
        refine ⟨List.chain'_singleton _, ?_, ?_⟩
        · refine chain'_prev_congr s.prev _ _ ?_ (List.chain'_cons.1 hcp).2
          intro x hx
          simp only [List.tail] at hx
          have hxi : x ≠ item := fun he =>
            hil2 (he ▸ List.mem_cons_of_mem _ hx)
          have hxr : x ≠ repl := fun he =>
            hrl2 (he ▸ List.mem_cons_of_mem _ hx)
          have hxh2 : x ≠ h2 := fun he =>
            (List.nodup_cons.1 hnd2).1 (he ▸ hx)
          simp only [updLink]
          rw [if_neg hxi, if_neg hxh2, if_neg hxr]
        · intro x hx y hy
          simp only [Option.mem_def, List.getLast?_singleton,
            List.head?_cons, Option.some.injEq] at hx hy
          subst hx
          subst hy
          simp only [updLink]
          rw [if_neg hh2i, if_pos trivial]
  | cons h1 t1 =>
    rw [List.cons_append] at hrep
    rw [representsB_cons_iff] at hrep
    obtain ⟨hch, hph, hcn, hln, hcp⟩ := hrep
    have hcn' : List.Chain' (fun a b => s.next a = some b)
        ((h1 :: t1) ++ (item :: l2)) := hcn
    have hcp' : List.Chain' (fun a b => s.prev b = some a)
        ((h1 :: t1) ++ (item :: l2)) := hcp
    rw [List.chain'_append] at hcn' hcp'
    obtain ⟨hcnl1, hcnl2, hcnlink⟩ := hcn'
    obtain ⟨hcpl1, hcpl2, hcplink⟩ := hcp'
    have hgl1 := List.getLast?_eq_getLast (h1 :: t1) (by simp)
    have hp : s.prev item = some ((h1 :: t1).getLast (by simp)) := by
      refine hcplink _ ?_ item ?_
      · simp only [Option.mem_def]
        exact hgl1
      · simp only [List.head?_cons, Option.mem_def]
    have hh1i : h1 ≠ item := fun he => hil1 (he ▸ List.mem_cons_self _ _)
    have hh1r : h1 ≠ repl := fun he => hrl1 (he ▸ List.mem_cons_self _ _)
    have hpmem : (h1 :: t1).getLast (by simp) ∈ h1 :: t1 := List.getLast_mem _
    have hpni : (h1 :: t1).getLast (by simp) ≠ item := fun he =>
      hil1 (he ▸ hpmem)
    have hpnr : (h1 :: t1).getLast (by simp) ≠ repl := fun he =>
      hrl1 (he ▸ hpmem)
    have hpnd : (h1 :: t1).getLast (by simp) ∉ (h1 :: t1).dropLast :=
      getLast_not_mem_dropLast _ (by simp) hnd1
    have hchne : ¬(s.child = some item) := by
      rw [hch]
      simp [hh1i]
    cases l2 with
    | nil =>
      have hnxi : s.next item = none := by
        refine hln _ ?_
        rw [show h1 :: (t1 ++ [item]) = (h1 :: t1) ++ [item] from rfl]
        exact List.getLast?_concat _
      have heq : cJSON_ReplaceItemViaPointer s item repl = (true,
          { child := some h1,
            prev := updLink (updLink (updLink s.prev repl
              (some ((h1 :: t1).getLast (by simp)))) h1 (some repl))
              item none,
            next := updLink (updLink (updLink s.next repl none)
              ((h1 :: t1).getLast (by simp)) (some repl)) item none }) := by
        rw [cJSON_ReplaceItemViaPointer]
        rw [if_neg (show ¬(s.child = none) from by rw [hch]; simp)]
        rw [if_neg hri]
        simp only []
        rw [hnxi, hp]
        rw [show updLink s.next repl none repl = none from by simp [updLink]]
        simp only []
        rw [if_neg hchne]
        rw [show updLink s.prev repl
          (some ((h1 :: t1).getLast (by simp))) repl =
          some ((h1 :: t1).getLast (by simp)) from by simp [updLink]]
        simp only []
        rw [hch]
      rw [heq]
      refine ⟨rfl, ?_⟩
      rw [List.cons_append, representsB_cons_iff]
      refine ⟨rfl, ?_, ?_, ?_, ?_⟩
      · intro a ha
        rw [show h1 :: (t1 ++ [repl]) = (h1 :: t1) ++ [repl] from rfl,
          List.getLast?_concat] at ha
        injection ha with ha2
        subst ha2
        simp only [updLink]
        rw [if_neg hh1i, if_pos trivial]
      · rw [show h1 :: (t1 ++ [repl]) = (h1 :: t1) ++ [repl] from rfl,
          List.chain'_append]
        refine ⟨?_, List.chain'_singleton _, ?_⟩
        · refine chain'_next_congr s.next _ _ ?_ hcnl1
          intro x hx
          have hxi : x ≠ item := fun he =>
            hil1 (he ▸ List.dropLast_subset _ hx)
          have hxr : x ≠ repl := fun he =>
            hrl1 (he ▸ List.dropLast_subset _ hx)
          have hxp : x ≠ (h1 :: t1).getLast (by simp) := fun he =>
            hpnd (he ▸ hx)
          simp only [updLink]
          rw [if_neg hxi, if_neg hxp, if_neg hxr]
        · intro x hx y hy
          simp only [Option.mem_def, List.head?_cons, Option.some.injEq]
            at hx hy
          rw [hgl1] at hx
          injection hx with hx2
          subst hx2
          subst hy
          simp only [updLink]
          rw [if_neg hpni, if_pos trivial]
      · intro a ha
        rw [show h1 :: (t1 ++ [repl]) = (h1 :: t1) ++ [repl] from rfl,
          List.getLast?_concat] at ha
        injection ha with ha2
        subst ha2
        simp only [updLink]
        rw [if_neg hri, if_neg hpnr.symm, if_pos trivial]
      · rw [show h1 :: (t1 ++ [repl]) = (h1 :: t1) ++ [repl] from rfl,
          List.chain'_append]
        refine ⟨?_, List.chain'_singleton _, ?_⟩
        · refine chain'_prev_congr s.prev _ _ ?_ hcpl1
          intro x hx
          simp only [List.tail] at hx
          have hxi : x ≠ item := fun he =>
            hil1 (he ▸ List.mem_cons_of_mem _ hx)
          have hxr : x ≠ repl := fun he =>
            hrl1 (he ▸ List.mem_cons_of_mem _ hx)
          have hxh1 : x ≠ h1 := fun he =>
            (List.nodup_cons.1 hnd1).1 (he ▸ hx)
          simp only [updLink]
          rw [if_neg hxi, if_neg hxh1, if_neg hxr]
        · intro x hx y hy
          simp only [Option.mem_def, List.head?_cons, Option.some.injEq]
            at hx hy
          rw [hgl1] at hx
          injection hx with hx2
          subst hx2
          subst hy
          simp only [updLink]
          rw [if_neg hri, if_neg hh1r.symm, if_pos trivial]
    | cons h2 t2 =>
      have hnxi : s.next item = some h2 := (List.chain'_cons.1 hcnl2).1
      have hh2il1 : h2 ∉ h1 :: t1 := fun hm =>
        hdisj hm (List.mem_cons_of_mem _ (List.mem_cons_self _ _))
      have hh2i : h2 ≠ item := fun he => hil2 (he ▸ List.mem_cons_self _ _)
      have hh2r : h2 ≠ repl := fun he => hrl2 (he ▸ List.mem_cons_self _ _)
      have heq : cJSON_ReplaceItemViaPointer s item repl = (true,
          { child := some h1,
            prev := updLink (updLink (updLink s.prev repl
              (some ((h1 :: t1).getLast (by simp)))) h2 (some repl))
              item none,
            next := updLink (updLink (updLink s.next repl (some h2))
              ((h1 :: t1).getLast (by simp)) (some repl)) item none }) := by
        rw [cJSON_ReplaceItemViaPointer]
        rw [if_neg (show ¬(s.child = none) from by rw [hch]; simp)]
        rw [if_neg hri]
        simp only []
        rw [hnxi, hp]
        rw [show updLink s.next repl (some h2) repl = some h2 from
          by simp [updLink]]
        simp only []
        rw [if_neg hchne]
        rw [show updLink (updLink s.prev repl
          (some ((h1 :: t1).getLast (by simp)))) h2 (some repl) repl =
          some ((h1 :: t1).getLast (by simp)) from
          by simp [updLink, hh2r.symm]]
        simp only []
        rw [hch]
      rw [heq]
      refine ⟨rfl, ?_⟩
      rw [List.cons_append, representsB_cons_iff]
      have hglnew : ∀ a, (h1 :: (t1 ++ repl :: h2 :: t2)).getLast? = some a →
          (h1 :: (t1 ++ item :: h2 :: t2)).getLast? = some a := by
        intro a ha
        rw [show h1 :: (t1 ++ repl :: h2 :: t2) =
          (h1 :: t1) ++ (repl :: h2 :: t2) from rfl,
          List.getLast?_append_of_ne_nil _ (by simp),
          List.getLast?_cons_cons] at ha
        rw [show h1 :: (t1 ++ item :: h2 :: t2) =
          (h1 :: t1) ++ (item :: h2 :: t2) from rfl,
          List.getLast?_append_of_ne_nil _ (by simp),
          List.getLast?_cons_cons]
        exact ha
      have hamem : ∀ a, (h1 :: (t1 ++ repl :: h2 :: t2)).getLast? = some a →
          a ∈ h2 :: t2 := by
        intro a ha
        rw [show h1 :: (t1 ++ repl :: h2 :: t2) =
          (h1 :: t1) ++ (repl :: h2 :: t2) from rfl,
          List.getLast?_append_of_ne_nil _ (by simp),
          List.getLast?_cons_cons] at ha
        exact List.mem_of_mem_getLast? ha
      refine ⟨rfl, ?_, ?_, ?_, ?_⟩
      · intro a ha
        have hprev := hph a (hglnew a ha)
        simp only [updLink]
        rw [if_neg hh1i, if_neg (show h1 ≠ h2 from fun he =>
          hh2il1 (he ▸ List.mem_cons_self _ _)), if_neg hh1r]
        exact hprev
      · rw [show h1 :: (t1 ++ repl :: h2 :: t2) =
          (h1 :: t1) ++ (repl :: h2 :: t2) from rfl,
          List.chain'_append]
        refine ⟨?_, ?_, ?_⟩
        · refine chain'_next_congr s.next _ _ ?_ hcnl1
          intro x hx
          have hxi : x ≠ item := fun he =>
            hil1 (he ▸ List.dropLast_subset _ hx)
          have hxr : x ≠ repl := fun he =>
            hrl1 (he ▸ List.dropLast_subset _ hx)
          have hxp : x ≠ (h1 :: t1).getLast (by simp) := fun he =>
            hpnd (he ▸ hx)
          simp only [updLink]
          rw [if_neg hxi, if_neg hxp, if_neg hxr]
        · rw [List.chain'_cons]
          constructor
          · simp only [updLink]
            rw [if_neg hri, if_neg hpnr.symm, if_pos trivial]
          · refine chain'_next_congr s.next _ _ ?_
              (List.chain'_cons.1 hcnl2).2
            intro x hx
            have hxl2 : x ∈ h2 :: t2 := List.dropLast_subset _ hx
            have hxi : x ≠ item := fun he => hil2 (he ▸ hxl2)
            have hxr : x ≠ repl := fun he => hrl2 (he ▸ hxl2)
            have hxp : x ≠ (h1 :: t1).getLast (by simp) := fun he =>
              hdisj (he ▸ hpmem) (List.mem_cons_of_mem _ hxl2)
            simp only [updLink]
            rw [if_neg hxi, if_neg hxp, if_neg hxr]
        · intro x hx y hy
          simp only [Option.mem_def, List.head?_cons, Option.some.injEq]
            at hx hy
          rw [hgl1] at hx
          injection hx with hx2
          subst hx2
          subst hy
          simp only [updLink]
          rw [if_neg hpni, if_pos trivial]
      · intro a ha
        have hal2 := hamem a ha
        have hai : a ≠ item := fun he => hil2 (he ▸ hal2)
        have har : a ≠ repl := fun he => hrl2 (he ▸ hal2)
        have hap : a ≠ (h1 :: t1).getLast (by simp) := fun he =>
          hdisj (he ▸ hpmem) (List.mem_cons_of_mem _ hal2)
        simp only [updLink]
        rw [if_neg hai, if_neg hap, if_neg har]
        exact hln a (hglnew a ha)
      · rw [show h1 :: (t1 ++ repl :: h2 :: t2) =
          (h1 :: t1) ++ (repl :: h2 :: t2) from rfl,
          List.chain'_append]
        refine ⟨?_, ?_, ?_⟩
        · refine chain'_prev_congr s.prev _ _ ?_ hcpl1
          intro x hx
          simp only [List.tail] at hx
          have hxi : x ≠ item := fun he =>
            hil1 (he ▸ List.mem_cons_of_mem _ hx)
          have hxr : x ≠ repl := fun he =>
            hrl1 (he ▸ List.mem_cons_of_mem _ hx)
          have hxh2 : x ≠ h2 := fun he =>
            hh2il1 (he ▸ List.mem_cons_of_mem _ hx)
          simp only [updLink]
          rw [if_neg hxi, if_neg hxh2, if_neg hxr]
        · rw [List.chain'_cons]
          constructor
          · simp only [updLink]
            rw [if_neg hh2i, if_pos trivial]
          · refine chain'_prev_congr s.prev _ _ ?_
              (List.chain'_cons.1 hcpl2).2
            intro x hx
            simp only [List.tail] at hx
            have hxi : x ≠ item := fun he =>
              hil2 (he ▸ List.mem_cons_of_mem _ hx)
            have hxr : x ≠ repl := fun he =>
              hrl2 (he ▸ List.mem_cons_of_mem _ hx)
            have hxh2 : x ≠ h2 := fun he =>
              (List.nodup_cons.1 hnd2).1 (he ▸ hx)
            simp only [updLink]
            rw [if_neg hxi, if_neg hxh2, if_neg hxr]
        · intro x hx y hy
          simp only [Option.mem_def, List.head?_cons, Option.some.injEq]
            at hx hy
          rw [hgl1] at hx
          injection hx with hx2
          subst hx2
          subst hy
          simp only [updLink]
          rw [if_neg hri, if_neg hh2r.symm, if_pos trivial]

/-- The next-link walk of `get_array_item` indexes the represented sequence. -/
theorem walk_spec (s : SList) : ∀ ys : List Nat,
    List.Chain' (fun a b => s.next a = some b) ys →
    (∀ a, ys.getLast? = some a → s.next a = none) →
    ∀ i, get_array_item_walk s ys.head? i = ys.get? i := by
  intro ys
  induction ys with
  | nil =>
    intro _ _ i
    cases i <;> rfl
  | cons c t ih =>
    intro hch hlast i
    cases i with
    | zero => rfl
    | succ i =>
      rw [List.head?_cons, get_array_item_walk]
      have hnc : s.next c = t.head? := by
        cases t with
        | nil => simpa using hlast c (by simp)
        | cons b t2 => simpa using (List.chain'_cons.1 hch).1
      rw [hnc]
      rw [ih hch.tail ?_ i]
      · rfl
      · intro a ha
        refine hlast a ?_
        cases t with
        | nil => simp at ha
        | cons b t2 =>
          rw [List.getLast?_cons_cons]
          exact ha

/-- `get_array_item` returns the i-th element of the represented sequence. -/
theorem get_array_item_spec (s : SList) (xs : List Nat)
    (hrep : representsB s xs = true) (i : Nat) :
    get_array_item s i = xs.get? i := by
  rw [get_array_item]
  cases xs with
  | nil =>
    rw [representsB_nil_iff] at hrep
    rw [hrep]
    exact walk_spec s [] List.chain'_nil (by simp) i
  | cons h t =>
    rw [representsB_cons_iff] at hrep
    obtain ⟨hch, _, hcn, hln, _⟩ := hrep
    rw [hch]
    exact walk_spec s (h :: t) hcn hln i

/-- `cJSON_InsertItemInArray` before an existing element splices the new item in front of it and preserves the invariant. -/
theorem insert_before (s : SList) (l1 l2 : List Nat) (a newitem which : Nat)
    (hget : get_array_item s which = some a)
    (hrep : representsB s (l1 ++ a :: l2) = true)
    (hnd : (l1 ++ a :: l2).Nodup) (hni : newitem ∉ l1 ++ a :: l2) :
    (cJSON_InsertItemInArray s which newitem).1 = true ∧
      representsB (cJSON_InsertItemInArray s which newitem).2
        (l1 ++ newitem :: a :: l2) = true := by
  have hnd' := hnd
  rw [List.nodup_append] at hnd'
  obtain ⟨hnd1, hndc, hdisj⟩ := hnd'
  rw [List.nodup_cons] at hndc
  obtain ⟨hal2, hnd2⟩ := hndc
  have hal1 : a ∉ l1 := fun hm => hdisj hm (List.mem_cons_self _ _)
  have hna : newitem ≠ a := fun he =>
    hni (he ▸ List.mem_append_right _ (List.mem_cons_self _ _))
  have hnl1 : newitem ∉ l1 := fun hm => hni (List.mem_append_left _ hm)
  have hnl2 : newitem ∉ l2 := fun hm =>
    hni (List.mem_append_right _ (List.mem_cons_of_mem _ hm))
  cases l1 with
  | nil =>
    rw [List.nil_append] at hrep
    rw [representsB_cons_iff] at hrep
    obtain ⟨hch, hph, hcn, hln, hcp⟩ := hrep
    have hgl := List.getLast?_eq_getLast (a :: l2) (by simp)
    have hpa : s.prev a = some ((a :: l2).getLast (by simp)) := hph _ hgl
    have hLmem : (a :: l2).getLast (by simp) ∈ a :: l2 := List.getLast_mem _
    have hLn : (a :: l2).getLast (by simp) ≠ newitem := fun he =>
      hni (he ▸ (List.nil_append _ ▸ hLmem))
    have heq : cJSON_InsertItemInArray s which newitem = (true,
        { child := some newitem,
          prev := updLink (updLink s.prev newitem
            (some ((a :: l2).getLast (by simp)))) a (some newitem),
          next := updLink s.next newitem (some a) }) := by
      rw [cJSON_InsertItemInArray, hget]
      simp only []
      rw [if_neg (show ¬(s.child ≠ some a ∧ s.prev a = none) from by
        intro hc
        rw [hpa] at hc
        exact absurd hc.2 (by simp))]
      rw [hpa]
      rw [if_pos hch]
    rw [heq]
    refine ⟨rfl, ?_⟩
    simp only [List.nil_append]
    rw [representsB_cons_iff]
    refine ⟨rfl, ?_, ?_, ?_, ?_⟩
    · intro b hb
      rw [show (newitem :: a :: l2).getLast? = (a :: l2).getLast? from
        List.getLast?_cons_cons] at hb
      rw [hgl] at hb
      injection hb with hb2
      subst hb2
      simp only [updLink]
      rw [if_neg hna.symm.symm, if_pos trivial]
    · rw [List.chain'_cons]
      constructor
      · simp [updLink]
      · refine chain'_next_congr s.next _ _ ?_ hcn
        intro x hx
        have hxm : x ∈ a :: l2 := List.dropLast_subset _ hx
        have hxn : x ≠ newitem := fun he => hni (he ▸ hxm)
        simp only [updLink]
        rw [if_neg hxn]
    · intro b hb
      rw [show (newitem :: a :: l2).getLast? = (a :: l2).getLast? from
        List.getLast?_cons_cons] at hb
      have hbm : b ∈ a :: l2 := List.mem_of_mem_getLast? hb
      have hbn : b ≠ newitem := fun he => hni (he ▸ hbm)
      simp only [updLink]
      rw [if_neg hbn]
      exact hln b hb
    · rw [List.chain'_cons]
      constructor
      · simp only [updLink]
        rw [if_neg hna.symm, if_pos trivial]
      · refine chain'_prev_congr s.prev _ _ ?_ hcp
        intro x hx
        simp only [List.tail] at hx
        have hxn : x ≠ newitem := fun he =>
          hni (he ▸ List.mem_cons_of_mem _ hx)
        have hxa : x ≠ a := fun he =>
          (List.nodup_cons.1 (List.nil_append _ ▸ hnd)).1 (he ▸ hx)
        simp only [updLink]
        rw [if_neg hxn, if_neg hxa]
  | cons h1 t1 =>
    rw [List.cons_append] at hrep
    rw [representsB_cons_iff] at hrep
    obtain ⟨hch, hph, hcn, hln, hcp⟩ := hrep
    have hcn' : List.Chain' (fun a b => s.next a = some b)
        ((h1 :: t1) ++ (a :: l2)) := hcn
    have hcp' : List.Chain' (fun a b => s.prev b = some a)
        ((h1 :: t1) ++ (a :: l2)) := hcp
    rw [List.chain'_append] at hcn' hcp'
    obtain ⟨hcnl1, hcnl2, hcnlink⟩ := hcn'
    obtain ⟨hcpl1, hcpl2, hcplink⟩ := hcp'
    have hgl1 := List.getLast?_eq_getLast (h1 :: t1) (by simp)
    have hpa : s.prev a = some ((h1 :: t1).getLast (by simp)) := by
      refine hcplink _ ?_ a ?_
      · simp only [Option.mem_def]
        exact hgl1
      · simp only [List.head?_cons, Option.mem_def]
    have hh1a : h1 ≠ a := fun he => hal1 (he ▸ List.mem_cons_self _ _)
    have hh1n : h1 ≠ newitem := fun he => hnl1 (he ▸ List.mem_cons_self _ _)
    have hpmem : (h1 :: t1).getLast (by simp) ∈ h1 :: t1 := List.getLast_mem _
    have hpna : (h1 :: t1).getLast (by simp) ≠ a := fun he =>
      hal1 (he ▸ hpmem)
    have hpnn : (h1 :: t1).getLast (by simp) ≠ newitem := fun he =>
      hnl1 (he ▸ hpmem)
    have hpnd : (h1 :: t1).getLast (by simp) ∉ (h1 :: t1).dropLast :=
      getLast_not_mem_dropLast _ (by simp) hnd1
    have hchna : ¬(s.child = some a) := by
      rw [hch]
      simp [hh1a]
    have heq : cJSON_InsertItemInArray s which newitem = (true,
        { child := some h1,
          prev := updLink (updLink s.prev newitem
            (some ((h1 :: t1).getLast (by simp)))) a (some newitem),
          next := updLink (updLink s.next newitem (some a))
            ((h1 :: t1).getLast (by simp)) (some newitem) }) := by
      rw [cJSON_InsertItemInArray, hget]
      simp only []
      rw [if_neg (show ¬(s.child ≠ some a ∧ s.prev a = none) from by
        intro hc
        rw [hpa] at hc
        exact absurd hc.2 (by simp))]
      rw [hpa]
      rw [if_neg hchna]
      rw [show updLink (updLink s.prev newitem
        (some ((h1 :: t1).getLast (by simp)))) a (some newitem) newitem =
        some ((h1 :: t1).getLast (by simp)) from by
        simp [updLink, hna]]
      simp only []
      rw [hch]
    rw [heq]
    refine ⟨rfl, ?_⟩
    rw [List.cons_append, representsB_cons_iff]
    have hglnew : ∀ b, (h1 :: (t1 ++ newitem :: a :: l2)).getLast? = some b →
        (h1 :: (t1 ++ a :: l2)).getLast? = some b := by
      intro b hb
      rw [show h1 :: (t1 ++ newitem :: a :: l2) =
        (h1 :: t1) ++ (newitem :: a :: l2) from rfl,
        List.getLast?_append_of_ne_nil _ (by simp),
        List.getLast?_cons_cons] at hb
      rw [show h1 :: (t1 ++ a :: l2) = (h1 :: t1) ++ (a :: l2) from rfl,
        List.getLast?_append_of_ne_nil _ (by simp)]
      exact hb
    have hamem : ∀ b, (h1 :: (t1 ++ newitem :: a :: l2)).getLast? = some b →
        b ∈ a :: l2 := by
      intro b hb
      rw [show h1 :: (t1 ++ newitem :: a :: l2) =
        (h1 :: t1) ++ (newitem :: a :: l2) from rfl,
        List.getLast?_append_of_ne_nil _ (by simp),
        List.getLast?_cons_cons] at hb
      exact List.mem_of_mem_getLast? hb
    refine ⟨rfl, ?_, ?_, ?_, ?_⟩
    · intro b hb
      have hprev := hph b (hglnew b hb)
      simp only [updLink]
      rw [if_neg hh1n, if_neg hh1a]
      exact hprev
    · rw [show h1 :: (t1 ++ newitem :: a :: l2) =
        (h1 :: t1) ++ (newitem :: a :: l2) from rfl,
        List.chain'_append]
      refine ⟨?_, ?_, ?_⟩
      · refine chain'_next_congr s.next _ _ ?_ hcnl1
        intro x hx
        have hxn : x ≠ newitem := fun he =>
          hnl1 (he ▸ List.dropLast_subset _ hx)
        have hxp : x ≠ (h1 :: t1).getLast (by simp) := fun he =>
          hpnd (he ▸ hx)
        simp only [updLink]
        rw [if_neg hxn, if_neg hxp]
      · rw [List.chain'_cons]
        constructor
        · simp only [updLink]
          rw [if_pos trivial, if_neg hpnn.symm]
        · refine chain'_next_congr s.next _ _ ?_ hcnl2
          intro x hx
          have hxm : x ∈ a :: l2 := List.dropLast_subset _ hx
          have hxn : x ≠ newitem := fun he =>
            hni (he ▸ List.mem_append_right _ hxm)
          have hxp : x ≠ (h1 :: t1).getLast (by simp) := fun he =>
            hdisj (he ▸ hpmem) hxm
          simp only [updLink]
          rw [if_neg hxn, if_neg hxp]
      · intro x hx y hy
        simp only [Option.mem_def, List.head?_cons, Option.some.injEq]
          at hx hy
        rw [hgl1] at hx
        injection hx with hx2
        subst hx2
        subst hy
        simp only [updLink]
        rw [if_neg hpnn, if_pos trivial]
    · intro b hb
      have hbm := hamem b hb
      have hbn : b ≠ newitem := fun he =>
        hni (he ▸ List.mem_append_right _ hbm)
      have hbp : b ≠ (h1 :: t1).getLast (by simp) := fun he =>
        hdisj (he ▸ hpmem) hbm
      simp only [updLink]
      rw [if_neg hbn, if_neg hbp]
      exact hln b (hglnew b hb)
    · rw [show h1 :: (t1 ++ newitem :: a :: l2) =
        (h1 :: t1) ++ (newitem :: a :: l2) from rfl,
        List.chain'_append]
      refine ⟨?_, ?_, ?_⟩
      · refine chain'_prev_congr s.prev _ _ ?_ hcpl1
        intro x hx
        simp only [List.tail] at hx
        have hxn : x ≠ newitem := fun he =>
          hnl1 (he ▸ List.mem_cons_of_mem _ hx)
        have hxa : x ≠ a := fun he =>
          hal1 (he ▸ List.mem_cons_of_mem _ hx)
        simp only [updLink]
        rw [if_neg hxn, if_neg hxa]
      · rw [List.chain'_cons]
        constructor
        · simp only [updLink]
          rw [if_pos trivial]
        · refine chain'_prev_congr s.prev _ _ ?_ hcpl2
          intro x hx
          simp only [List.tail] at hx
          have hxn : x ≠ newitem := fun he =>
            hni (he ▸ List.mem_append_right _ (List.mem_cons_of_mem _ hx))
          have hxa : x ≠ a := fun he => hal2 (he ▸ hx)
          simp only [updLink]
          rw [if_neg hxn, if_neg hxa]
      · intro x hx y hy
        simp only [Option.mem_def, List.head?_cons, Option.some.injEq]
          at hx hy
        rw [hgl1] at hx
        injection hx with hx2
        subst hx2
        subst hy
        simp only [updLink]
        rw [if_neg hna, if_pos trivial]

/-- `cJSON_InsertItemInArray` at any index up to the length returns true and inserts the item at that position in the represented sequence. -/
theorem insert_preserves (s : SList) (xs : List Nat) (which newitem : Nat)
    (hrep : representsB s xs = true) (hnd : xs.Nodup) (hni : newitem ∉ xs)
    (hn : s.next newitem = none) (hw : which ≤ xs.length) :
    (cJSON_InsertItemInArray s which newitem).1 = true ∧
      representsB (cJSON_InsertItemInArray s which newitem).2
        (xs.take which ++ newitem :: xs.drop which) = true := by
  rcases Nat.lt_or_ge which xs.length with hlt | hge
  · have hdrop : xs.drop which = xs.get ⟨which, hlt⟩ :: xs.drop (which + 1) :=
      List.drop_eq_get_cons hlt
    have hdec : xs = xs.take which ++ xs.get ⟨which, hlt⟩ ::
        xs.drop (which + 1) := by
      conv_lhs => rw [← List.take_append_drop which xs]
      rw [hdrop]
    have hget : get_array_item s which = some (xs.get ⟨which, hlt⟩) := by
      rw [get_array_item_spec s xs hrep which, List.get?_eq_get hlt]
    rw [hdrop]
    refine insert_before s (xs.take which) (xs.drop (which + 1)) _ newitem
      which hget ?_ ?_ ?_
    · rw [← hdec]
      exact hrep
    · rw [← hdec]
      exact hnd
    · rw [← hdec]
      exact hni
  · have hwl : which = xs.length := le_antisymm hw hge
    have hget : get_array_item s which = none := by
      rw [get_array_item_spec s xs hrep which]
      exact List.get?_len_le hge
    have hadd := add_item_preserves s xs newitem hrep hnd hni hn
    rw [cJSON_InsertItemInArray, hget]
    simp only []
    rw [hwl, List.take_length, List.drop_length]
    exact hadd

/-- C4: after each mutation operation (append to an array or object, detach
by pointer, replace by pointer, insert at index) on a sibling list
satisfying the invariant, the resulting children list again satisfies the
sibling-list invariant `representsB`: the parent points at the head, the
head's prev points at the tail, consecutive elements are doubly linked, and
the tail's next is NULL. -/
theorem c4_sibling_list_invariant :
    (∀ s xs item, representsB s xs = true → xs.Nodup → item ∉ xs →
      s.next item = none →
      (add_item_to_array s item).1 = true ∧
        representsB (add_item_to_array s item).2 (xs ++ [item]) = true) ∧
    (∀ s l1 l2 item, representsB s (l1 ++ item :: l2) = true →
      (l1 ++ item :: l2).Nodup →
      ∃ t, cJSON_DetachItemViaPointer s item = some t ∧
        representsB t (l1 ++ l2) = true) ∧
    (∀ s l1 l2 item repl, representsB s (l1 ++ item :: l2) = true →
      (l1 ++ item :: l2).Nodup → repl ∉ l1 ++ item :: l2 →
      (cJSON_ReplaceItemViaPointer s item repl).1 = true ∧
        representsB (cJSON_ReplaceItemViaPointer s item repl).2
          (l1 ++ repl :: l2) = true) ∧
    (∀ s xs which newitem, representsB s xs = true → xs.Nodup →
      newitem ∉ xs → s.next newitem = none → which ≤ xs.length →
      (cJSON_InsertItemInArray s which newitem).1 = true ∧
        representsB (cJSON_InsertItemInArray s which newitem).2
          (xs.take which ++ newitem :: xs.drop which) = true) :=
  ⟨fun s xs item => add_item_preserves s xs item,
   fun s l1 l2 item => detach_preserves s l1 l2 item,
   fun s l1 l2 item repl => replace_preserves s l1 l2 item repl,
   fun s xs which newitem => insert_preserves s xs which newitem⟩

/-- Witness for C4: appending node 5 to an empty, well-formed list yields a
one-element list satisfying the invariant. -/
theorem c4_sibling_list_invariant_witness :
    (add_item_to_array
      ⟨none, fun _ => none, fun _ => none⟩ 5).1 = true ∧
    representsB (add_item_to_array
      ⟨none, fun _ => none, fun _ => none⟩ 5).2 ([] ++ [5]) = true :=
  c4_sibling_list_invariant.1 ⟨none, fun _ => none, fun _ => none⟩ [] 5
    rfl (by simp) (by simp) rfl
